import Mathlib

/-!
# Geohash (gsp412/geohash): bisection codec

Shallow embedding of `geohash_base32.go`, `geohash_base4.go` and `distance.go`.

Modelling conventions
* `float64` has two readings, and both are kept.
  - Exact: `EncodeBase32`, `DecodeBase32`, `GetNeighborsBase32`, `Distance`
    and their base-4 counterparts compute in exact rationals (`ℚ`).  Every
    midpoint the code forms is a dyadic multiple of 45, so this is the Go
    arithmetic as long as an axis has received at most 48 bits.  A statement
    about these definitions beyond that is a statement about exact arithmetic,
    and says so.
  - Binary64: the definitions in `F64` (`F64.EncodeBase32`, `F64.DecodeBase32`,
    `F64.GetNeighborsBase32`, `F64.Distance`, ...) are the same code with the
    result of every `+`, `-`, `*`, `/` rounded to the nearest `float64`, ties
    to even (`round64`: 53 significant bits, least step `2 ^ (-1074)`), one
    rounding an operation, no fused multiply-add.  A `float64` value is the
    rational it denotes; the inputs range over all rationals, the `float64`
    values among them.  Overflow to ±Inf is not modelled (no value the codec
    forms exceeds 360); NaN arises only in `Distance`, from `math.Sqrt` of a
    negative number, and is `none`.
  - `F64_EncodeBase32_eq`, `F64_DecodeBase32_eq`, `F64_GetNeighborsBase32_eq`
    and their base-4 counterparts show that the two readings return the same
    results up to precision 19, 18 and 18 (base 4: 48, 47 and 45).
* Go `int` (`precision`, `bit`, `ch`, `length`) is `Int` / `Nat`; no counter
  of the loop can overflow before the loop ends.
* `bytes.Buffer` is the list of the bytes written so far; the returned string
  is `String.mk` of that list.  All bytes written are ASCII.
* `*Box` is `Option Box` (`nil` is `none`), `error` is `Option String`
  (`nil` is `none`, `errors.New m` is `some m`).
* `fmt.Println()` is recorded in the field `out` of the result.
* A run-time panic (index out of range in `DistanceBase32` / `DistanceBase4`,
  `nil` dereference in `GetNeighborsBase32` / `GetNeighborsBase4`) is `none`.
* `len(s)` and `s[i]` of a Go string count and read bytes: `goBytes`.
* `math.Sin`, `math.Cos`, `math.Sqrt`, `math.Atan2` and `math.Pi` belong to
  Go's library, not to this repository; `Distance` takes them as the
  parameter `GoMath`, and statements about its value name the properties of
  these functions they use (`GoMath.Sane` in the exact reading,
  `GoMath.NonNeg` in binary64).
* The `for length < precision` loop is iterated by a structurally recursive
  driver that tests the source's loop condition before every iteration; it is
  started with `5 * precision` (resp. `2 * precision`) iterations available
  and `encodeLoop32_exit` / `encodeLoop4_exit` show that the loop condition is
  false in the state it returns.
-/

namespace Geohash

/-! ## Constants and tables (geohash_base4.go 15-31, geohash_base32.go 15-55) -/

def MaxLatitude : ℚ := 90
def MinLatitude : ℚ := -90
def MaxLongitude : ℚ := 180
def MinLongitude : ℚ := -180

def Base32 : String := "0123456789bcdefghjkmnpqrstuvwxyz"
def Base4 : String := "0123"

def bits32 : List Nat := [16, 8, 4, 2, 1]
def bits4 : List Nat := [2, 1]

def base32 : List Char := Base32.toList
def base4 : List Char := Base4.toList

/-- The map literal `unBase32`, as its list of key/value entries. -/
def unBase32 : List (Char × List Nat) :=
  [ ('0', [0, 0, 0, 0, 0]), ('1', [0, 0, 0, 0, 1]), ('2', [0, 0, 0, 1, 0]),
    ('3', [0, 0, 0, 1, 1]), ('4', [0, 0, 1, 0, 0]), ('5', [0, 0, 1, 0, 1]),
    ('6', [0, 0, 1, 1, 0]), ('7', [0, 0, 1, 1, 1]), ('8', [0, 1, 0, 0, 0]),
    ('9', [0, 1, 0, 0, 1]), ('b', [0, 1, 0, 1, 0]), ('c', [0, 1, 0, 1, 1]),
    ('d', [0, 1, 1, 0, 0]), ('e', [0, 1, 1, 0, 1]), ('f', [0, 1, 1, 1, 0]),
    ('g', [0, 1, 1, 1, 1]), ('h', [1, 0, 0, 0, 0]), ('j', [1, 0, 0, 0, 1]),
    ('k', [1, 0, 0, 1, 0]), ('m', [1, 0, 0, 1, 1]), ('n', [1, 0, 1, 0, 0]),
    ('p', [1, 0, 1, 0, 1]), ('q', [1, 0, 1, 1, 0]), ('r', [1, 0, 1, 1, 1]),
    ('s', [1, 1, 0, 0, 0]), ('t', [1, 1, 0, 0, 1]), ('u', [1, 1, 0, 1, 0]),
    ('v', [1, 1, 0, 1, 1]), ('w', [1, 1, 1, 0, 0]), ('x', [1, 1, 1, 0, 1]),
    ('y', [1, 1, 1, 1, 0]), ('z', [1, 1, 1, 1, 1]) ]

/-- The map literal `unBase4`, as its list of key/value entries. -/
def unBase4 : List (Char × List Nat) :=
  [ ('0', [0, 0]), ('1', [0, 1]), ('2', [1, 0]), ('3', [1, 1]) ]

/-- Map access `m[k]` with the comma-ok form: `none` when the key is absent. -/
def mapGet (m : List (Char × List Nat)) (k : Char) : Option (List Nat) :=
  m.lookup k

/-! ## Box (geohash_base4.go 88-94) -/

structure Box where
  MinLat : ℚ
  MaxLat : ℚ
  MinLng : ℚ
  MaxLng : ℚ
  deriving DecidableEq

def Box.Width (b : Box) : ℚ := b.MaxLng - b.MinLng

def Box.Height (b : Box) : ℚ := b.MaxLat - b.MinLat

/-! ## Encoding (geohash_base32.go 81-128, geohash_base4.go 99-147) -/

/-- The local variables of the encoding loop. -/
structure EncState where
  geoHash : List Char
  minLat : ℚ
  maxLat : ℚ
  minLng : ℚ
  maxLng : ℚ
  bit : Nat
  ch : Nat
  length : Int
  isEven : Bool
  deriving DecidableEq

/-- What an `Encode...` call yields: the three returned values and the text
written to standard output. -/
structure EncodeResult where
  hash : String
  box : Option Box
  err : Option String
  out : String
  deriving DecidableEq

/-- The state before the first iteration (declarations at lines 83-85, 93). -/
def encInit : EncState :=
  { geoHash := [], minLat := MinLatitude, maxLat := MaxLatitude,
    minLng := MinLongitude, maxLng := MaxLongitude,
    bit := 0, ch := 0, length := 0, isEven := true }

/-- The bisection part of one iteration, shared verbatim by both encoders
(base32 lines 95-111, base4 lines 113-129); `bits` is `bits32` or `bits4`. -/
def bisect (bits : List Nat) (latitude longitude : ℚ) (s : EncState) : EncState :=
  let s1 :=
    if s.isEven then
      let mid := (s.minLng + s.maxLng) / 2
      if mid < longitude then
        { s with ch := s.ch ||| bits.getD s.bit 0, minLng := mid }
      else
        { s with maxLng := mid }
    else
      let mid := (s.minLat + s.maxLat) / 2
      if mid < latitude then
        { s with ch := s.ch ||| bits.getD s.bit 0, minLat := mid }
      else
        { s with maxLat := mid }
  { s1 with isEven := !s1.isEven }

/-- One iteration of the loop of `EncodeBase32` (lines 95-117). -/
def encodeStep32 (latitude longitude : ℚ) (s : EncState) : EncState :=
  let s2 := bisect bits32 latitude longitude s
  if s2.bit < 4 then
    { s2 with bit := s2.bit + 1 }
  else
    { s2 with geoHash := s2.geoHash ++ [base32.getD s2.ch '0'],
              length := s2.length + 1, bit := 0, ch := 0 }

/-- One iteration of the loop of `EncodeBase4` (lines 113-135). -/
def encodeStep4 (latitude longitude : ℚ) (s : EncState) : EncState :=
  let s2 := bisect bits4 latitude longitude s
  if s2.bit < 1 then
    { s2 with bit := s2.bit + 1 }
  else
    { s2 with geoHash := s2.geoHash ++ [base4.getD s2.ch '0'],
              length := s2.length + 1, bit := 0, ch := 0 }

/-- The loop `for length < precision { ... }` of `EncodeBase32`. -/
def encodeLoop32 (latitude longitude : ℚ) (precision : Int) : Nat → EncState → EncState
  | 0, s => s
  | n + 1, s =>
    if s.length < precision then
      encodeLoop32 latitude longitude precision n (encodeStep32 latitude longitude s)
    else s

/-- The loop `for length < precision { ... }` of `EncodeBase4`. -/
def encodeLoop4 (latitude longitude : ℚ) (precision : Int) : Nat → EncState → EncState
  | 0, s => s
  | n + 1, s =>
    if s.length < precision then
      encodeLoop4 latitude longitude precision n (encodeStep4 latitude longitude s)
    else s

/-- The tail of both encoders: build the box, print, return (lines 120-127). -/
def encFinish (s : EncState) : EncodeResult :=
  { hash := String.mk s.geoHash,
    box := some { MinLat := s.minLat, MaxLat := s.maxLat,
                  MinLng := s.minLng, MaxLng := s.maxLng },
    err := none,
    out := "\n" }

/-- `EncodeBase32(latitude, longitude, precision)`. -/
def EncodeBase32 (latitude longitude : ℚ) (precision : Int) : EncodeResult :=
  if |latitude| > MaxLatitude then
    { hash := "", box := none, err := some "latitude overrun", out := "" }
  else if |longitude| > MaxLongitude then
    { hash := "", box := none, err := some "longitude overrun", out := "" }
  else
    encFinish (encodeLoop32 latitude longitude precision (5 * precision.toNat) encInit)

/-- `EncodeBase4(latitude, longitude, precision)`. -/
def EncodeBase4 (latitude longitude : ℚ) (precision : Int) : EncodeResult :=
  if |latitude| > MaxLatitude then
    { hash := "", box := none, err := some "latitude overrun", out := "" }
  else if |longitude| > MaxLongitude then
    { hash := "", box := none, err := some "longitude overrun", out := "" }
  else
    encFinish (encodeLoop4 latitude longitude precision (2 * precision.toNat) encInit)

/-! ## Decoding (geohash_base32.go 132-169, geohash_base4.go 151-188) -/

/-- The first loop of both decoders: expand every rune through the reverse
map, stopping at the first rune that is not a key. -/
def expand (m : List (Char × List Nat)) : List Char → List Nat → Option (List Nat)
  | [], ub => some ub
  | b :: rest, ub =>
    match mapGet m b with
    | none => none
    | some u => expand m rest (ub ++ u)

/-- The local variables of the second loop of the decoders. -/
structure DecState where
  lat : ℚ
  lng : ℚ
  minLat : ℚ
  maxLat : ℚ
  minLng : ℚ
  maxLng : ℚ
  isEven : Bool
  deriving DecidableEq

/-- The state before the first bit is consumed (lines 141-146). -/
def decInit : DecState :=
  { lat := (MinLatitude + MaxLatitude) / 2, lng := (MinLongitude + MaxLongitude) / 2,
    minLat := MinLatitude, maxLat := MaxLatitude,
    minLng := MinLongitude, maxLng := MaxLongitude, isEven := true }

/-- One iteration of the second loop (base32 lines 148-166). -/
def decodeStep (s : DecState) (v : Nat) : DecState :=
  let s1 :=
    if s.isEven then
      if v = 0 then
        { s with maxLng := s.lng, lng := (s.minLng + s.lng) / 2 }
      else
        { s with minLng := s.lng, lng := (s.lng + s.maxLng) / 2 }
    else
      if v = 0 then
        { s with maxLat := s.lat, lat := (s.minLat + s.lat) / 2 }
      else
        { s with minLat := s.lat, lat := (s.lat + s.maxLat) / 2 }
  { s1 with isEven := !s1.isEven }

/-- What a `Decode...` call yields. -/
structure DecodeResult where
  lat : ℚ
  lng : ℚ
  err : Option String
  deriving DecidableEq

/-- `DecodeBase32(base32)`. -/
def DecodeBase32 (str : String) : DecodeResult :=
  match expand unBase32 str.toList [] with
  | none => { lat := 0, lng := 0, err := some "base32 invalid" }
  | some ub =>
    let s := ub.foldl decodeStep decInit
    { lat := s.lat, lng := s.lng, err := none }

/-- `DecodeBase4(base4)`. -/
def DecodeBase4 (str : String) : DecodeResult :=
  match expand unBase4 str.toList [] with
  | none => { lat := 0, lng := 0, err := some "base4 invalid" }
  | some ub =>
    let s := ub.foldl decodeStep decInit
    { lat := s.lat, lng := s.lng, err := none }

/-! ## Prefix distance (geohash_base32.go 56-65, 173-191; geohash_base4.go 32-58, 192-210) -/

def distanceBase32 : List ℚ :=
  [20000000, 2500000, 630000, 78000, 20000, 2400, 610, 76]

def distanceBase4 : List ℚ :=
  [20000000, 10000000, 5000000, 2500000, 1250000, 630000, 315000, 157000, 78000, 39000,
   20000, 9728, 4864, 2432, 1216, 608, 304, 152, 76, 38, 19, 9.5, 4.75, 2.37, 1.18]

/-- The bytes of a Go string: `len(s)` is their number and `s[i]` the `i`-th
of them. -/
def goBytes (s : String) : List UInt8 :=
  s.toUTF8.data.toList

/-- The loop `for i := 0; i < l; i++ { if point1[i] != point2[i] { maxPrefix = i; break } }`
started at `i` with `maxPrefix = 0`; the value is `maxPrefix` after the loop.
The first argument bounds the number of iterations and is `l` at the call;
both indices are below `l`, the length of the shorter string. -/
def mismatchLoop (point1 point2 : List UInt8) (l : Nat) : Nat → Nat → Nat
  | 0, _ => 0
  | n + 1, i =>
    if i < l then
      if point1.getD i 0 ≠ point2.getD i 0 then i
      else mismatchLoop point1 point2 l n (i + 1)
    else 0

/-- The body shared by `DistanceBase32` and `DistanceBase4`; `table` is the
calibration table.  `none` is the run-time panic of an index out of range. -/
def distanceWith (table : List ℚ) (point1 point2 : String) : Option ℚ :=
  let l0 := (goBytes point1).length
  let l := if (goBytes point2).length < l0 then (goBytes point2).length else l0
  let maxPrefix := mismatchLoop (goBytes point1) (goBytes point2) l l 0
  if maxPrefix > table.length + 1 then some 0
  else table[maxPrefix]?

/-- `DistanceBase32(point1, point2)`. -/
def DistanceBase32 (point1 point2 : String) : Option ℚ :=
  distanceWith distanceBase32 point1 point2

/-- `DistanceBase4(point1, point2)`. -/
def DistanceBase4 (point1 point2 : String) : Option ℚ :=
  distanceWith distanceBase4 point1 point2

/-! ## Neighbours (geohash_base32.go 195-218, geohash_base4.go 214-237) -/

/-- The body shared by `GetNeighborsBase32` and `GetNeighborsBase4`; `enc` is
the encoder.  `none` is the run-time panic of dereferencing the `nil` box
(`b.MinLat` at the first neighbour) after a failed first call; the errors of
all nine calls are discarded by the source.  The lines printed by the nine
calls are not recorded. -/
def neighborsWith (enc : ℚ → ℚ → Int → EncodeResult) (latitude longitude : ℚ)
    (precision : Int) : Option (List String) :=
  let r := enc latitude longitude precision
  match r.box with
  | none => none
  | some b =>
    let geohashUp := (enc ((b.MinLat + b.MaxLat) / 2 + b.Height) ((b.MinLng + b.MaxLng) / 2) precision).hash
    let geohashDown := (enc ((b.MinLat + b.MaxLat) / 2 - b.Height) ((b.MinLng + b.MaxLng) / 2) precision).hash
    let geohashLeft := (enc ((b.MinLat + b.MaxLat) / 2) ((b.MinLng + b.MaxLng) / 2 - b.Width) precision).hash
    let geohashRight := (enc ((b.MinLat + b.MaxLat) / 2) ((b.MinLng + b.MaxLng) / 2 + b.Width) precision).hash
    let geohashLeftUp := (enc ((b.MinLat + b.MaxLat) / 2 + b.Height) ((b.MinLng + b.MaxLng) / 2 - b.Width) precision).hash
    let geohashLeftDown := (enc ((b.MinLat + b.MaxLat) / 2 - b.Height) ((b.MinLng + b.MaxLng) / 2 - b.Width) precision).hash
    let geohashRightUp := (enc ((b.MinLat + b.MaxLat) / 2 + b.Height) ((b.MinLng + b.MaxLng) / 2 + b.Width) precision).hash
    let geohashRightDown := (enc ((b.MinLat + b.MaxLat) / 2 - b.Height) ((b.MinLng + b.MaxLng) / 2 + b.Width) precision).hash
    some [r.hash, geohashUp, geohashDown, geohashLeft, geohashRight,
          geohashLeftUp, geohashLeftDown, geohashRightUp, geohashRightDown]

/-- `GetNeighborsBase32(latitude, longitude, precision)`. -/
def GetNeighborsBase32 (latitude longitude : ℚ) (precision : Int) : Option (List String) :=
  neighborsWith EncodeBase32 latitude longitude precision

/-- `GetNeighborsBase4(latitude, longitude, precision)`. -/
def GetNeighborsBase4 (latitude longitude : ℚ) (precision : Int) : Option (List String) :=
  neighborsWith EncodeBase4 latitude longitude precision

/-! ## Exact distance (distance.go) -/

/-- The functions and the constant of Go's `math` package that `distance.go`
uses; they are not part of this repository and are taken as parameters.  Like
their `float64` originals they map numbers to numbers. -/
structure GoMath where
  Sin : ℚ → ℚ
  Cos : ℚ → ℚ
  Sqrt : ℚ → ℚ
  Atan2 : ℚ → ℚ → ℚ
  Pi : ℚ

def EarthRadius : ℚ := 6371393

/-- `rad(d)`. -/
def rad (M : GoMath) (d : ℚ) : ℚ :=
  d * M.Pi / 180

/-- `Distance(lng1, lat1, lng2, lat2)`. -/
def Distance (M : GoMath) (lng1 lat1 lng2 lat2 : ℚ) : ℚ :=
  if |lat1| > 90 ∨ |lat2| > 90 then -1
  else if |lng1| > 180 ∨ |lng2| > 180 then -1
  else
    let radLat1 := rad M lat1
    let radLat2 := rad M lat2
    let vLat := |radLat1 - radLat2|
    let vLng := rad M lng1 - rad M lng2
    let a := M.Sin (vLat / 2) * M.Sin (vLat / 2)
      + M.Cos radLat1 * M.Cos radLat2 * M.Sin (vLng / 2) * M.Sin (vLng / 2)
    2 * EarthRadius * M.Atan2 (M.Sqrt a) (M.Sqrt (1 - a))

/-! ## Auxiliary definitions used to state and prove the properties -/

/-- The parameters in which the two encoders differ: the index of the last
bit of a symbol, the weight table, the alphabet and the reverse map. -/
structure Codec where
  last : Nat
  bits : List Nat
  alpha : List Char
  un : List (Char × List Nat)

def codec32 : Codec := { last := 4, bits := bits32, alpha := base32, un := unBase32 }

def codec4 : Codec := { last := 1, bits := bits4, alpha := base4, un := unBase4 }

/-- One loop iteration, written once for both encoders. -/
def stepG (A : Codec) (latitude longitude : ℚ) (s : EncState) : EncState :=
  let s2 := bisect A.bits latitude longitude s
  if s2.bit < A.last then
    { s2 with bit := s2.bit + 1 }
  else
    { s2 with geoHash := s2.geoHash ++ [A.alpha.getD s2.ch '0'],
              length := s2.length + 1, bit := 0, ch := 0 }

/-- The loop, written once for both encoders. -/
def loopG (A : Codec) (latitude longitude : ℚ) (precision : Int) : Nat → EncState → EncState
  | 0, s => s
  | n + 1, s =>
    if s.length < precision then
      loopG A latitude longitude precision n (stepG A latitude longitude s)
    else s

/-- The state after `k` iterations of the loop body. -/
def iterG (A : Codec) (latitude longitude : ℚ) (k : Nat) : EncState :=
  (stepG A latitude longitude)^[k] encInit

/-- The bit the next iteration decides: 1 for the upper half, 0 for the lower. -/
def bitOf (latitude longitude : ℚ) (s : EncState) : Nat :=
  if s.isEven then
    if (s.minLng + s.maxLng) / 2 < longitude then 1 else 0
  else
    if (s.minLat + s.maxLat) / 2 < latitude then 1 else 0

/-- The value of `ch` after the bits `p` of a symbol have been decided, with
weights `w`. -/
def chOf : List Nat → List Nat → Nat
  | w :: ws, b :: bs => (if b = 1 then w else 0) ||| chOf ws bs
  | _, _ => 0

/-- The decoder state that corresponds to an encoder state: same ranges, the
running point at the centre of the box. -/
def decOf (s : EncState) : DecState :=
  { lat := (s.minLat + s.maxLat) / 2, lng := (s.minLng + s.maxLng) / 2,
    minLat := s.minLat, maxLat := s.maxLat,
    minLng := s.minLng, maxLng := s.maxLng, isEven := s.isEven }

/-- The box of an encoder state. -/
def boxOf (s : EncState) : Box :=
  { MinLat := s.minLat, MaxLat := s.maxLat, MinLng := s.minLng, MaxLng := s.maxLng }

/-- The reverse map undoes the alphabet on every complete bit-group. -/
def Codec.Good (A : Codec) : Prop :=
  ∀ p : List Nat, p.length = A.last + 1 → (∀ x ∈ p, x ≤ 1) →
    mapGet A.un (A.alpha.getD (chOf A.bits p) '0') = some p

/-- How an encoder state relates to the bits decided so far: `done` are the
bits of the symbols already written, `pend` the bits of the current symbol. -/
structure EncInv (A : Codec) (s : EncState) (done pend : List Nat) : Prop where
  len : pend.length = s.bit
  bits : ∀ x ∈ pend, x ≤ 1
  hash : expand A.un s.geoHash [] = some done
  ch : s.ch = chOf A.bits pend
  dec : (done ++ pend).foldl decodeStep decInit = decOf s

/-- The offsets `(dy, dx)` of the nine slots, in cells: self, north, south,
west, east, northwest, southwest, northeast, southeast. -/
def neighborOffsets : List (ℚ × ℚ) :=
  [(0, 0), (1, 0), (-1, 0), (0, -1), (0, 1), (1, -1), (-1, -1), (1, 1), (-1, 1)]

/-- Latitude of the centre of `b` shifted by the offset of slot `k`. -/
def shiftedLat (b : Box) (k : Nat) : ℚ :=
  (b.MinLat + b.MaxLat) / 2 + (neighborOffsets.getD k (0, 0)).1 * b.Height

/-- Longitude of the centre of `b` shifted by the offset of slot `k`. -/
def shiftedLng (b : Box) (k : Nat) : ℚ :=
  (b.MinLng + b.MaxLng) / 2 + (neighborOffsets.getD k (0, 0)).2 * b.Width

/-- The sign properties of `math.Sqrt` and `math.Atan2` that the sentinel of
`Distance` relies on: a square root is never negative, and the angle of a
point with a non-negative ordinate is never negative. -/
def GoMath.Sane (M : GoMath) : Prop :=
  (∀ x, 0 ≤ M.Sqrt x) ∧ (∀ y x, 0 ≤ y → 0 ≤ M.Atan2 y x)

/-- A stand-in for the `math` package with these sign properties, to
instantiate statements that hold for every such package. -/
def sampleMath : GoMath :=
  { Sin := fun x => x, Cos := fun _ => 1, Sqrt := fun x => |x|, Atan2 := fun y _ => |y|,
    Pi := 355 / 113 }

/-- Every entry of the reverse map is a complete group of bits, each 0 or 1,
and the alphabet sends that group back to the entry's key. -/
def Codec.Table (A : Codec) : Prop :=
  ∀ e ∈ A.un, e.2.length = A.last + 1 ∧ (∀ x ∈ e.2, x ≤ 1) ∧
    A.alpha.getD (chOf A.bits e.2) '0' = e.1

/-- Invariant of the decoding loop: the running point is the centre of the
current ranges, and the ranges are not empty. -/
structure DecInv (d : DecState) : Prop where
  lat : d.lat = (d.minLat + d.maxLat) / 2
  lng : d.lng = (d.minLng + d.maxLng) / 2
  ltLat : d.minLat < d.maxLat
  ltLng : d.minLng < d.maxLng

/-! ## Binary64 arithmetic

The definitions above compute with exact rationals.  The source computes in
`float64`: every `+`, `-`, `*`, `/` gives the binary64 number nearest to the
exact result, ties to the even significand.  The definitions of this section
and of the next say so; a finite binary64 number is the rational it denotes.
Overflow cannot occur in this code (no magnitude exceeds 540 in the codec). -/

/-- The power `2 ^ u` for an integer `u`. -/
def pow2 (u : ℤ) : ℚ :=
  if 0 ≤ u then ((2 ^ u.toNat : ℕ) : ℚ) else 1 / ((2 ^ (-u).toNat : ℕ) : ℚ)

/-- The loop of `ilog2`: halve `n` until it is below 2, at most `fuel` times. -/
def log2Fuel : Nat → Nat → Nat
  | 0, _ => 0
  | fuel + 1, n => if n < 2 then 0 else log2Fuel fuel (n / 2) + 1

/-- The position of the leading bit of `n`, that is `⌊log₂ n⌋` (0 for `n = 0`);
`n` halvings are always enough. -/
def ilog2 (n : Nat) : Nat := log2Fuel n n

/-- The binary exponent of a positive rational: the `e` with
`2 ^ e ≤ a < 2 ^ (e + 1)`. -/
def expOf (a : ℚ) : ℤ :=
  let e0 : ℤ := (ilog2 a.num.natAbs : ℤ) - (ilog2 a.den : ℤ)
  if a < pow2 e0 then e0 - 1 else e0

/-- The integer nearest to a non-negative rational, ties to the even one. -/
def roundHalfEven (s : ℚ) : ℤ :=
  let f := ⌊s⌋
  if s - f < 1 / 2 then f
  else if 1 / 2 < s - f then f + 1
  else if f % 2 = 0 then f else f + 1

/-- Rounding to binary64: 53 significant bits, the unit in the last place at
least `2 ^ -1074`, round to nearest, ties to even. -/
def round64 (q : ℚ) : ℚ :=
  if q = 0 then 0
  else
    let u := max (expOf |q| - 52) (-1074)
    (if q < 0 then -1 else 1) * (roundHalfEven (|q| / pow2 u) : ℚ) * pow2 u

/-- The `float64` sum `x + y`. -/
def F64.add (x y : ℚ) : ℚ := round64 (x + y)

/-- The `float64` difference `x - y`. -/
def F64.sub (x y : ℚ) : ℚ := round64 (x - y)

/-- The `float64` product `x * y`. -/
def F64.mul (x y : ℚ) : ℚ := round64 (x * y)

/-- The `float64` quotient `x / y`. -/
def F64.div (x y : ℚ) : ℚ := round64 (x / y)

/-- The `float64` expression `(x + y) / 2`. -/
def F64.mid (x y : ℚ) : ℚ := F64.div (F64.add x y) 2

/-! ## The codec in binary64 (same source lines as above) -/

/-- `(b *Box) Width()` in `float64`. -/
def F64.Width (b : Box) : ℚ := F64.sub b.MaxLng b.MinLng

/-- `(b *Box) Height()` in `float64`. -/
def F64.Height (b : Box) : ℚ := F64.sub b.MaxLat b.MinLat

/-- The bisection part of one iteration of the encoders, in `float64`. -/
def F64.bisect (bits : List Nat) (latitude longitude : ℚ) (s : EncState) : EncState :=
  let s1 :=
    if s.isEven then
      let mid := F64.mid s.minLng s.maxLng
      if mid < longitude then
        { s with ch := s.ch ||| bits.getD s.bit 0, minLng := mid }
      else
        { s with maxLng := mid }
    else
      let mid := F64.mid s.minLat s.maxLat
      if mid < latitude then
        { s with ch := s.ch ||| bits.getD s.bit 0, minLat := mid }
      else
        { s with maxLat := mid }
  { s1 with isEven := !s1.isEven }

/-- One iteration of the loop of `EncodeBase32` (`A = codec32`) or
`EncodeBase4` (`A = codec4`), in `float64`. -/
def F64.encodeStep (A : Codec) (latitude longitude : ℚ) (s : EncState) : EncState :=
  let s2 := F64.bisect A.bits latitude longitude s
  if s2.bit < A.last then
    { s2 with bit := s2.bit + 1 }
  else
    { s2 with geoHash := s2.geoHash ++ [A.alpha.getD s2.ch '0'],
              length := s2.length + 1, bit := 0, ch := 0 }

/-- The loop `for length < precision { ... }` of the encoders, in `float64`. -/
def F64.encodeLoop (A : Codec) (latitude longitude : ℚ) (precision : Int) :
    Nat → EncState → EncState
  | 0, s => s
  | n + 1, s =>
    if s.length < precision then
      F64.encodeLoop A latitude longitude precision n (F64.encodeStep A latitude longitude s)
    else s

/-- The body shared by `EncodeBase32` and `EncodeBase4`, in `float64`. -/
def F64.encode (A : Codec) (latitude longitude : ℚ) (precision : Int) : EncodeResult :=
  if |latitude| > MaxLatitude then
    { hash := "", box := none, err := some "latitude overrun", out := "" }
  else if |longitude| > MaxLongitude then
    { hash := "", box := none, err := some "longitude overrun", out := "" }
  else
    encFinish (F64.encodeLoop A latitude longitude precision
      ((A.last + 1) * precision.toNat) encInit)

/-- `EncodeBase32(latitude, longitude, precision)` in `float64`. -/
def F64.EncodeBase32 (latitude longitude : ℚ) (precision : Int) : EncodeResult :=
  F64.encode codec32 latitude longitude precision

/-- `EncodeBase4(latitude, longitude, precision)` in `float64`. -/
def F64.EncodeBase4 (latitude longitude : ℚ) (precision : Int) : EncodeResult :=
  F64.encode codec4 latitude longitude precision

/-- One iteration of the second loop of the decoders, in `float64`. -/
def F64.decodeStep (s : DecState) (v : Nat) : DecState :=
  let s1 :=
    if s.isEven then
      if v = 0 then
        { s with maxLng := s.lng, lng := F64.mid s.minLng s.lng }
      else
        { s with minLng := s.lng, lng := F64.mid s.lng s.maxLng }
    else
      if v = 0 then
        { s with maxLat := s.lat, lat := F64.mid s.minLat s.lat }
      else
        { s with minLat := s.lat, lat := F64.mid s.lat s.maxLat }
  { s1 with isEven := !s1.isEven }

/-- The body shared by `DecodeBase32` and `DecodeBase4`, in `float64`; `msg`
is the text of the error. -/
def F64.decode (un : List (Char × List Nat)) (msg : String) (str : String) : DecodeResult :=
  match expand un str.toList [] with
  | none => { lat := 0, lng := 0, err := some msg }
  | some ub =>
    let s := ub.foldl F64.decodeStep decInit
    { lat := s.lat, lng := s.lng, err := none }

/-- `DecodeBase32(base32)` in `float64`. -/
def F64.DecodeBase32 (str : String) : DecodeResult :=
  F64.decode unBase32 "base32 invalid" str

/-- `DecodeBase4(base4)` in `float64`. -/
def F64.DecodeBase4 (str : String) : DecodeResult :=
  F64.decode unBase4 "base4 invalid" str

/-- The body shared by `GetNeighborsBase32` and `GetNeighborsBase4`, in
`float64`. -/
def F64.neighborsWith (enc : ℚ → ℚ → Int → EncodeResult) (latitude longitude : ℚ)
    (precision : Int) : Option (List String) :=
  let r := enc latitude longitude precision
  match r.box with
  | none => none
  | some b =>
    let cLat := F64.mid b.MinLat b.MaxLat
    let cLng := F64.mid b.MinLng b.MaxLng
    let geohashUp := (enc (F64.add cLat (F64.Height b)) cLng precision).hash
    let geohashDown := (enc (F64.sub cLat (F64.Height b)) cLng precision).hash
    let geohashLeft := (enc cLat (F64.sub cLng (F64.Width b)) precision).hash
    let geohashRight := (enc cLat (F64.add cLng (F64.Width b)) precision).hash
    let geohashLeftUp :=
      (enc (F64.add cLat (F64.Height b)) (F64.sub cLng (F64.Width b)) precision).hash
    let geohashLeftDown :=
      (enc (F64.sub cLat (F64.Height b)) (F64.sub cLng (F64.Width b)) precision).hash
    let geohashRightUp :=
      (enc (F64.add cLat (F64.Height b)) (F64.add cLng (F64.Width b)) precision).hash
    let geohashRightDown :=
      (enc (F64.sub cLat (F64.Height b)) (F64.add cLng (F64.Width b)) precision).hash
    some [r.hash, geohashUp, geohashDown, geohashLeft, geohashRight,
          geohashLeftUp, geohashLeftDown, geohashRightUp, geohashRightDown]

/-- `GetNeighborsBase32(latitude, longitude, precision)` in `float64`. -/
def F64.GetNeighborsBase32 (latitude longitude : ℚ) (precision : Int) : Option (List String) :=
  F64.neighborsWith F64.EncodeBase32 latitude longitude precision

/-- `GetNeighborsBase4(latitude, longitude, precision)` in `float64`. -/
def F64.GetNeighborsBase4 (latitude longitude : ℚ) (precision : Int) : Option (List String) :=
  F64.neighborsWith F64.EncodeBase4 latitude longitude precision

/-- The state of the exact decoding loop after `n` bits lies on the grid:
the ranges are cells of the subdivision into `2 ^ ((n + 1) / 2)` longitude and
`2 ^ (n / 2)` latitude steps, and the running point is their centre. -/
structure DecGrid (d : DecState) (n : Nat) : Prop where
  lng : ∃ j : ℤ, d.minLng = -180 + j * (360 / 2 ^ ((n + 1) / 2))
  lat : ∃ m : ℤ, d.minLat = -90 + m * (180 / 2 ^ (n / 2))
  maxLng : d.maxLng = d.minLng + 360 / 2 ^ ((n + 1) / 2)
  maxLat : d.maxLat = d.minLat + 180 / 2 ^ (n / 2)
  cLng : d.lng = d.minLng + 360 / 2 ^ ((n + 1) / 2) / 2
  cLat : d.lat = d.minLat + 180 / 2 ^ (n / 2) / 2
  even : d.isEven = decide (n % 2 = 0)
  loLng : -180 ≤ d.minLng
  hiLng : d.maxLng ≤ 180
  loLat : -90 ≤ d.minLat
  hiLat : d.maxLat ≤ 90

/-! ## `Distance` in binary64 (distance.go) -/

/-- `rad(d)` in `float64`. -/
def F64.rad (M : GoMath) (d : ℚ) : ℚ :=
  F64.div (F64.mul d M.Pi) 180

/-- `math.Sqrt(x)`: NaN (`none`) for a negative `x`. -/
def F64.Sqrt (M : GoMath) (x : ℚ) : Option ℚ :=
  if x < 0 then none else some (M.Sqrt x)

/-- The value of the local variable `a` of `Distance` (lines 22-31), in
`float64`. -/
def F64.haversine (M : GoMath) (lng1 lat1 lng2 lat2 : ℚ) : ℚ :=
  let radLat1 := F64.rad M lat1
  let radLat2 := F64.rad M lat2
  let vLat := |F64.sub radLat1 radLat2|
  let vLng := F64.sub (F64.rad M lng1) (F64.rad M lng2)
  F64.add (F64.mul (M.Sin (F64.div vLat 2)) (M.Sin (F64.div vLat 2)))
    (F64.mul (F64.mul (F64.mul (M.Cos radLat1) (M.Cos radLat2)) (M.Sin (F64.div vLng 2)))
      (M.Sin (F64.div vLng 2)))

/-- `Distance(lng1, lat1, lng2, lat2)` in `float64`; `none` is the result NaN,
which `math.Sqrt` gives for a negative argument and every later operation
passes on. -/
def F64.Distance (M : GoMath) (lng1 lat1 lng2 lat2 : ℚ) : Option ℚ :=
  if |lat1| > 90 ∨ |lat2| > 90 then some (-1)
  else if |lng1| > 180 ∨ |lng2| > 180 then some (-1)
  else
    let a := F64.haversine M lng1 lat1 lng2 lat2
    match F64.Sqrt M a, F64.Sqrt M (F64.sub 1 a) with
    | some y, some x => some (F64.mul (2 * EarthRadius) (M.Atan2 y x))
    | _, _ => none

/-- What the sentinel of `Distance` relies on, as far as it holds of the
`math` package: the square root of a non-negative number is not negative, and
the angle of a point with a non-negative ordinate is not negative. -/
def GoMath.NonNeg (M : GoMath) : Prop :=
  (∀ x, 0 ≤ x → 0 ≤ M.Sqrt x) ∧ (∀ y x, 0 ≤ y → 0 ≤ M.Atan2 y x)

/-- The `math` package at the arguments that `Distance(180, 7, 0, -7)` passes
to it: `Pi` is the `float64` constant, `Sin` and `Cos` return at 7 degrees and
at 90 degrees (in radians, as `rad` computes them) the `float64` values of the
pure-Go `math.Sin` and `math.Cos`: 0.12186934340514748, 1 and
0.9925461516413221.  Elsewhere, and for `Sqrt` and `Atan2`, it is a stand-in
with the right signs. -/
def tableMath : GoMath :=
  { Sin := fun x =>
      if x = 2200873967297737 / 18014398509481984 then 8781611672756947 / 72057594037927936
      else if x = 884279719003555 / 562949953421312 then 1
      else x,
    Cos := fun x =>
      if |x| = 2200873967297737 / 18014398509481984 then 2235015239339939 / 2251799813685248
      else 1,
    Sqrt := fun x => |x|,
    Atan2 := fun y _ => |y|,
    Pi := 884279719003555 / 281474976710656 }

/-! ## The loop and its iterations -/

theorem encodeStep32_eq : encodeStep32 = stepG codec32 := rfl

theorem encodeStep4_eq : encodeStep4 = stepG codec4 := rfl

theorem encodeLoop32_eq (lat lng : ℚ) (P : Int) (n : Nat) (s : EncState) :
    encodeLoop32 lat lng P n s = loopG codec32 lat lng P n s := by
  induction n generalizing s with
  | zero => rfl
  | succ n ih => simp only [encodeLoop32, loopG, ih, encodeStep32_eq]

theorem encodeLoop4_eq (lat lng : ℚ) (P : Int) (n : Nat) (s : EncState) :
    encodeLoop4 lat lng P n s = loopG codec4 lat lng P n s := by
  induction n generalizing s with
  | zero => rfl
  | succ n ih => simp only [encodeLoop4, loopG, ih, encodeStep4_eq]

@[simp] theorem bisect_bit (w : List Nat) (lat lng : ℚ) (s : EncState) :
    (bisect w lat lng s).bit = s.bit := by
  simp only [bisect]; split_ifs <;> rfl

@[simp] theorem bisect_length (w : List Nat) (lat lng : ℚ) (s : EncState) :
    (bisect w lat lng s).length = s.length := by
  simp only [bisect]; split_ifs <;> rfl

@[simp] theorem bisect_geoHash (w : List Nat) (lat lng : ℚ) (s : EncState) :
    (bisect w lat lng s).geoHash = s.geoHash := by
  simp only [bisect]; split_ifs <;> rfl

@[simp] theorem bisect_isEven (w : List Nat) (lat lng : ℚ) (s : EncState) :
    (bisect w lat lng s).isEven = !s.isEven := by
  simp only [bisect]; split_ifs <;> rfl

theorem bisect_ch (w : List Nat) (lat lng : ℚ) (s : EncState) :
    (bisect w lat lng s).ch
      = s.ch ||| (if bitOf lat lng s = 1 then w.getD s.bit 0 else 0) := by
  simp only [bisect, bitOf]; split_ifs <;> simp_all

theorem iterG_succ (A : Codec) (lat lng : ℚ) (k : Nat) :
    iterG A lat lng (k + 1) = stepG A lat lng (iterG A lat lng k) := by
  unfold iterG; exact Function.iterate_succ_apply' _ _ _

theorem succ_mod_div (k n : Nat) (hn : 0 < n) :
    (k % n + 1 < n → (k + 1) % n = k % n + 1 ∧ (k + 1) / n = k / n) ∧
    (¬ k % n + 1 < n → (k + 1) % n = 0 ∧ (k + 1) / n = k / n + 1) := by
  have hlt : k % n < n := Nat.mod_lt _ hn
  have hk : k + 1 = (k % n + 1) + n * (k / n) := by
    have := Nat.div_add_mod k n; omega
  constructor
  · intro h
    rw [hk, Nat.add_mul_mod_self_left, Nat.add_mul_div_left _ _ hn, Nat.mod_eq_of_lt h,
      Nat.div_eq_of_lt h]
    simp
  · intro h
    have h1 : k % n + 1 = n := by omega
    rw [hk, Nat.add_mul_mod_self_left, Nat.add_mul_div_left _ _ hn, h1, Nat.mod_self,
      Nat.div_self hn]
    simp [Nat.add_comm]

/-- The counters after `k` iterations. -/
theorem iterG_counters (A : Codec) (lat lng : ℚ) (k : Nat) :
    (iterG A lat lng k).bit = k % (A.last + 1) ∧
    (iterG A lat lng k).length = ((k / (A.last + 1) : Nat) : Int) ∧
    (iterG A lat lng k).geoHash.length = k / (A.last + 1) ∧
    (iterG A lat lng k).isEven = decide (k % 2 = 0) := by
  induction k with
  | zero => simp [iterG, encInit]
  | succ k ih =>
    obtain ⟨hb, hl, hg, he⟩ := ih
    obtain ⟨h1, h2⟩ := succ_mod_div k (A.last + 1) (Nat.succ_pos _)
    have hev : (!(iterG A lat lng k).isEven) = decide ((k + 1) % 2 = 0) := by
      rw [he]
      rcases Nat.mod_two_eq_zero_or_one k with h | h
      · have : (k + 1) % 2 = 1 := by omega
        simp [h, this]
      · have : (k + 1) % 2 = 0 := by omega
        simp [h, this]
    rw [iterG_succ]
    unfold stepG
    simp only [bisect_bit, bisect_length, bisect_geoHash, bisect_isEven]
    split_ifs with h
    · rw [hb] at h
      obtain ⟨e1, e2⟩ := h1 (by omega)
      simp only [bisect_bit, bisect_length, bisect_geoHash, bisect_isEven]
      exact ⟨by rw [hb, e1], by rw [hl, e2], by rw [hg, e2], hev⟩
    · rw [hb] at h
      obtain ⟨e1, e2⟩ := h2 (by omega)
      simp only [bisect_bit, bisect_length, bisect_geoHash, bisect_isEven]
      refine ⟨e1.symm, by rw [hl, e2]; push_cast; ring, ?_, hev⟩
      rw [List.length_append, hg, e2]; rfl

/-- While iterations remain before `precision` symbols are complete, the loop
runs its body. -/
theorem loopG_eq_iterate (A : Codec) (lat lng : ℚ) (P : Int) (n : Nat) (s : EncState)
    (hb : s.bit ≤ A.last)
    (h : ((A.last + 1 : Nat) : Int) * s.length + s.bit + n ≤ ((A.last + 1 : Nat) : Int) * P) :
    loopG A lat lng P n s = (stepG A lat lng)^[n] s := by
  induction n generalizing s with
  | zero => rfl
  | succ n ih =>
    have hlt : s.length < P := by
      push_cast at h
      nlinarith
    rw [loopG, if_pos hlt, Function.iterate_succ_apply]
    apply ih
    · unfold stepG; simp only [bisect_bit]; split_ifs with hc
      · show s.bit + 1 ≤ A.last
        omega
      · show 0 ≤ A.last
        omega
    · unfold stepG; simp only [bisect_bit, bisect_length]; split_ifs with hc
      · show _ * s.length + ((s.bit + 1 : Nat) : Int) + _ ≤ _
        push_cast at h ⊢; linarith
      · show _ * (s.length + 1) + ((0 : Nat) : Int) + _ ≤ _
        have : s.bit = A.last := by omega
        rw [this] at h
        push_cast at h ⊢; linarith

/-- The loop of either encoder equals the plain iteration of its body. -/
theorem loopG_full (A : Codec) (lat lng : ℚ) (P : Int) :
    loopG A lat lng P ((A.last + 1) * P.toNat) encInit
      = iterG A lat lng ((A.last + 1) * P.toNat) := by
  unfold iterG
  rcases le_or_lt 0 P with hP | hP
  · apply loopG_eq_iterate
    · simp [encInit]
    · simp only [encInit]
      push_cast
      rw [Int.toNat_of_nonneg hP]
      simp
  · have : P.toNat = 0 := Int.toNat_eq_zero.mpr hP.le
    rw [this]; rfl

/-- The loop condition `length < precision` is false when the loop returns. -/
theorem loopG_exit (A : Codec) (lat lng : ℚ) (P : Int) :
    ¬ (loopG A lat lng P ((A.last + 1) * P.toNat) encInit).length < P := by
  rw [loopG_full]
  rw [(iterG_counters A lat lng _).2.1, Nat.mul_div_cancel_left _ (Nat.succ_pos _)]
  have := Int.self_le_toNat P
  omega

theorem encodeLoop32_exit (lat lng : ℚ) (P : Int) :
    ¬ (encodeLoop32 lat lng P (5 * P.toNat) encInit).length < P := by
  rw [encodeLoop32_eq]; exact loopG_exit codec32 lat lng P

theorem encodeLoop4_exit (lat lng : ℚ) (P : Int) :
    ¬ (encodeLoop4 lat lng P (2 * P.toNat) encInit).length < P := by
  rw [encodeLoop4_eq]; exact loopG_exit codec4 lat lng P

/-! ## The ranges along the iterations -/

theorem stepG_isEven (A : Codec) (lat lng : ℚ) (s : EncState) :
    (stepG A lat lng s).isEven = !s.isEven := by
  simp only [stepG, bisect]; split_ifs <;> rfl

theorem stepG_minLng (A : Codec) (lat lng : ℚ) (s : EncState) :
    (stepG A lat lng s).minLng
      = if s.isEven = true ∧ (s.minLng + s.maxLng) / 2 < lng then (s.minLng + s.maxLng) / 2
        else s.minLng := by
  simp only [stepG, bisect]; split_ifs <;> simp_all

theorem stepG_maxLng (A : Codec) (lat lng : ℚ) (s : EncState) :
    (stepG A lat lng s).maxLng
      = if s.isEven = true ∧ ¬ (s.minLng + s.maxLng) / 2 < lng then (s.minLng + s.maxLng) / 2
        else s.maxLng := by
  simp only [stepG, bisect]; split_ifs <;> simp_all

theorem stepG_minLat (A : Codec) (lat lng : ℚ) (s : EncState) :
    (stepG A lat lng s).minLat
      = if s.isEven = false ∧ (s.minLat + s.maxLat) / 2 < lat then (s.minLat + s.maxLat) / 2
        else s.minLat := by
  simp only [stepG, bisect]; split_ifs <;> simp_all

theorem stepG_maxLat (A : Codec) (lat lng : ℚ) (s : EncState) :
    (stepG A lat lng s).maxLat
      = if s.isEven = false ∧ ¬ (s.minLat + s.maxLat) / 2 < lat then (s.minLat + s.maxLat) / 2
        else s.maxLat := by
  simp only [stepG, bisect]; split_ifs <;> simp_all

/-- Width and height after `k` iterations: longitude has received
`(k + 1) / 2` bits and latitude `k / 2`. -/
theorem iterG_size (A : Codec) (lat lng : ℚ) (k : Nat) :
    (iterG A lat lng k).maxLng - (iterG A lat lng k).minLng = 360 / 2 ^ ((k + 1) / 2) ∧
    (iterG A lat lng k).maxLat - (iterG A lat lng k).minLat = 180 / 2 ^ (k / 2) := by
  induction k with
  | zero => simp [iterG, encInit, MaxLongitude, MinLongitude, MaxLatitude, MinLatitude]; norm_num
  | succ k ih =>
    obtain ⟨hw, hh⟩ := ih
    have he := (iterG_counters A lat lng k).2.2.2
    rw [iterG_succ, stepG_minLng, stepG_maxLng, stepG_minLat, stepG_maxLat, he]
    rcases Nat.mod_two_eq_zero_or_one k with h | h
    · have e1 : (k + 1 + 1) / 2 = (k + 1) / 2 + 1 := by omega
      have e2 : (k + 1) / 2 = k / 2 := by omega
      rw [e1, e2, pow_succ]
      rw [e2] at hw
      simp only [h, decide_True, true_and, Bool.true_eq_false, false_and, if_false]
      constructor
      · split_ifs <;> field_simp at hw ⊢ <;> linarith
      · exact hh
    · have e1 : (k + 1 + 1) / 2 = (k + 1) / 2 := by omega
      have e2 : (k + 1) / 2 = k / 2 + 1 := by omega
      have hne : ¬ (k % 2 = 0) := by omega
      rw [e1]
      simp only [hne, decide_False, Bool.false_eq_true, false_and, if_false, true_and]
      constructor
      · exact hw
      · rw [e2, pow_succ]
        split_ifs <;> field_simp at hh ⊢ <;> linarith

theorem iterG_lt (A : Codec) (lat lng : ℚ) (k : Nat) :
    (iterG A lat lng k).minLng < (iterG A lat lng k).maxLng ∧
    (iterG A lat lng k).minLat < (iterG A lat lng k).maxLat := by
  obtain ⟨hw, hh⟩ := iterG_size A lat lng k
  have h1 : (0 : ℚ) < 360 / 2 ^ ((k + 1) / 2) := by positivity
  have h2 : (0 : ℚ) < 180 / 2 ^ (k / 2) := by positivity
  constructor <;> linarith

/-- One iteration never widens a range. -/
theorem iterG_succ_nested (A : Codec) (lat lng : ℚ) (k : Nat) :
    (iterG A lat lng k).minLng ≤ (iterG A lat lng (k + 1)).minLng ∧
    (iterG A lat lng (k + 1)).maxLng ≤ (iterG A lat lng k).maxLng ∧
    (iterG A lat lng k).minLat ≤ (iterG A lat lng (k + 1)).minLat ∧
    (iterG A lat lng (k + 1)).maxLat ≤ (iterG A lat lng k).maxLat := by
  obtain ⟨h1, h2⟩ := iterG_lt A lat lng k
  rw [iterG_succ, stepG_minLng, stepG_maxLng, stepG_minLat, stepG_maxLat]
  refine ⟨?_, ?_, ?_, ?_⟩ <;> split_ifs <;> linarith

theorem iterG_nested (A : Codec) (lat lng : ℚ) (k n : Nat) :
    (iterG A lat lng k).minLng ≤ (iterG A lat lng (k + n)).minLng ∧
    (iterG A lat lng (k + n)).maxLng ≤ (iterG A lat lng k).maxLng ∧
    (iterG A lat lng k).minLat ≤ (iterG A lat lng (k + n)).minLat ∧
    (iterG A lat lng (k + n)).maxLat ≤ (iterG A lat lng k).maxLat := by
  induction n with
  | zero => simp
  | succ n ih =>
    obtain ⟨a1, a2, a3, a4⟩ := ih
    obtain ⟨b1, b2, b3, b4⟩ := iterG_succ_nested A lat lng (k + n)
    rw [← Nat.add_assoc]
    exact ⟨a1.trans b1, b2.trans a2, a3.trans b3, b4.trans a4⟩

/-- A point of the full range stays inside the box of every iteration. -/
theorem iterG_contains (A : Codec) (lat lng : ℚ) (hlat : |lat| ≤ 90) (hlng : |lng| ≤ 180)
    (k : Nat) :
    (iterG A lat lng k).minLng ≤ lng ∧ lng ≤ (iterG A lat lng k).maxLng ∧
    (iterG A lat lng k).minLat ≤ lat ∧ lat ≤ (iterG A lat lng k).maxLat := by
  induction k with
  | zero =>
    rw [abs_le] at hlat hlng
    simp only [iterG, Function.iterate_zero, id, encInit, MaxLongitude, MinLongitude,
      MaxLatitude, MinLatitude]
    exact ⟨hlng.1, hlng.2, hlat.1, hlat.2⟩
  | succ k ih =>
    obtain ⟨a1, a2, a3, a4⟩ := ih
    rw [iterG_succ, stepG_minLng, stepG_maxLng, stepG_minLat, stepG_maxLat]
    refine ⟨?_, ?_, ?_, ?_⟩ <;> split_ifs with h <;> first | assumption | skip
    · exact h.2.le
    · exact not_lt.mp h.2
    · exact h.2.le
    · exact not_lt.mp h.2

theorem iterG_one (A : Codec) (lat lng : ℚ) :
    iterG A lat lng 1 = stepG A lat lng encInit := rfl

theorem iterG_one_lat (A : Codec) (lat lng : ℚ) :
    (iterG A lat lng 1).minLat = -90 ∧ (iterG A lat lng 1).maxLat = 90 ∧
    (iterG A lat lng 1).isEven = false := by
  rw [iterG_one, stepG_minLat, stepG_maxLat, stepG_isEven]
  simp [encInit, MinLatitude, MaxLatitude]

/-- The first longitude bit fixes the sign of the longitude range. -/
theorem iterG_sign_lng (A : Codec) (lat lng : ℚ) (k : Nat) :
    (0 < lng → 0 ≤ (iterG A lat lng (k + 1)).minLng) ∧
    (¬ 0 < lng → (iterG A lat lng (k + 1)).maxLng ≤ 0 ∧ (iterG A lat lng (k + 1)).minLng < 0) := by
  induction k with
  | zero =>
    have e : (encInit.minLng + encInit.maxLng) / 2 = 0 := by
      simp [encInit, MinLongitude, MaxLongitude]
    have e1 : encInit.minLng = -180 := rfl
    have e2 : encInit.isEven = true := rfl
    rw [iterG_one, stepG_minLng, stepG_maxLng, e, e1, e2]
    constructor
    · intro h; simp [h]
    · intro h; simp [h]
  | succ k ih =>
    obtain ⟨a1, a2⟩ := ih
    obtain ⟨b1, b2, -, -⟩ := iterG_succ_nested A lat lng (k + 1)
    obtain ⟨c1, -⟩ := iterG_lt A lat lng (k + 1 + 1)
    constructor
    · intro h; exact (a1 h).trans b1
    · intro h
      have hm := (a2 h).1
      constructor <;> linarith

/-- The first latitude bit fixes the sign of the latitude range. -/
theorem iterG_sign_lat (A : Codec) (lat lng : ℚ) (k : Nat) :
    (0 < lat → 0 ≤ (iterG A lat lng (k + 2)).minLat) ∧
    (¬ 0 < lat → (iterG A lat lng (k + 2)).maxLat ≤ 0 ∧ (iterG A lat lng (k + 2)).minLat < 0) := by
  induction k with
  | zero =>
    obtain ⟨e1, e2, e3⟩ := iterG_one_lat A lat lng
    have e : ((iterG A lat lng 1).minLat + (iterG A lat lng 1).maxLat) / 2 = 0 := by
      rw [e1, e2]; norm_num
    rw [iterG_succ, stepG_minLat, stepG_maxLat, e, e1, e3]
    constructor
    · intro h; simp [h]
    · intro h; simp [h]
  | succ k ih =>
    obtain ⟨a1, a2⟩ := ih
    obtain ⟨-, -, b1, b2⟩ := iterG_succ_nested A lat lng (k + 2)
    obtain ⟨-, c1⟩ := iterG_lt A lat lng (k + 2 + 1)
    constructor
    · intro h; exact (a1 h).trans b1
    · intro h
      have hm := (a2 h).1
      constructor <;> linarith

theorem EncodeBase32_valid (lat lng : ℚ) (P : Int) (hlat : |lat| ≤ 90) (hlng : |lng| ≤ 180) :
    EncodeBase32 lat lng P = encFinish (iterG codec32 lat lng (5 * P.toNat)) := by
  unfold EncodeBase32
  rw [if_neg (by simpa [MaxLatitude] using hlat), if_neg (by simpa [MaxLongitude] using hlng),
    encodeLoop32_eq]
  exact congrArg encFinish (loopG_full codec32 lat lng P)

theorem EncodeBase4_valid (lat lng : ℚ) (P : Int) (hlat : |lat| ≤ 90) (hlng : |lng| ≤ 180) :
    EncodeBase4 lat lng P = encFinish (iterG codec4 lat lng (2 * P.toNat)) := by
  unfold EncodeBase4
  rw [if_neg (by simpa [MaxLatitude] using hlat), if_neg (by simpa [MaxLongitude] using hlng),
    encodeLoop4_eq]
  exact congrArg encFinish (loopG_full codec4 lat lng P)

theorem EncodeBase32_nat (lat lng : ℚ) (P : Nat) (hlat : |lat| ≤ 90) (hlng : |lng| ≤ 180) :
    EncodeBase32 lat lng P = encFinish (iterG codec32 lat lng (5 * P)) := by
  rw [EncodeBase32_valid lat lng P hlat hlng, Int.toNat_natCast]

theorem EncodeBase4_nat (lat lng : ℚ) (P : Nat) (hlat : |lat| ≤ 90) (hlng : |lng| ≤ 180) :
    EncodeBase4 lat lng P = encFinish (iterG codec4 lat lng (2 * P)) := by
  rw [EncodeBase4_valid lat lng P hlat hlng, Int.toNat_natCast]

theorem encFinish_box (s : EncState) : (encFinish s).box = some (boxOf s) := rfl

theorem encFinish_hash (s : EncState) : (encFinish s).hash = String.mk s.geoHash := rfl

/-! ## The written symbols along the iterations -/

theorem stepG_geoHash_grows (A : Codec) (lat lng : ℚ) (s : EncState) :
    s.geoHash <+: (stepG A lat lng s).geoHash := by
  simp only [stepG]
  split_ifs
  · simp only [bisect_geoHash]; exact List.prefix_refl _
  · simp only [bisect_geoHash]; exact List.prefix_append _ _

theorem iterG_geoHash_grows (A : Codec) (lat lng : ℚ) (k n : Nat) :
    (iterG A lat lng k).geoHash <+: (iterG A lat lng (k + n)).geoHash := by
  induction n with
  | zero => exact List.prefix_refl _
  | succ n ih =>
    rw [← Nat.add_assoc, iterG_succ]
    exact ih.trans (stepG_geoHash_grows A lat lng _)

/-- The hash after `P1` symbols is the first `P1` characters of the hash after
`P2 ≥ P1` symbols. -/
theorem iterG_hash_take (A : Codec) (lat lng : ℚ) (P1 P2 : Nat) (h : P1 ≤ P2) :
    (String.mk (iterG A lat lng ((A.last + 1) * P1)).geoHash).length = P1 ∧
    (String.mk (iterG A lat lng ((A.last + 1) * P2)).geoHash).take P1
      = String.mk (iterG A lat lng ((A.last + 1) * P1)).geoHash := by
  have hlen : (iterG A lat lng ((A.last + 1) * P1)).geoHash.length = P1 := by
    rw [(iterG_counters A lat lng _).2.2.1, Nat.mul_div_cancel_left _ (Nat.succ_pos _)]
  refine ⟨by rw [String.length_mk, hlen], ?_⟩
  obtain ⟨d, rfl⟩ := Nat.exists_eq_add_of_le h
  have hp := iterG_geoHash_grows A lat lng ((A.last + 1) * P1) ((A.last + 1) * d)
  rw [← Nat.mul_add] at hp
  rw [String.take_eq]
  have := List.prefix_iff_eq_take.mp hp
  rw [hlen] at this
  exact congrArg String.mk this.symm

/-! ## Sizes and nesting between two precisions -/

theorem pow_div_lt (c : ℚ) (hc : 0 < c) (a b : Nat) (h : a < b) :
    c / 2 ^ b < c / 2 ^ a := by
  apply div_lt_div_of_pos_left hc (by positivity)
  exact pow_lt_pow_right₀ (by norm_num) h

theorem boxOf_nested (A : Codec) (lat lng : ℚ) (k1 k2 : Nat) (h : k1 + 2 ≤ k2) :
    (boxOf (iterG A lat lng k1)).MinLat ≤ (boxOf (iterG A lat lng k2)).MinLat ∧
    (boxOf (iterG A lat lng k2)).MaxLat ≤ (boxOf (iterG A lat lng k1)).MaxLat ∧
    (boxOf (iterG A lat lng k1)).MinLng ≤ (boxOf (iterG A lat lng k2)).MinLng ∧
    (boxOf (iterG A lat lng k2)).MaxLng ≤ (boxOf (iterG A lat lng k1)).MaxLng ∧
    (boxOf (iterG A lat lng k2)).Width < (boxOf (iterG A lat lng k1)).Width ∧
    (boxOf (iterG A lat lng k2)).Height < (boxOf (iterG A lat lng k1)).Height := by
  obtain ⟨d, rfl⟩ := Nat.exists_eq_add_of_le (show k1 ≤ k2 by omega)
  obtain ⟨a1, a2, a3, a4⟩ := iterG_nested A lat lng k1 d
  obtain ⟨w1, h1⟩ := iterG_size A lat lng k1
  obtain ⟨w2, h2⟩ := iterG_size A lat lng (k1 + d)
  refine ⟨a3, a4, a1, a2, ?_, ?_⟩
  · show (iterG A lat lng (k1 + d)).maxLng - (iterG A lat lng (k1 + d)).minLng
      < (iterG A lat lng k1).maxLng - (iterG A lat lng k1).minLng
    rw [w1, w2]
    exact pow_div_lt 360 (by norm_num) _ _ (by omega)
  · show (iterG A lat lng (k1 + d)).maxLat - (iterG A lat lng (k1 + d)).minLat
      < (iterG A lat lng k1).maxLat - (iterG A lat lng k1).minLat
    rw [h1, h2]
    exact pow_div_lt 180 (by norm_num) _ _ (by omega)

theorem boxOf_lt (A : Codec) (lat lng : ℚ) (k : Nat) :
    (boxOf (iterG A lat lng k)).MinLat < (boxOf (iterG A lat lng k)).MaxLat ∧
    (boxOf (iterG A lat lng k)).MinLng < (boxOf (iterG A lat lng k)).MaxLng :=
  ⟨(iterG_lt A lat lng k).2, (iterG_lt A lat lng k).1⟩

theorem boxOf_sign (A : Codec) (lat lng : ℚ) (k : Nat) (hk : 2 ≤ k) :
    (0 ≤ (boxOf (iterG A lat lng k)).MinLng ↔ 0 < lng) ∧
    (¬ 0 < lng → (boxOf (iterG A lat lng k)).MaxLng ≤ 0) ∧
    (0 ≤ (boxOf (iterG A lat lng k)).MinLat ↔ 0 < lat) ∧
    (¬ 0 < lat → (boxOf (iterG A lat lng k)).MaxLat ≤ 0) := by
  obtain ⟨d, rfl⟩ := Nat.exists_eq_add_of_le hk
  rw [Nat.add_comm 2 d]
  obtain ⟨a1, a2⟩ := iterG_sign_lng A lat lng (d + 1)
  obtain ⟨b1, b2⟩ := iterG_sign_lat A lat lng d
  refine ⟨⟨fun h => ?_, a1⟩, fun h => (a2 h).1, ⟨fun h => ?_, b1⟩, fun h => (b2 h).1⟩
  · by_contra hn
    exact absurd h (not_le.mpr (a2 hn).2)
  · by_contra hn
    exact absurd h (not_le.mpr (b2 hn).2)

/-! ## Decoding what was encoded -/

theorem chOf_nil (w : List Nat) : chOf w [] = 0 := by
  cases w <;> rfl

theorem chOf_snoc (w p : List Nat) (b : Nat) :
    chOf w (p ++ [b]) = chOf w p ||| (if b = 1 then w.getD p.length 0 else 0) := by
  induction w generalizing p with
  | nil => simp [chOf]
  | cons x ws ih =>
    cases p with
    | nil => simp [chOf, chOf_nil]
    | cons a p =>
      show (if a = 1 then x else 0) ||| chOf ws (p ++ [b])
        = ((if a = 1 then x else 0) ||| chOf ws p)
          ||| (if b = 1 then (x :: ws).getD (p.length + 1) 0 else 0)
      rw [ih, List.getD_cons_succ, Nat.lor_assoc]

theorem bitOf_le_one (lat lng : ℚ) (s : EncState) : bitOf lat lng s ≤ 1 := by
  unfold bitOf; split_ifs <;> simp

theorem decodeStep_decOf (w : List Nat) (lat lng : ℚ) (s : EncState) :
    decodeStep (decOf s) (bitOf lat lng s) = decOf (bisect w lat lng s) := by
  simp only [decodeStep, decOf, bisect, bitOf]
  split_ifs <;> simp_all

theorem decOf_stepG (A : Codec) (lat lng : ℚ) (s : EncState) :
    decOf (stepG A lat lng s) = decOf (bisect A.bits lat lng s) := by
  simp only [stepG]; split_ifs <;> rfl

theorem expand_acc (m : List (Char × List Nat)) (cs : List Char) (acc : List Nat) :
    expand m cs acc = (expand m cs []).map (fun u => acc ++ u) := by
  induction cs generalizing acc with
  | nil => simp [expand]
  | cons c cs ih =>
    unfold expand
    cases hc : mapGet m c with
    | none => rfl
    | some u =>
      simp only []
      rw [ih (acc ++ u), ih ([] ++ u)]
      cases expand m cs [] <;> simp

theorem expand_snoc (m : List (Char × List Nat)) (cs : List Char) (c : Char)
    (acc done u : List Nat) (h1 : expand m cs acc = some done) (h2 : mapGet m c = some u) :
    expand m (cs ++ [c]) acc = some (done ++ u) := by
  induction cs generalizing acc with
  | nil =>
    simp only [expand] at h1
    cases h1
    simp [expand, h2]
  | cons d cs ih =>
    simp only [List.cons_append]
    unfold expand at h1 ⊢
    cases hd : mapGet m d with
    | none => rw [hd] at h1; cases h1
    | some v =>
      rw [hd] at h1
      exact ih _ h1

theorem EncInv_init (A : Codec) : EncInv A encInit [] [] :=
  { len := rfl
    bits := by simp
    hash := rfl
    ch := (chOf_nil _).symm
    dec := rfl }

theorem EncInv_step (A : Codec) (hA : A.Good) (lat lng : ℚ) (s : EncState)
    (done pend : List Nat) (h : EncInv A s done pend) (hb : s.bit ≤ A.last) :
    ∃ done1 pend1, EncInv A (stepG A lat lng s) done1 pend1 := by
  have hbits : ∀ x ∈ pend ++ [bitOf lat lng s], x ≤ 1 := by
    intro x hx
    rcases List.mem_append.mp hx with hx | hx
    · exact h.bits x hx
    · rw [List.mem_singleton.mp hx]; exact bitOf_le_one lat lng s
  have hch : (bisect A.bits lat lng s).ch = chOf A.bits (pend ++ [bitOf lat lng s]) := by
    rw [bisect_ch, chOf_snoc, h.ch, h.len]
  have hdec : (done ++ (pend ++ [bitOf lat lng s])).foldl decodeStep decInit
      = decOf (stepG A lat lng s) := by
    rw [← List.append_assoc, List.foldl_append, h.dec, decOf_stepG]
    exact decodeStep_decOf A.bits lat lng s
  by_cases hlt : s.bit < A.last
  · refine ⟨done, pend ++ [bitOf lat lng s], ?_⟩
    have hs : stepG A lat lng s
        = { bisect A.bits lat lng s with bit := (bisect A.bits lat lng s).bit + 1 } := by
      simp only [stepG]; rw [if_pos (by simpa using hlt)]
    refine { len := ?_, bits := hbits, hash := ?_, ch := ?_, dec := hdec }
    · rw [hs]; simp [h.len]
    · rw [hs]; simpa using h.hash
    · rw [hs]; exact hch
  · refine ⟨done ++ (pend ++ [bitOf lat lng s]), [], ?_⟩
    have hs : stepG A lat lng s
        = { bisect A.bits lat lng s with
            geoHash := (bisect A.bits lat lng s).geoHash
              ++ [A.alpha.getD (bisect A.bits lat lng s).ch '0'],
            length := (bisect A.bits lat lng s).length + 1, bit := 0, ch := 0 } := by
      simp only [stepG]; rw [if_neg (by simpa using hlt)]
    have hlen : (pend ++ [bitOf lat lng s]).length = A.last + 1 := by
      rw [List.length_append, h.len]; simp; omega
    refine { len := ?_, bits := by simp, hash := ?_, ch := ?_, dec := ?_ }
    · rw [hs]; rfl
    · rw [hs]
      simp only [bisect_geoHash]
      apply expand_snoc _ _ _ _ _ _ h.hash
      rw [hch]
      exact hA _ hlen hbits
    · rw [hs]; exact (chOf_nil _).symm
    · rw [List.append_nil]; exact hdec

theorem iterG_EncInv (A : Codec) (hA : A.Good) (lat lng : ℚ) (k : Nat) :
    ∃ done pend, EncInv A (iterG A lat lng k) done pend := by
  induction k with
  | zero => exact ⟨[], [], EncInv_init A⟩
  | succ k ih =>
    obtain ⟨done, pend, h⟩ := ih
    rw [iterG_succ]
    apply EncInv_step A hA lat lng _ done pend h
    rw [(iterG_counters A lat lng k).1]
    exact Nat.lt_succ_iff.mp (Nat.mod_lt _ (Nat.succ_pos _))

/-- After whole symbols, expanding the written symbols and replaying the bits
gives the decoder state of the encoder's box. -/
theorem iterG_decode (A : Codec) (hA : A.Good) (lat lng : ℚ) (P : Nat) :
    ∃ ub, expand A.un (iterG A lat lng ((A.last + 1) * P)).geoHash [] = some ub ∧
      ub.foldl decodeStep decInit = decOf (iterG A lat lng ((A.last + 1) * P)) := by
  obtain ⟨done, pend, h⟩ := iterG_EncInv A hA lat lng ((A.last + 1) * P)
  have hb : pend.length = 0 := by
    rw [h.len, (iterG_counters A lat lng _).1, Nat.mul_mod_right]
  have : pend = [] := List.length_eq_zero.mp hb
  subst this
  exact ⟨done, h.hash, by simpa using h.dec⟩

theorem codec32_good : codec32.Good := by
  intro p hp hx
  match p, hp, hx with
  | [a, b, c, d, e], _, hx =>
    have ha : a ≤ 1 := hx a (by simp)
    have hb : b ≤ 1 := hx b (by simp)
    have hc : c ≤ 1 := hx c (by simp)
    have hd : d ≤ 1 := hx d (by simp)
    have he : e ≤ 1 := hx e (by simp)
    interval_cases a <;> interval_cases b <;> interval_cases c <;> interval_cases d <;>
      interval_cases e <;> decide

theorem codec4_good : codec4.Good := by
  intro p hp hx
  match p, hp, hx with
  | [a, b], _, hx =>
    have ha : a ≤ 1 := hx a (by simp)
    have hb : b ≤ 1 := hx b (by simp)
    interval_cases a <;> interval_cases b <;> decide

theorem ceil_half (n : ℕ) : ⌈(n : ℚ) / 2⌉₊ = (n + 1) / 2 := by
  obtain ⟨m, rfl | rfl⟩ := Nat.even_or_odd' n
  · have e : (2 * m + 1) / 2 = m := by omega
    rw [e]; push_cast
    rw [mul_div_cancel_left₀ _ (two_ne_zero)]
    exact Nat.ceil_natCast m
  · have e : (2 * m + 1 + 1) / 2 = m + 1 := by omega
    rw [e, Nat.ceil_eq_iff (by omega)]
    simp only [Nat.add_sub_cancel]
    push_cast
    constructor <;> linarith

theorem floor_half (n : ℕ) : ⌊(n : ℚ) / 2⌋₊ = n / 2 := by
  have h := @Nat.floor_div_eq_div ℚ _ _ n 2
  simpa using h

/-- Decoding the symbols written after whole symbols gives the centre of the
box of that state. -/
theorem decode_iterG (A : Codec) (hA : A.Good) (lat lng : ℚ) (P : Nat) :
    ∃ ub, expand A.un (iterG A lat lng ((A.last + 1) * P)).geoHash [] = some ub ∧
      (ub.foldl decodeStep decInit).lat
        = ((boxOf (iterG A lat lng ((A.last + 1) * P))).MinLat
            + (boxOf (iterG A lat lng ((A.last + 1) * P))).MaxLat) / 2 ∧
      (ub.foldl decodeStep decInit).lng
        = ((boxOf (iterG A lat lng ((A.last + 1) * P))).MinLng
            + (boxOf (iterG A lat lng ((A.last + 1) * P))).MaxLng) / 2 := by
  obtain ⟨ub, h1, h2⟩ := iterG_decode A hA lat lng P
  exact ⟨ub, h1, by rw [h2]; rfl, by rw [h2]; rfl⟩

theorem DecodeBase32_encode (lat lng : ℚ) (P : Nat) (hlat : |lat| ≤ 90) (hlng : |lng| ≤ 180) :
    DecodeBase32 (EncodeBase32 lat lng P).hash
      = { lat := ((boxOf (iterG codec32 lat lng (5 * P))).MinLat
                  + (boxOf (iterG codec32 lat lng (5 * P))).MaxLat) / 2,
          lng := ((boxOf (iterG codec32 lat lng (5 * P))).MinLng
                  + (boxOf (iterG codec32 lat lng (5 * P))).MaxLng) / 2,
          err := none } := by
  obtain ⟨ub, h1, h2, h3⟩ := decode_iterG codec32 codec32_good lat lng P
  rw [EncodeBase32_nat lat lng P hlat hlng, encFinish_hash]
  unfold DecodeBase32
  have : (String.mk (iterG codec32 lat lng (5 * P)).geoHash).toList
      = (iterG codec32 lat lng (5 * P)).geoHash := rfl
  rw [this]
  have h1' : expand unBase32 (iterG codec32 lat lng (5 * P)).geoHash [] = some ub := h1
  rw [h1']
  simp only []
  exact congrArg₂ (fun a b => ({ lat := a, lng := b, err := none } : DecodeResult)) h2 h3

theorem DecodeBase4_encode (lat lng : ℚ) (P : Nat) (hlat : |lat| ≤ 90) (hlng : |lng| ≤ 180) :
    DecodeBase4 (EncodeBase4 lat lng P).hash
      = { lat := ((boxOf (iterG codec4 lat lng (2 * P))).MinLat
                  + (boxOf (iterG codec4 lat lng (2 * P))).MaxLat) / 2,
          lng := ((boxOf (iterG codec4 lat lng (2 * P))).MinLng
                  + (boxOf (iterG codec4 lat lng (2 * P))).MaxLng) / 2,
          err := none } := by
  obtain ⟨ub, h1, h2, h3⟩ := decode_iterG codec4 codec4_good lat lng P
  rw [EncodeBase4_nat lat lng P hlat hlng, encFinish_hash]
  unfold DecodeBase4
  have : (String.mk (iterG codec4 lat lng (2 * P)).geoHash).toList
      = (iterG codec4 lat lng (2 * P)).geoHash := rfl
  rw [this]
  have h1' : expand unBase4 (iterG codec4 lat lng (2 * P)).geoHash [] = some ub := h1
  rw [h1']
  simp only []
  exact congrArg₂ (fun a b => ({ lat := a, lng := b, err := none } : DecodeResult)) h2 h3

/-- The centre of a box that contains a point is within half the height and
half the width of it, hence within the diagonal. -/
theorem centre_close (b : Box) (lat lng : ℚ) (h1 : b.MinLat ≤ lat) (h2 : lat ≤ b.MaxLat)
    (h3 : b.MinLng ≤ lng) (h4 : lng ≤ b.MaxLng) :
    |(b.MinLat + b.MaxLat) / 2 - lat| ≤ b.Height / 2 ∧
    |(b.MinLng + b.MaxLng) / 2 - lng| ≤ b.Width / 2 ∧
    ((b.MinLat + b.MaxLat) / 2 - lat) ^ 2 + ((b.MinLng + b.MaxLng) / 2 - lng) ^ 2
      ≤ b.Height ^ 2 + b.Width ^ 2 := by
  unfold Box.Height Box.Width
  have a1 : |(b.MinLat + b.MaxLat) / 2 - lat| ≤ (b.MaxLat - b.MinLat) / 2 := by
    rw [abs_le]; constructor <;> linarith
  have a2 : |(b.MinLng + b.MaxLng) / 2 - lng| ≤ (b.MaxLng - b.MinLng) / 2 := by
    rw [abs_le]; constructor <;> linarith
  refine ⟨a1, a2, ?_⟩
  rw [abs_le] at a1 a2
  nlinarith [a1.1, a1.2, a2.1, a2.2]

theorem boxOf_contains (A : Codec) (lat lng : ℚ) (hlat : |lat| ≤ 90) (hlng : |lng| ≤ 180)
    (k : Nat) :
    (boxOf (iterG A lat lng k)).MinLat ≤ lat ∧ lat ≤ (boxOf (iterG A lat lng k)).MaxLat ∧
    (boxOf (iterG A lat lng k)).MinLng ≤ lng ∧ lng ≤ (boxOf (iterG A lat lng k)).MaxLng := by
  obtain ⟨a1, a2, a3, a4⟩ := iterG_contains A lat lng hlat hlng k
  exact ⟨a3, a4, a1, a2⟩

theorem EncodeBase32_box (lat lng : ℚ) (P : Nat) (hlat : |lat| ≤ 90) (hlng : |lng| ≤ 180) :
    (EncodeBase32 lat lng P).box = some (boxOf (iterG codec32 lat lng (5 * P))) := by
  rw [EncodeBase32_nat lat lng P hlat hlng, encFinish_box]

theorem EncodeBase4_box (lat lng : ℚ) (P : Nat) (hlat : |lat| ≤ 90) (hlng : |lng| ≤ 180) :
    (EncodeBase4 lat lng P).box = some (boxOf (iterG codec4 lat lng (2 * P))) := by
  rw [EncodeBase4_nat lat lng P hlat hlng, encFinish_box]

/-! ## C1: range errors of the encoders -/

theorem EncodeBase32_err (lat lng : ℚ) (P : Int) :
    ((EncodeBase32 lat lng P).err ≠ none ↔ (|lat| > 90 ∨ |lng| > 180)) ∧
    (|lat| > 90 → EncodeBase32 lat lng P
        = { hash := "", box := none, err := some "latitude overrun", out := "" }) ∧
    (¬ |lat| > 90 → |lng| > 180 → EncodeBase32 lat lng P
        = { hash := "", box := none, err := some "longitude overrun", out := "" }) := by
  unfold EncodeBase32
  simp only [MaxLatitude, MaxLongitude]
  by_cases h1 : |lat| > 90
  · simp [h1]
  · by_cases h2 : |lng| > 180
    · simp [h1, h2]
    · simp [h1, h2, encFinish]

theorem EncodeBase4_err (lat lng : ℚ) (P : Int) :
    ((EncodeBase4 lat lng P).err ≠ none ↔ (|lat| > 90 ∨ |lng| > 180)) ∧
    (|lat| > 90 → EncodeBase4 lat lng P
        = { hash := "", box := none, err := some "latitude overrun", out := "" }) ∧
    (¬ |lat| > 90 → |lng| > 180 → EncodeBase4 lat lng P
        = { hash := "", box := none, err := some "longitude overrun", out := "" }) := by
  unfold EncodeBase4
  simp only [MaxLatitude, MaxLongitude]
  by_cases h1 : |lat| > 90
  · simp [h1]
  · by_cases h2 : |lng| > 180
    · simp [h1, h2]
    · simp [h1, h2, encFinish]

/-- C1. For every latitude, longitude and precision, `EncodeBase32` and
`EncodeBase4` return an error exactly when `|latitude| > 90` or
`|longitude| > 180`.  The error is "latitude overrun" when `|latitude| > 90`
and "longitude overrun" when only the longitude is out of range; in both cases
the returned string is empty and no box is returned.  Latitude 91 and longitude
181 are rejected, latitude 90 with longitude 180 is accepted. -/
theorem C1_encode_range_errors (lat lng : ℚ) (P : Int) :
    (((EncodeBase32 lat lng P).err ≠ none ↔ (|lat| > 90 ∨ |lng| > 180)) ∧
     (|lat| > 90 → (EncodeBase32 lat lng P).err = some "latitude overrun" ∧
        (EncodeBase32 lat lng P).hash = "" ∧ (EncodeBase32 lat lng P).box = none) ∧
     (¬ |lat| > 90 → |lng| > 180 → (EncodeBase32 lat lng P).err = some "longitude overrun" ∧
        (EncodeBase32 lat lng P).hash = "" ∧ (EncodeBase32 lat lng P).box = none)) ∧
    (((EncodeBase4 lat lng P).err ≠ none ↔ (|lat| > 90 ∨ |lng| > 180)) ∧
     (|lat| > 90 → (EncodeBase4 lat lng P).err = some "latitude overrun" ∧
        (EncodeBase4 lat lng P).hash = "" ∧ (EncodeBase4 lat lng P).box = none) ∧
     (¬ |lat| > 90 → |lng| > 180 → (EncodeBase4 lat lng P).err = some "longitude overrun" ∧
        (EncodeBase4 lat lng P).hash = "" ∧ (EncodeBase4 lat lng P).box = none)) ∧
    ((EncodeBase32 91 lng P).err = some "latitude overrun" ∧
     (EncodeBase4 91 lng P).err = some "latitude overrun" ∧
     (EncodeBase32 0 181 P).err = some "longitude overrun" ∧
     (EncodeBase4 0 181 P).err = some "longitude overrun" ∧
     (EncodeBase32 90 180 P).err = none ∧ (EncodeBase4 90 180 P).err = none) := by
  have h91 : |(91 : ℚ)| > 90 := by norm_num
  have h0 : ¬ |(0 : ℚ)| > 90 := by norm_num
  have h181 : |(181 : ℚ)| > 180 := by norm_num
  have h90 : ¬ (|(90 : ℚ)| > 90 ∨ |(180 : ℚ)| > 180) := by norm_num
  obtain ⟨a1, a2, a3⟩ := EncodeBase32_err lat lng P
  obtain ⟨b1, b2, b3⟩ := EncodeBase4_err lat lng P
  refine ⟨⟨a1, fun h => ?_, fun h h2 => ?_⟩, ⟨b1, fun h => ?_, fun h h2 => ?_⟩, ?_, ?_, ?_, ?_, ?_, ?_⟩
  · rw [a2 h]; exact ⟨rfl, rfl, rfl⟩
  · rw [a3 h h2]; exact ⟨rfl, rfl, rfl⟩
  · rw [b2 h]; exact ⟨rfl, rfl, rfl⟩
  · rw [b3 h h2]; exact ⟨rfl, rfl, rfl⟩
  · rw [(EncodeBase32_err 91 lng P).2.1 h91]
  · rw [(EncodeBase4_err 91 lng P).2.1 h91]
  · rw [(EncodeBase32_err 0 181 P).2.2 h0 h181]
  · rw [(EncodeBase4_err 0 181 P).2.2 h0 h181]
  · exact not_not.mp (fun h => h90 ((EncodeBase32_err 90 180 P).1.mp h))
  · exact not_not.mp (fun h => h90 ((EncodeBase4_err 90 180 P).1.mp h))

/-! ## C2: invalid symbols in the decoders -/

theorem expand_eq_none_iff (m : List (Char × List Nat)) (cs : List Char) (acc : List Nat) :
    expand m cs acc = none ↔ ∃ c ∈ cs, mapGet m c = none := by
  induction cs generalizing acc with
  | nil => simp [expand]
  | cons c cs ih =>
    unfold expand
    cases hc : mapGet m c with
    | none => simp [hc]
    | some u =>
      simp only [ih, List.mem_cons, exists_eq_or_imp, hc]
      simp

theorem mapGet_eq_none_iff (m : List (Char × List Nat)) (c : Char) :
    mapGet m c = none ↔ c ∉ m.map Prod.fst := by
  unfold mapGet
  simp only [List.lookup_eq_none_iff, List.mem_map, not_exists, not_and]
  constructor
  · intro h p hp he
    have := h p hp
    rw [he] at this
    simp at this
  · intro h p hp
    have := h p hp
    exact bne_iff_ne.mpr (fun e => this e.symm)

theorem unBase32_keys : unBase32.map Prod.fst = Base32.toList := by decide

theorem unBase4_keys : unBase4.map Prod.fst = Base4.toList := by decide

/-- C2. For every string, `DecodeBase32` returns an error exactly when the
string contains a character that is not one of the 32 characters of `Base32`
(`DecodeBase4`: of `Base4`); in that case latitude and longitude are both 0.
Every string made only of alphabet characters decodes without error, the empty
string included. -/
theorem C2_decode_invalid_symbol (str : String) :
    (((DecodeBase32 str).err ≠ none ↔ ∃ c ∈ str.toList, c ∉ Base32.toList) ∧
     ((DecodeBase32 str).err ≠ none →
        (DecodeBase32 str).lat = 0 ∧ (DecodeBase32 str).lng = 0)) ∧
    (((DecodeBase4 str).err ≠ none ↔ ∃ c ∈ str.toList, c ∉ Base4.toList) ∧
     ((DecodeBase4 str).err ≠ none →
        (DecodeBase4 str).lat = 0 ∧ (DecodeBase4 str).lng = 0)) ∧
    (DecodeBase32 "").err = none ∧ (DecodeBase4 "").err = none := by
  refine ⟨?_, ?_, by decide, by decide⟩
  · have key := expand_eq_none_iff unBase32 str.toList []
    simp only [mapGet_eq_none_iff, unBase32_keys] at key
    unfold DecodeBase32
    cases h : expand unBase32 str.toList [] with
    | none => exact ⟨by simpa using key.mp h, fun _ => ⟨rfl, rfl⟩⟩
    | some ub =>
      have : ¬ ∃ c ∈ str.toList, c ∉ Base32.toList := fun hx => by
        rw [key.mpr hx] at h; cases h
      exact ⟨⟨fun hh => absurd rfl hh, fun hx => absurd hx this⟩, fun hh => absurd rfl hh⟩
  · have key := expand_eq_none_iff unBase4 str.toList []
    simp only [mapGet_eq_none_iff, unBase4_keys] at key
    unfold DecodeBase4
    cases h : expand unBase4 str.toList [] with
    | none => exact ⟨by simpa using key.mp h, fun _ => ⟨rfl, rfl⟩⟩
    | some ub =>
      have : ¬ ∃ c ∈ str.toList, c ∉ Base4.toList := fun hx => by
        rw [key.mpr hx] at h; cases h
      exact ⟨⟨fun hh => absurd rfl hh, fun hx => absurd hx this⟩, fun hh => absurd rfl hh⟩

/-! ## C4 and the round trip in exact arithmetic -/

/-- In exact arithmetic, the round-trip bound: for latitude in [-90, 90], longitude in [-180, 180]
and precision `P ≥ 0`, decoding the string returned by `EncodeBase4` succeeds
and gives a point within half the box height and half the box width of the
input; the input lies inside the returned box, and the (squared) distance
between the two points is at most the (squared) diagonal of the box.  The same
holds for `EncodeBase32` / `DecodeBase32`.  The 32-symbol base-4 hash of the
test decodes to a point that agrees with (40.088046, 116.604412) to six
decimals. -/
theorem exact_round_trip_bound (lat lng : ℚ) (P : Nat) (hlat : |lat| ≤ 90) (hlng : |lng| ≤ 180) :
    (∃ b, (EncodeBase4 lat lng P).box = some b ∧
      (DecodeBase4 (EncodeBase4 lat lng P).hash).err = none ∧
      |(DecodeBase4 (EncodeBase4 lat lng P).hash).lat - lat| ≤ b.Height / 2 ∧
      |(DecodeBase4 (EncodeBase4 lat lng P).hash).lng - lng| ≤ b.Width / 2 ∧
      (b.MinLat ≤ lat ∧ lat ≤ b.MaxLat ∧ b.MinLng ≤ lng ∧ lng ≤ b.MaxLng) ∧
      ((DecodeBase4 (EncodeBase4 lat lng P).hash).lat - lat) ^ 2
        + ((DecodeBase4 (EncodeBase4 lat lng P).hash).lng - lng) ^ 2
        ≤ b.Height ^ 2 + b.Width ^ 2) ∧
    (∃ b, (EncodeBase32 lat lng P).box = some b ∧
      (DecodeBase32 (EncodeBase32 lat lng P).hash).err = none ∧
      |(DecodeBase32 (EncodeBase32 lat lng P).hash).lat - lat| ≤ b.Height / 2 ∧
      |(DecodeBase32 (EncodeBase32 lat lng P).hash).lng - lng| ≤ b.Width / 2 ∧
      (b.MinLat ≤ lat ∧ lat ≤ b.MaxLat ∧ b.MinLng ≤ lng ∧ lng ≤ b.MaxLng) ∧
      ((DecodeBase32 (EncodeBase32 lat lng P).hash).lat - lat) ^ 2
        + ((DecodeBase32 (EncodeBase32 lat lng P).hash).lng - lng) ^ 2
        ≤ b.Height ^ 2 + b.Width ^ 2) ∧
    ((DecodeBase4 "32131021222020331021332212330320").err = none ∧
      |(DecodeBase4 "32131021222020331021332212330320").lat - 40.088046| < 1 / 2000000 ∧
      |(DecodeBase4 "32131021222020331021332212330320").lng - 116.604412| < 1 / 2000000) := by
  refine ⟨?_, ?_, by decide!⟩
  · obtain ⟨c1, c2, c3, c4⟩ := boxOf_contains codec4 lat lng hlat hlng (2 * P)
    obtain ⟨d1, d2, d3⟩ := centre_close _ lat lng c1 c2 c3 c4
    refine ⟨_, EncodeBase4_box lat lng P hlat hlng, ?_⟩
    rw [DecodeBase4_encode lat lng P hlat hlng]
    exact ⟨rfl, d1, d2, ⟨c1, c2, c3, c4⟩, d3⟩
  · obtain ⟨c1, c2, c3, c4⟩ := boxOf_contains codec32 lat lng hlat hlng (5 * P)
    obtain ⟨d1, d2, d3⟩ := centre_close _ lat lng c1 c2 c3 c4
    refine ⟨_, EncodeBase32_box lat lng P hlat hlng, ?_⟩
    rw [DecodeBase32_encode lat lng P hlat hlng]
    exact ⟨rfl, d1, d2, ⟨c1, c2, c3, c4⟩, d3⟩


/-- C4. For valid `(lat, lng)` and precision `P ≥ 0`, decoding the string
returned by `EncodeBase32` succeeds and yields exactly the centre of the box of
that same call: latitude `(MinLat + MaxLat) / 2`, longitude
`(MinLng + MaxLng) / 2`.  The same holds for `EncodeBase4` / `DecodeBase4`. -/
theorem C4_decode_is_box_centre (lat lng : ℚ) (P : Nat)
    (hlat : |lat| ≤ 90) (hlng : |lng| ≤ 180) :
    (∃ b, (EncodeBase32 lat lng P).box = some b ∧
      DecodeBase32 (EncodeBase32 lat lng P).hash
        = { lat := (b.MinLat + b.MaxLat) / 2, lng := (b.MinLng + b.MaxLng) / 2, err := none }) ∧
    (∃ b, (EncodeBase4 lat lng P).box = some b ∧
      DecodeBase4 (EncodeBase4 lat lng P).hash
        = { lat := (b.MinLat + b.MaxLat) / 2, lng := (b.MinLng + b.MaxLng) / 2, err := none }) :=
  ⟨⟨_, EncodeBase32_box lat lng P hlat hlng, DecodeBase32_encode lat lng P hlat hlng⟩,
   ⟨_, EncodeBase4_box lat lng P hlat hlng, DecodeBase4_encode lat lng P hlat hlng⟩⟩

theorem C4_decode_is_box_centre_witness :
    (|(-25.345457 : ℚ)| ≤ 90 ∧ |(131.036192 : ℚ)| ≤ 180) ∧
    ∃ b, (EncodeBase32 (-25.345457) 131.036192 (8 : Nat)).box = some b ∧
      DecodeBase32 (EncodeBase32 (-25.345457) 131.036192 (8 : Nat)).hash
        = { lat := (b.MinLat + b.MaxLat) / 2, lng := (b.MinLng + b.MaxLng) / 2, err := none } :=
  have h1 : |(-25.345457 : ℚ)| ≤ 90 := by norm_num [abs_le]
  have h2 : |(131.036192 : ℚ)| ≤ 180 := by norm_num [abs_le]
  ⟨⟨h1, h2⟩, (C4_decode_is_box_centre (-25.345457) 131.036192 8 h1 h2).1⟩

/-! ## C5: prefix property -/

/-- C5. Prefix property: for valid `(lat, lng)` and precisions `0 ≤ P1 < P2`,
the string returned by `EncodeBase32(lat, lng, P1)` has exactly `P1` characters
and equals the first `P1` characters of the string returned by
`EncodeBase32(lat, lng, P2)`.  The same holds for `EncodeBase4`. -/
theorem C5_prefix_property (lat lng : ℚ) (P1 P2 : Nat)
    (hlat : |lat| ≤ 90) (hlng : |lng| ≤ 180) (hP : P1 < P2) :
    ((EncodeBase32 lat lng P1).hash.length = P1 ∧
      (EncodeBase32 lat lng P2).hash.take P1 = (EncodeBase32 lat lng P1).hash) ∧
    ((EncodeBase4 lat lng P1).hash.length = P1 ∧
      (EncodeBase4 lat lng P2).hash.take P1 = (EncodeBase4 lat lng P1).hash) := by
  rw [EncodeBase32_nat lat lng P1 hlat hlng, EncodeBase32_nat lat lng P2 hlat hlng,
    EncodeBase4_nat lat lng P1 hlat hlng, EncodeBase4_nat lat lng P2 hlat hlng]
  simp only [encFinish_hash]
  exact ⟨iterG_hash_take codec32 lat lng P1 P2 hP.le, iterG_hash_take codec4 lat lng P1 P2 hP.le⟩

theorem C5_prefix_property_witness :
    (|(-25.345457 : ℚ)| ≤ 90 ∧ |(131.036192 : ℚ)| ≤ 180 ∧ 6 < 12) ∧
    ((EncodeBase32 (-25.345457) 131.036192 (6 : Nat)).hash.length = 6 ∧
      (EncodeBase32 (-25.345457) 131.036192 (12 : Nat)).hash.take 6
        = (EncodeBase32 (-25.345457) 131.036192 (6 : Nat)).hash) :=
  have h1 : |(-25.345457 : ℚ)| ≤ 90 := by norm_num [abs_le]
  have h2 : |(131.036192 : ℚ)| ≤ 180 := by norm_num [abs_le]
  ⟨⟨h1, h2, by decide⟩, (C5_prefix_property (-25.345457) 131.036192 6 12 h1 h2 (by decide)).1⟩

/-! ## Monotonic nesting in exact arithmetic -/

/-- In exact arithmetic, monotonic nesting: for valid `(lat, lng)` and precisions
`0 ≤ P1 < P2`, the box returned by `EncodeBase32(lat, lng, P2)` lies inside the
box returned by `EncodeBase32(lat, lng, P1)` and is strictly smaller in both
width and height; every returned box has `MinLat < MaxLat` and
`MinLng < MaxLng`.  The same holds for `EncodeBase4`. -/
theorem exact_monotonic_nesting (lat lng : ℚ) (P1 P2 : Nat)
    (hlat : |lat| ≤ 90) (hlng : |lng| ≤ 180) (hP : P1 < P2) :
    (∃ b1 b2, (EncodeBase32 lat lng P1).box = some b1 ∧ (EncodeBase32 lat lng P2).box = some b2 ∧
      (b1.MinLat ≤ b2.MinLat ∧ b2.MaxLat ≤ b1.MaxLat ∧
        b1.MinLng ≤ b2.MinLng ∧ b2.MaxLng ≤ b1.MaxLng ∧
        b2.Width < b1.Width ∧ b2.Height < b1.Height) ∧
      (b1.MinLat < b1.MaxLat ∧ b1.MinLng < b1.MaxLng) ∧
      (b2.MinLat < b2.MaxLat ∧ b2.MinLng < b2.MaxLng)) ∧
    (∃ b1 b2, (EncodeBase4 lat lng P1).box = some b1 ∧ (EncodeBase4 lat lng P2).box = some b2 ∧
      (b1.MinLat ≤ b2.MinLat ∧ b2.MaxLat ≤ b1.MaxLat ∧
        b1.MinLng ≤ b2.MinLng ∧ b2.MaxLng ≤ b1.MaxLng ∧
        b2.Width < b1.Width ∧ b2.Height < b1.Height) ∧
      (b1.MinLat < b1.MaxLat ∧ b1.MinLng < b1.MaxLng) ∧
      (b2.MinLat < b2.MaxLat ∧ b2.MinLng < b2.MaxLng)) :=
  ⟨⟨_, _, EncodeBase32_box lat lng P1 hlat hlng, EncodeBase32_box lat lng P2 hlat hlng,
      boxOf_nested codec32 lat lng (5 * P1) (5 * P2) (by omega),
      boxOf_lt codec32 lat lng _, boxOf_lt codec32 lat lng _⟩,
   ⟨_, _, EncodeBase4_box lat lng P1 hlat hlng, EncodeBase4_box lat lng P2 hlat hlng,
      boxOf_nested codec4 lat lng (2 * P1) (2 * P2) (by omega),
      boxOf_lt codec4 lat lng _, boxOf_lt codec4 lat lng _⟩⟩


/-! ## C7: tie-break at the midpoint -/

/-- C7. Tie-break: in both encoders a coordinate exactly equal to the midpoint
of the current range selects the lower half (the bit is 0 and the range becomes
`[min, midpoint]`).  Hence for valid `(lat, lng)` and precision `P ≥ 1` the
returned box has `MinLng ≥ 0` exactly when `lng > 0` (otherwise `MaxLng ≤ 0`)
and `MinLat ≥ 0` exactly when `lat > 0` (otherwise `MaxLat ≤ 0`);
`EncodeBase4(0, 0, 1)` returns "0" with latitude `[-90, 0]` and longitude
`[-180, 0]`. -/
theorem C7_tie_break (lat lng : ℚ) (P : Nat)
    (hlat : |lat| ≤ 90) (hlng : |lng| ≤ 180) (hP : 1 ≤ P) :
    (∀ (w : List Nat) (s : EncState), s.isEven = true → lng = (s.minLng + s.maxLng) / 2 →
      (bisect w lat lng s).minLng = s.minLng ∧ (bisect w lat lng s).maxLng = lng ∧
      (bisect w lat lng s).ch = s.ch) ∧
    (∀ (w : List Nat) (s : EncState), s.isEven = false → lat = (s.minLat + s.maxLat) / 2 →
      (bisect w lat lng s).minLat = s.minLat ∧ (bisect w lat lng s).maxLat = lat ∧
      (bisect w lat lng s).ch = s.ch) ∧
    (∃ b, (EncodeBase32 lat lng P).box = some b ∧
      (0 ≤ b.MinLng ↔ 0 < lng) ∧ (¬ 0 < lng → b.MaxLng ≤ 0) ∧
      (0 ≤ b.MinLat ↔ 0 < lat) ∧ (¬ 0 < lat → b.MaxLat ≤ 0)) ∧
    (∃ b, (EncodeBase4 lat lng P).box = some b ∧
      (0 ≤ b.MinLng ↔ 0 < lng) ∧ (¬ 0 < lng → b.MaxLng ≤ 0) ∧
      (0 ≤ b.MinLat ↔ 0 < lat) ∧ (¬ 0 < lat → b.MaxLat ≤ 0)) ∧
    EncodeBase4 0 0 1 = { hash := "0",
                          box := some { MinLat := -90, MaxLat := 0, MinLng := -180, MaxLng := 0 },
                          err := none, out := "\n" } := by
  refine ⟨?_, ?_, ?_, ?_, by decide!⟩
  · intro w s he hm
    simp [bisect, he, ← hm]
  · intro w s he hm
    simp [bisect, he, ← hm]
  · exact ⟨_, EncodeBase32_box lat lng P hlat hlng, boxOf_sign codec32 lat lng (5 * P) (by omega)⟩
  · exact ⟨_, EncodeBase4_box lat lng P hlat hlng, boxOf_sign codec4 lat lng (2 * P) (by omega)⟩

theorem C7_tie_break_witness :
    (|(0 : ℚ)| ≤ 90 ∧ |(0 : ℚ)| ≤ 180 ∧ 1 ≤ 1) ∧
    ∃ b, (EncodeBase32 0 0 (1 : Nat)).box = some b ∧
      (0 ≤ b.MinLng ↔ (0 : ℚ) < 0) ∧ (¬ (0 : ℚ) < 0 → b.MaxLng ≤ 0) ∧
      (0 ≤ b.MinLat ↔ (0 : ℚ) < 0) ∧ (¬ (0 : ℚ) < 0 → b.MaxLat ≤ 0) :=
  have h1 : |(0 : ℚ)| ≤ 90 := by norm_num
  have h2 : |(0 : ℚ)| ≤ 180 := by norm_num
  ⟨⟨h1, h2, by decide⟩, (C7_tie_break 0 0 1 h1 h2 (by decide)).2.2.1⟩

/-! ## C8: the alphabets and their reverse maps -/

/-- C8. Alphabet bijection: for every `i` in 0..31 the reverse map `unBase32`
sends the character `Base32[i]` to the 5-bit big-endian binary expansion of
`i`; the 32 characters of `Base32` are pairwise distinct and `unBase32` has no
other keys.  Likewise `unBase4` sends `Base4[i]` to the 2-bit expansion of `i`
for `i` in 0..3.  Hence the symbol the encoder writes for a bit-group
(`base32[ch]`, `ch` being the bitwise or of the weights 16, 8, 4, 2, 1 of the
bits that are 1) is expanded by the decoder back to that bit-group. -/
theorem C8_alphabet_bijection :
    (∀ i < 32, mapGet unBase32 (base32.getD i '0')
        = some [i / 16 % 2, i / 8 % 2, i / 4 % 2, i / 2 % 2, i % 2]) ∧
    base32.length = 32 ∧ base32.Nodup ∧ unBase32.map Prod.fst = base32 ∧
    (∀ i < 4, mapGet unBase4 (base4.getD i '0') = some [i / 2 % 2, i % 2]) ∧
    base4.length = 4 ∧ base4.Nodup ∧ unBase4.map Prod.fst = base4 ∧
    (∀ p : List Nat, p.length = 5 → (∀ x ∈ p, x ≤ 1) →
      chOf bits32 p < 32 ∧ mapGet unBase32 (base32.getD (chOf bits32 p) '0') = some p) ∧
    (∀ p : List Nat, p.length = 2 → (∀ x ∈ p, x ≤ 1) →
      chOf bits4 p < 4 ∧ mapGet unBase4 (base4.getD (chOf bits4 p) '0') = some p) := by
  refine ⟨by decide, by decide, by decide, by decide, by decide, by decide, by decide,
    by decide, ?_, ?_⟩
  · intro p hp hx
    refine ⟨?_, codec32_good p hp hx⟩
    match p, hp, hx with
    | [a, b, c, d, e], _, hx =>
      have ha : a ≤ 1 := hx a (by simp)
      have hb : b ≤ 1 := hx b (by simp)
      have hc : c ≤ 1 := hx c (by simp)
      have hd : d ≤ 1 := hx d (by simp)
      have he : e ≤ 1 := hx e (by simp)
      interval_cases a <;> interval_cases b <;> interval_cases c <;> interval_cases d <;>
        interval_cases e <;> decide
  · intro p hp hx
    refine ⟨?_, codec4_good p hp hx⟩
    match p, hp, hx with
    | [a, b], _, hx =>
      have ha : a ≤ 1 := hx a (by simp)
      have hb : b ≤ 1 := hx b (by simp)
      interval_cases a <;> interval_cases b <;> decide

/-! ## C9: literal scenario -/

/-- C9. `EncodeBase32(40.088046, 116.604412, 12)` returns the string
"wx4uj3u9z9rm" and `EncodeBase4(40.088046, 116.604412, 32)` returns the string
"32131021222020331021332212330320", both without error. -/
theorem C9_literal_scenario :
    (EncodeBase32 40.088046 116.604412 12).hash = "wx4uj3u9z9rm" ∧
    (EncodeBase32 40.088046 116.604412 12).err = none ∧
    (EncodeBase4 40.088046 116.604412 32).hash = "32131021222020331021332212330320" ∧
    (EncodeBase4 40.088046 116.604412 32).err = none := by
  decide!

/-! ## Bit allocation and cell size in exact arithmetic -/

/-- In exact arithmetic, bit allocation and cell size: for valid `(lat, lng)` and precision
`P ≥ 0`, the box returned by `EncodeBase4` has width exactly `360 / 2^P` and
height exactly `180 / 2^P`, and the box returned by `EncodeBase32` has width
exactly `360 / 2^⌈5P/2⌉` and height exactly `180 / 2^⌊5P/2⌋`: longitude gets
the extra bit when `5P` is odd. -/
theorem exact_cell_size (lat lng : ℚ) (P : Nat) (hlat : |lat| ≤ 90) (hlng : |lng| ≤ 180) :
    (∃ b, (EncodeBase4 lat lng P).box = some b ∧
      b.Width = 360 / 2 ^ P ∧ b.Height = 180 / 2 ^ P) ∧
    (∃ b, (EncodeBase32 lat lng P).box = some b ∧
      b.Width = 360 / 2 ^ ⌈(5 * P : ℚ) / 2⌉₊ ∧ b.Height = 180 / 2 ^ ⌊(5 * P : ℚ) / 2⌋₊) := by
  constructor
  · refine ⟨_, EncodeBase4_box lat lng P hlat hlng, ?_⟩
    obtain ⟨hw, hh⟩ := iterG_size codec4 lat lng (2 * P)
    have e1 : (2 * P + 1) / 2 = P := by omega
    have e2 : 2 * P / 2 = P := by omega
    rw [e1] at hw
    rw [e2] at hh
    exact ⟨hw, hh⟩
  · refine ⟨_, EncodeBase32_box lat lng P hlat hlng, ?_⟩
    obtain ⟨hw, hh⟩ := iterG_size codec32 lat lng (5 * P)
    have c : (5 * P : ℚ) = ((5 * P : ℕ) : ℚ) := by push_cast; ring
    rw [c, ceil_half, floor_half]
    exact ⟨hw, hh⟩


/-! ## The grid of cells -/

/-- The lower ends of the ranges after `k` iterations lie on the grid of the
cell size: a whole number of cell widths from -180 and of cell heights from
-90. -/
theorem iterG_aligned (A : Codec) (lat lng : ℚ) (k : Nat) :
    (∃ j : ℤ, (iterG A lat lng k).minLng = -180 + j * (360 / 2 ^ ((k + 1) / 2))) ∧
    (∃ m : ℤ, (iterG A lat lng k).minLat = -90 + m * (180 / 2 ^ (k / 2))) := by
  induction k with
  | zero =>
    exact ⟨⟨0, by simp [iterG, encInit, MinLongitude]⟩, ⟨0, by simp [iterG, encInit, MinLatitude]⟩⟩
  | succ k ih =>
    obtain ⟨⟨j, hj⟩, ⟨m, hm⟩⟩ := ih
    obtain ⟨hw, hh⟩ := iterG_size A lat lng k
    have he := (iterG_counters A lat lng k).2.2.2
    rw [iterG_succ, stepG_minLng, stepG_minLat, he]
    rcases Nat.mod_two_eq_zero_or_one k with h | h
    · have e1 : (k + 1 + 1) / 2 = (k + 1) / 2 + 1 := by omega
      have e2 : (k + 1) / 2 = k / 2 := by omega
      rw [e1, e2, pow_succ]
      rw [e2] at hw hj
      simp only [h, decide_True, true_and, Bool.true_eq_false, false_and, if_false]
      refine ⟨?_, ⟨m, hm⟩⟩
      have hmax : (iterG A lat lng k).maxLng = (iterG A lat lng k).minLng + 360 / 2 ^ (k / 2) := by
        linarith
      split_ifs
      · refine ⟨2 * j + 1, ?_⟩
        rw [hmax, hj]; push_cast; field_simp; ring
      · refine ⟨2 * j, ?_⟩
        rw [hj]; push_cast; field_simp; ring
    · have e1 : (k + 1 + 1) / 2 = (k + 1) / 2 := by omega
      have e2 : (k + 1) / 2 = k / 2 + 1 := by omega
      have hne : ¬ (k % 2 = 0) := by omega
      rw [e1]
      simp only [hne, decide_False, Bool.false_eq_true, false_and, if_false, true_and]
      refine ⟨⟨j, hj⟩, ?_⟩
      rw [e2, pow_succ]
      have hmax : (iterG A lat lng k).maxLat = (iterG A lat lng k).minLat + 180 / 2 ^ (k / 2) := by
        linarith
      split_ifs
      · refine ⟨2 * m + 1, ?_⟩
        rw [hmax, hm]; push_cast; field_simp; ring
      · refine ⟨2 * m, ?_⟩
        rw [hm]; push_cast; field_simp; ring

/-- A point that lies a whole number of cells away from the centre of a grid
cell, and inside a grid cell, is the centre of that cell. -/
theorem grid_centre (lo w x : ℚ) (hw : 0 < w) (j0 j1 d : ℤ)
    (hx : x = (lo + j0 * w) + w / 2 + d * w)
    (h1 : lo + j1 * w ≤ x) (h2 : x ≤ lo + j1 * w + w) :
    ((lo + j1 * w) + (lo + j1 * w + w)) / 2 = x := by
  have a1 : (2 * j1 : ℚ) ≤ 2 * j0 + 2 * d + 1 := by
    have : (j1 : ℚ) * w ≤ (j0 + d + 1 / 2) * w := by rw [hx] at h1; linarith
    have := le_of_mul_le_mul_right this hw
    linarith
  have a2 : (2 * j0 + 2 * d + 1 : ℚ) ≤ 2 * j1 + 2 := by
    have : ((j0 : ℚ) + d + 1 / 2) * w ≤ (j1 + 1) * w := by rw [hx] at h2; linarith
    have := le_of_mul_le_mul_right this hw
    linarith
  have b1 : 2 * j1 ≤ 2 * j0 + 2 * d + 1 := by exact_mod_cast a1
  have b2 : 2 * j0 + 2 * d + 1 ≤ 2 * j1 + 2 := by exact_mod_cast a2
  have e : j1 = j0 + d := by omega
  rw [hx, e]; push_cast; ring

/-- Encoding a point that lies whole cells away from the centre of the cell of
`(lat, lng)` gives a box whose centre is that point. -/
theorem iterG_centre_shift (A : Codec) (lat lng lat1 lng1 : ℚ) (k : Nat) (dy dx : ℤ)
    (hlat1 : |lat1| ≤ 90) (hlng1 : |lng1| ≤ 180)
    (e1 : lat1 = ((boxOf (iterG A lat lng k)).MinLat + (boxOf (iterG A lat lng k)).MaxLat) / 2
      + dy * (boxOf (iterG A lat lng k)).Height)
    (e2 : lng1 = ((boxOf (iterG A lat lng k)).MinLng + (boxOf (iterG A lat lng k)).MaxLng) / 2
      + dx * (boxOf (iterG A lat lng k)).Width) :
    ((boxOf (iterG A lat1 lng1 k)).MinLat + (boxOf (iterG A lat1 lng1 k)).MaxLat) / 2 = lat1 ∧
    ((boxOf (iterG A lat1 lng1 k)).MinLng + (boxOf (iterG A lat1 lng1 k)).MaxLng) / 2 = lng1 := by
  obtain ⟨⟨j0, hj0⟩, ⟨m0, hm0⟩⟩ := iterG_aligned A lat lng k
  obtain ⟨⟨j1, hj1⟩, ⟨m1, hm1⟩⟩ := iterG_aligned A lat1 lng1 k
  obtain ⟨w0, h0⟩ := iterG_size A lat lng k
  obtain ⟨w1, h1⟩ := iterG_size A lat1 lng1 k
  obtain ⟨c1, c2, c3, c4⟩ := iterG_contains A lat1 lng1 hlat1 hlng1 k
  have hwpos : (0 : ℚ) < 360 / 2 ^ ((k + 1) / 2) := by positivity
  have hhpos : (0 : ℚ) < 180 / 2 ^ (k / 2) := by positivity
  simp only [boxOf, Box.Height, Box.Width] at e1 e2 ⊢
  have m0x : (iterG A lat lng k).maxLng = (iterG A lat lng k).minLng + 360 / 2 ^ ((k + 1) / 2) := by
    linarith
  have m0y : (iterG A lat lng k).maxLat = (iterG A lat lng k).minLat + 180 / 2 ^ (k / 2) := by
    linarith
  have m1x : (iterG A lat1 lng1 k).maxLng
      = (iterG A lat1 lng1 k).minLng + 360 / 2 ^ ((k + 1) / 2) := by linarith
  have m1y : (iterG A lat1 lng1 k).maxLat
      = (iterG A lat1 lng1 k).minLat + 180 / 2 ^ (k / 2) := by linarith
  constructor
  · rw [m1y, hm1]
    apply grid_centre (-90) _ lat1 hhpos m0 m1 dy
    · rw [e1, m0y, hm0]; ring
    · rw [← hm1]; exact c3
    · rw [← hm1, ← m1y]; exact c4
  · rw [m1x, hj1]
    apply grid_centre (-180) _ lng1 hwpos j0 j1 dx
    · rw [e2, m0x, hj0]; ring
    · rw [← hj1]; exact c1
    · rw [← hj1, ← m1x]; exact c2

/-! ## Neighbours -/

/-- What `neighborsWith` returns when the first call returns a box. -/
theorem neighborsWith_some (enc : ℚ → ℚ → Int → EncodeResult) (lat lng : ℚ) (P : Int) (b : Box)
    (hb : (enc lat lng P).box = some b) :
    neighborsWith enc lat lng P = some
      [(enc lat lng P).hash,
       (enc ((b.MinLat + b.MaxLat) / 2 + b.Height) ((b.MinLng + b.MaxLng) / 2) P).hash,
       (enc ((b.MinLat + b.MaxLat) / 2 - b.Height) ((b.MinLng + b.MaxLng) / 2) P).hash,
       (enc ((b.MinLat + b.MaxLat) / 2) ((b.MinLng + b.MaxLng) / 2 - b.Width) P).hash,
       (enc ((b.MinLat + b.MaxLat) / 2) ((b.MinLng + b.MaxLng) / 2 + b.Width) P).hash,
       (enc ((b.MinLat + b.MaxLat) / 2 + b.Height) ((b.MinLng + b.MaxLng) / 2 - b.Width) P).hash,
       (enc ((b.MinLat + b.MaxLat) / 2 - b.Height) ((b.MinLng + b.MaxLng) / 2 - b.Width) P).hash,
       (enc ((b.MinLat + b.MaxLat) / 2 + b.Height) ((b.MinLng + b.MaxLng) / 2 + b.Width) P).hash,
       (enc ((b.MinLat + b.MaxLat) / 2 - b.Height) ((b.MinLng + b.MaxLng) / 2 + b.Width) P).hash] := by
  unfold neighborsWith
  simp only [hb]

/-- The entry of slot `k`, as the hash of the call at the shifted centre. -/
theorem neighborsWith_slot (enc : ℚ → ℚ → Int → EncodeResult) (lat lng : ℚ) (P : Int) (b : Box)
    (hb : (enc lat lng P).box = some b) (k : Nat) (hk0 : 0 < k) (hk : k < 9) :
    ∃ hs, neighborsWith enc lat lng P = some hs ∧ hs.length = 9 ∧
      hs[0]? = some (enc lat lng P).hash ∧
      hs[k]? = some (enc (shiftedLat b k) (shiftedLng b k) P).hash := by
  refine ⟨_, neighborsWith_some enc lat lng P b hb, rfl, rfl, ?_⟩
  interval_cases k <;>
    simp [shiftedLat, shiftedLng, neighborOffsets, sub_eq_add_neg]

/-- The centre of the box of any iteration lies in the full range. -/
theorem boxOf_centre_valid (A : Codec) (lat lng : ℚ) (k : Nat) :
    |((boxOf (iterG A lat lng k)).MinLat + (boxOf (iterG A lat lng k)).MaxLat) / 2| ≤ 90 ∧
    |((boxOf (iterG A lat lng k)).MinLng + (boxOf (iterG A lat lng k)).MaxLng) / 2| ≤ 180 := by
  obtain ⟨a1, a2, a3, a4⟩ := iterG_nested A lat lng 0 k
  obtain ⟨h1, h2⟩ := iterG_lt A lat lng (0 + k)
  rw [Nat.zero_add] at a1 a2 a3 a4 h1 h2
  have i1 : (iterG A lat lng 0).minLng = -180 := rfl
  have i2 : (iterG A lat lng 0).maxLng = 180 := rfl
  have i3 : (iterG A lat lng 0).minLat = -90 := rfl
  have i4 : (iterG A lat lng 0).maxLat = 90 := rfl
  rw [i1] at a1; rw [i2] at a2; rw [i3] at a3; rw [i4] at a4
  simp only [boxOf]
  constructor <;> rw [abs_le] <;> constructor <;> linarith

theorem neighborOffsets_int (k : Nat) (hk : k < 9) :
    ∃ dy dx : ℤ, (neighborOffsets.getD k (0, 0)).1 = (dy : ℚ) ∧
      (neighborOffsets.getD k (0, 0)).2 = (dx : ℚ) := by
  interval_cases k
  · exact ⟨0, 0, by simp [neighborOffsets]⟩
  · exact ⟨1, 0, by simp [neighborOffsets]⟩
  · exact ⟨-1, 0, by simp [neighborOffsets]⟩
  · exact ⟨0, -1, by simp [neighborOffsets]⟩
  · exact ⟨0, 1, by simp [neighborOffsets]⟩
  · exact ⟨1, -1, by simp [neighborOffsets]⟩
  · exact ⟨-1, -1, by simp [neighborOffsets]⟩
  · exact ⟨1, 1, by simp [neighborOffsets]⟩
  · exact ⟨-1, 1, by simp [neighborOffsets]⟩

/-- Adjacency, for either codec: the entry of a slot whose shifted centre is
in range has `P` characters, decodes to the shifted centre and was produced
with a box of the size of the self box centred there. -/
theorem neighbors_adjacent (A : Codec) (enc : ℚ → ℚ → Int → EncodeResult)
    (dec : String → DecodeResult)
    (henc : ∀ (la ln : ℚ) (P : Nat), |la| ≤ 90 → |ln| ≤ 180 →
      enc la ln P = encFinish (iterG A la ln ((A.last + 1) * P)))
    (hdec : ∀ (la ln : ℚ) (P : Nat), |la| ≤ 90 → |ln| ≤ 180 →
      dec (enc la ln P).hash
        = { lat := ((boxOf (iterG A la ln ((A.last + 1) * P))).MinLat
                    + (boxOf (iterG A la ln ((A.last + 1) * P))).MaxLat) / 2,
            lng := ((boxOf (iterG A la ln ((A.last + 1) * P))).MinLng
                    + (boxOf (iterG A la ln ((A.last + 1) * P))).MaxLng) / 2,
            err := none })
    (lat lng : ℚ) (P : Nat) (hlat : |lat| ≤ 90) (hlng : |lng| ≤ 180) (k : Nat) (hk : k < 9) :
    ∃ b hs, (enc lat lng P).box = some b ∧ neighborsWith enc lat lng P = some hs ∧
      (|shiftedLat b k| ≤ 90 → |shiftedLng b k| ≤ 180 →
        ∃ h, hs[k]? = some h ∧ h.length = P ∧
          dec h = { lat := shiftedLat b k, lng := shiftedLng b k, err := none } ∧
          ∃ la ln b1, h = (enc la ln P).hash ∧ (enc la ln P).box = some b1 ∧
            b1.Width = b.Width ∧ b1.Height = b.Height ∧
            (b1.MinLat + b1.MaxLat) / 2 = shiftedLat b k ∧
            (b1.MinLng + b1.MaxLng) / 2 = shiftedLng b k) := by
  have hb : (enc lat lng P).box = some (boxOf (iterG A lat lng ((A.last + 1) * P))) := by
    rw [henc lat lng P hlat hlng, encFinish_box]
  have hlen : ∀ la ln : ℚ, |la| ≤ 90 → |ln| ≤ 180 → (enc la ln P).hash.length = P := by
    intro la ln h1 h2
    rw [henc la ln P h1 h2, encFinish_hash]
    exact (iterG_hash_take A la ln P P le_rfl).1
  have hsize : ∀ la ln : ℚ,
      (boxOf (iterG A la ln ((A.last + 1) * P))).Width
        = (boxOf (iterG A lat lng ((A.last + 1) * P))).Width ∧
      (boxOf (iterG A la ln ((A.last + 1) * P))).Height
        = (boxOf (iterG A lat lng ((A.last + 1) * P))).Height := by
    intro la ln
    obtain ⟨w0, h0⟩ := iterG_size A lat lng ((A.last + 1) * P)
    obtain ⟨w1, h1⟩ := iterG_size A la ln ((A.last + 1) * P)
    simp only [boxOf, Box.Width, Box.Height]
    exact ⟨by rw [w0, w1], by rw [h0, h1]⟩
  refine ⟨_, _, hb, neighborsWith_some enc lat lng P _ hb, ?_⟩
  intro v1 v2
  rcases Nat.eq_zero_or_pos k with h0 | hpos
  · subst h0
    have s1 : shiftedLat (boxOf (iterG A lat lng ((A.last + 1) * P))) 0
        = ((boxOf (iterG A lat lng ((A.last + 1) * P))).MinLat
            + (boxOf (iterG A lat lng ((A.last + 1) * P))).MaxLat) / 2 := by
      simp [shiftedLat, neighborOffsets]
    have s2 : shiftedLng (boxOf (iterG A lat lng ((A.last + 1) * P))) 0
        = ((boxOf (iterG A lat lng ((A.last + 1) * P))).MinLng
            + (boxOf (iterG A lat lng ((A.last + 1) * P))).MaxLng) / 2 := by
      simp [shiftedLng, neighborOffsets]
    refine ⟨(enc lat lng P).hash, rfl, hlen lat lng hlat hlng, ?_, lat, lng, _, rfl, hb, rfl, rfl,
      s1.symm, s2.symm⟩
    rw [hdec lat lng P hlat hlng, s1, s2]
  · obtain ⟨hs, e, -, -, ek⟩ := neighborsWith_slot enc lat lng P _ hb k hpos hk
    rw [neighborsWith_some enc lat lng P _ hb] at e
    cases e
    obtain ⟨dy, dx, ey, ex⟩ := neighborOffsets_int k hk
    obtain ⟨c1, c2⟩ := iterG_centre_shift A lat lng _ _ ((A.last + 1) * P) dy dx v1 v2
      (by rw [← ey]; rfl) (by rw [← ex]; rfl)
    refine ⟨_, ek, hlen _ _ v1 v2, ?_, _, _, _, rfl, ?_, (hsize _ _).1, (hsize _ _).2, c1, c2⟩
    · rw [hdec _ _ P v1 v2, c1, c2]
    · rw [henc _ _ P v1 v2, encFinish_box]

/-- No wrap-around, for either codec: the entry of a slot whose shifted centre
is out of range is the empty string. -/
theorem neighbors_no_wrap (A : Codec) (enc : ℚ → ℚ → Int → EncodeResult)
    (henc : ∀ (la ln : ℚ) (P : Nat), |la| ≤ 90 → |ln| ≤ 180 →
      enc la ln P = encFinish (iterG A la ln ((A.last + 1) * P)))
    (herr : ∀ (la ln : ℚ) (P : Int), ¬ (|la| ≤ 90 ∧ |ln| ≤ 180) → (enc la ln P).hash = "")
    (lat lng : ℚ) (P : Nat) (hlat : |lat| ≤ 90) (hlng : |lng| ≤ 180) (k : Nat) (hk : k < 9) :
    ∃ b hs, (enc lat lng P).box = some b ∧ neighborsWith enc lat lng P = some hs ∧
      (¬ (|shiftedLat b k| ≤ 90 ∧ |shiftedLng b k| ≤ 180) → hs[k]? = some "") := by
  have hb : (enc lat lng P).box = some (boxOf (iterG A lat lng ((A.last + 1) * P))) := by
    rw [henc lat lng P hlat hlng, encFinish_box]
  refine ⟨_, _, hb, neighborsWith_some enc lat lng P _ hb, ?_⟩
  intro hout
  rcases Nat.eq_zero_or_pos k with h0 | hpos
  · subst h0
    exfalso
    apply hout
    have := boxOf_centre_valid A lat lng ((A.last + 1) * P)
    simpa [shiftedLat, shiftedLng, neighborOffsets] using this
  · obtain ⟨hs, e, -, -, ek⟩ := neighborsWith_slot enc lat lng P _ hb k hpos hk
    rw [neighborsWith_some enc lat lng P _ hb] at e
    cases e
    rw [ek, herr _ _ P hout]

theorem EncodeBase32_hash_err (la ln : ℚ) (P : Int) (h : ¬ (|la| ≤ 90 ∧ |ln| ≤ 180)) :
    (EncodeBase32 la ln P).hash = "" := by
  obtain ⟨-, h1, h2⟩ := EncodeBase32_err la ln P
  by_cases c : |la| > 90
  · rw [h1 c]
  · rw [h2 c (by by_contra c2; exact h ⟨not_lt.mp c, not_lt.mp c2⟩)]

theorem EncodeBase4_hash_err (la ln : ℚ) (P : Int) (h : ¬ (|la| ≤ 90 ∧ |ln| ≤ 180)) :
    (EncodeBase4 la ln P).hash = "" := by
  obtain ⟨-, h1, h2⟩ := EncodeBase4_err la ln P
  by_cases c : |la| > 90
  · rw [h1 c]
  · rw [h2 c (by by_contra c2; exact h ⟨not_lt.mp c, not_lt.mp c2⟩)]

/-! ## Neighbour order and adjacency in exact arithmetic -/

/-- In exact arithmetic, neighbour order and adjacency: with the slots in the order self,
north, south, west, east, northwest, southwest, northeast, southeast, for valid
`(lat, lng)`, precision `P ≥ 0` and every slot `k` whose shifted centre (the
centre of the self box moved by the slot's offset in cell heights and cell
widths) is within [-90, 90] x [-180, 180], entry `k` of `GetNeighborsBase32` is
a `P`-character hash that `DecodeBase32` decodes to exactly the shifted centre;
it was produced with a box of the size of the self box, centred at the shifted
centre.  The same holds for `GetNeighborsBase4` / `DecodeBase4`. -/
theorem exact_neighbor_adjacency (lat lng : ℚ) (P : Nat) (hlat : |lat| ≤ 90)
    (hlng : |lng| ≤ 180) (k : Nat) (hk : k < 9) :
    (∃ b hs, (EncodeBase32 lat lng P).box = some b ∧ GetNeighborsBase32 lat lng P = some hs ∧
      (|shiftedLat b k| ≤ 90 → |shiftedLng b k| ≤ 180 →
        ∃ h, hs[k]? = some h ∧ h.length = P ∧
          DecodeBase32 h = { lat := shiftedLat b k, lng := shiftedLng b k, err := none } ∧
          ∃ la ln b1, h = (EncodeBase32 la ln P).hash ∧ (EncodeBase32 la ln P).box = some b1 ∧
            b1.Width = b.Width ∧ b1.Height = b.Height ∧
            (b1.MinLat + b1.MaxLat) / 2 = shiftedLat b k ∧
            (b1.MinLng + b1.MaxLng) / 2 = shiftedLng b k)) ∧
    (∃ b hs, (EncodeBase4 lat lng P).box = some b ∧ GetNeighborsBase4 lat lng P = some hs ∧
      (|shiftedLat b k| ≤ 90 → |shiftedLng b k| ≤ 180 →
        ∃ h, hs[k]? = some h ∧ h.length = P ∧
          DecodeBase4 h = { lat := shiftedLat b k, lng := shiftedLng b k, err := none } ∧
          ∃ la ln b1, h = (EncodeBase4 la ln P).hash ∧ (EncodeBase4 la ln P).box = some b1 ∧
            b1.Width = b.Width ∧ b1.Height = b.Height ∧
            (b1.MinLat + b1.MaxLat) / 2 = shiftedLat b k ∧
            (b1.MinLng + b1.MaxLng) / 2 = shiftedLng b k)) :=
  ⟨neighbors_adjacent codec32 EncodeBase32 DecodeBase32 EncodeBase32_nat DecodeBase32_encode
      lat lng P hlat hlng k hk,
   neighbors_adjacent codec4 EncodeBase4 DecodeBase4 EncodeBase4_nat DecodeBase4_encode
      lat lng P hlat hlng k hk⟩


/-! ## C12: no wrap-around -/

/-- C12. No wrap-around: for valid `(lat, lng)` and precision `P ≥ 0`, each
slot `k` of `GetNeighborsBase32` / `GetNeighborsBase4` whose shifted centre
lies outside [-90, 90] x [-180, 180] holds the empty string.  For
`GetNeighborsBase4(45, 90, 1)` the self entry is "3" and the north, east,
northwest, northeast and southeast entries are all empty. -/
theorem C12_no_wrap_around (lat lng : ℚ) (P : Nat) (hlat : |lat| ≤ 90)
    (hlng : |lng| ≤ 180) (k : Nat) (hk : k < 9) :
    (∃ b hs, (EncodeBase32 lat lng P).box = some b ∧ GetNeighborsBase32 lat lng P = some hs ∧
      (¬ (|shiftedLat b k| ≤ 90 ∧ |shiftedLng b k| ≤ 180) → hs[k]? = some "")) ∧
    (∃ b hs, (EncodeBase4 lat lng P).box = some b ∧ GetNeighborsBase4 lat lng P = some hs ∧
      (¬ (|shiftedLat b k| ≤ 90 ∧ |shiftedLng b k| ≤ 180) → hs[k]? = some "")) ∧
    GetNeighborsBase4 45 90 1 = some ["3", "", "2", "1", "", "", "0", "", ""] :=
  ⟨neighbors_no_wrap codec32 EncodeBase32 EncodeBase32_nat EncodeBase32_hash_err
      lat lng P hlat hlng k hk,
   neighbors_no_wrap codec4 EncodeBase4 EncodeBase4_nat EncodeBase4_hash_err
      lat lng P hlat hlng k hk,
   by decide!⟩

theorem C12_no_wrap_around_witness :
    (|(45 : ℚ)| ≤ 90 ∧ |(90 : ℚ)| ≤ 180 ∧ 4 < 9) ∧
    ∃ b hs, (EncodeBase4 45 90 (1 : Nat)).box = some b ∧
      GetNeighborsBase4 45 90 (1 : Nat) = some hs ∧
      (¬ (|shiftedLat b 4| ≤ 90 ∧ |shiftedLng b 4| ≤ 180) → hs[4]? = some "") :=
  have h1 : |(45 : ℚ)| ≤ 90 := by norm_num [abs_le]
  have h2 : |(90 : ℚ)| ≤ 180 := by norm_num [abs_le]
  ⟨⟨h1, h2, by decide⟩, (C12_no_wrap_around 45 90 1 h1 h2 4 (by decide)).2.1⟩

/-! ## C13: the neighbour functions on arbitrary arguments -/

/-- For valid coordinates the neighbour functions return nine strings, the
first of which is the hash of the encoder for the same arguments. -/
theorem neighbors_valid (lat lng : ℚ) (P : Nat) (hlat : |lat| ≤ 90) (hlng : |lng| ≤ 180) :
    (∃ hs, GetNeighborsBase32 lat lng P = some hs ∧ hs.length = 9 ∧
      hs[0]? = some (EncodeBase32 lat lng P).hash) ∧
    (∃ hs, GetNeighborsBase4 lat lng P = some hs ∧ hs.length = 9 ∧
      hs[0]? = some (EncodeBase4 lat lng P).hash) :=
  ⟨⟨_, neighborsWith_some EncodeBase32 lat lng P _ (EncodeBase32_box lat lng P hlat hlng),
      rfl, rfl⟩,
   ⟨_, neighborsWith_some EncodeBase4 lat lng P _ (EncodeBase4_box lat lng P hlat hlng),
      rfl, rfl⟩⟩

/-- C13 fails on the code: when the latitude or the longitude is out of range
the first encoder call returns no box, and `GetNeighborsBase32` /
`GetNeighborsBase4` stop with a run-time panic at `b.MinLat` instead of
returning nine strings; so for latitude 91. -/
theorem C13_neighbors_panic_on_invalid :
    (∀ (lat lng : ℚ) (P : Int), (|lat| > 90 ∨ |lng| > 180) →
      GetNeighborsBase32 lat lng P = none ∧ GetNeighborsBase4 lat lng P = none) ∧
    GetNeighborsBase32 91 0 1 = none ∧ GetNeighborsBase4 91 0 1 = none := by
  have key : ∀ (lat lng : ℚ) (P : Int), (|lat| > 90 ∨ |lng| > 180) →
      GetNeighborsBase32 lat lng P = none ∧ GetNeighborsBase4 lat lng P = none := by
    intro lat lng P h
    have e32 : (EncodeBase32 lat lng P).box = none := by
      obtain ⟨-, h1, h2⟩ := EncodeBase32_err lat lng P
      by_cases c : |lat| > 90
      · rw [h1 c]
      · rw [h2 c (h.resolve_left c)]
    have e4 : (EncodeBase4 lat lng P).box = none := by
      obtain ⟨-, h1, h2⟩ := EncodeBase4_err lat lng P
      by_cases c : |lat| > 90
      · rw [h1 c]
      · rw [h2 c (h.resolve_left c)]
    constructor
    · unfold GetNeighborsBase32 neighborsWith; simp only [e32]
    · unfold GetNeighborsBase4 neighborsWith; simp only [e4]
  have h91 : |(91 : ℚ)| > 90 ∨ |(0 : ℚ)| > 180 := Or.inl (by norm_num)
  exact ⟨key, (key 91 0 1 h91).1, (key 91 0 1 h91).2⟩

/-! ## C14, C15, C16: the prefix distance -/

/-- When no byte differs below `l` the loop leaves `maxPrefix` at 0. -/
theorem mismatchLoop_same (p : List UInt8) (l n i : Nat) : mismatchLoop p p l n i = 0 := by
  induction n generalizing i with
  | zero => rfl
  | succ n ih =>
    unfold mismatchLoop
    split_ifs
    · exact absurd rfl ‹_›
    · exact ih _
    · rfl

/-- C14 fails on the code: the loop records the index of the first differing
byte but leaves `maxPrefix` at 0 when no byte differs, so two identical strings
(and a string with one of its prefixes) get `table[0]`, not the table value for
their common prefix length; so for "0123" and "wx4".  Where a byte does differ
the lookup is as claimed: two 33-character base-4 strings differing only at
position 22 get `distanceBase4[22]`. -/
theorem C14_identical_strings_get_first_entry :
    (∀ str : String, DistanceBase4 str str = some 20000000 ∧
      DistanceBase32 str str = some 20000000) ∧
    DistanceBase4 "0123" "0123" = some 20000000 ∧ distanceBase4[4]? = some 1250000 ∧
    DistanceBase32 "wx4" "wx4" = some 20000000 ∧ distanceBase32[3]? = some 78000 ∧
    DistanceBase4 "01" "0123" = some 20000000 ∧ distanceBase4[2]? = some 5000000 ∧
    DistanceBase4 "321310212220203310213322123303201" "321310212220203310213312123303201"
      = distanceBase4[22]? ∧ distanceBase4[22]? = some (4.75 : ℚ) := by
  refine ⟨fun str => ?_, by decide!, by decide!, by decide!, by decide!, by decide!, by decide!,
    by decide!, by decide!⟩
  unfold DistanceBase4 DistanceBase32 distanceWith
  simp only [mismatchLoop_same]
  exact ⟨by decide!, by decide!⟩

/-- C15 fails on the code: the guard is `maxPrefix > len(table) + 1`, so a
first difference at index `len(table)` or `len(table) + 1` (8 or 9 for base 32,
25 or 26 for base 4) indexes the table out of range and the call panics
instead of returning 0; the result is 0 only from index `len(table) + 2` on. -/
theorem C15_distance_index_out_of_range :
    DistanceBase32 "000000000" "000000001" = none ∧
    DistanceBase32 "0000000000" "0000000001" = none ∧
    DistanceBase32 "00000000000" "00000000001" = some 0 ∧
    DistanceBase4 "00000000000000000000000000" "00000000000000000000000001" = none ∧
    DistanceBase4 "000000000000000000000000000" "000000000000000000000000001" = none ∧
    DistanceBase4 "0000000000000000000000000000" "0000000000000000000000000001" = some 0 := by
  decide!

/-- C16 fails on the code: the two hashes of the test first differ at index 7,
and `DistanceBase4` returns `distanceBase4[7]`, which is 157000, not 22990; no
entry of the table is 22990. -/
theorem C16_test_distance_is_157000 :
    DistanceBase4 "32131021222020331021332212330320" "32131020330202020212320213332202"
      = some 157000 ∧
    distanceBase4[7]? = some 157000 ∧ (22990 : ℚ) ∉ distanceBase4 := by
  decide!

/-! ## C18: the exact distance -/

theorem Distance_in_range (M : GoMath) (lng1 lat1 lng2 lat2 : ℚ)
    (h : ¬ (|lat1| > 90 ∨ |lat2| > 90 ∨ |lng1| > 180 ∨ |lng2| > 180)) :
    Distance M lng1 lat1 lng2 lat2
      = 2 * 6371393 * M.Atan2
          (M.Sqrt (M.Sin (|lat1 * M.Pi / 180 - lat2 * M.Pi / 180| / 2)
              * M.Sin (|lat1 * M.Pi / 180 - lat2 * M.Pi / 180| / 2)
            + M.Cos (lat1 * M.Pi / 180) * M.Cos (lat2 * M.Pi / 180)
              * M.Sin ((lng1 * M.Pi / 180 - lng2 * M.Pi / 180) / 2)
              * M.Sin ((lng1 * M.Pi / 180 - lng2 * M.Pi / 180) / 2)))
          (M.Sqrt (1 - (M.Sin (|lat1 * M.Pi / 180 - lat2 * M.Pi / 180| / 2)
              * M.Sin (|lat1 * M.Pi / 180 - lat2 * M.Pi / 180| / 2)
            + M.Cos (lat1 * M.Pi / 180) * M.Cos (lat2 * M.Pi / 180)
              * M.Sin ((lng1 * M.Pi / 180 - lng2 * M.Pi / 180) / 2)
              * M.Sin ((lng1 * M.Pi / 180 - lng2 * M.Pi / 180) / 2)))) := by
  have h1 : ¬ (|lat1| > 90 ∨ |lat2| > 90) := fun c => h (c.elim Or.inl (fun c => Or.inr (Or.inl c)))
  have h2 : ¬ (|lng1| > 180 ∨ |lng2| > 180) := fun c => h (Or.inr (Or.inr c))
  unfold Distance
  rw [if_neg h1, if_neg h2]
  rfl

theorem Distance_out_of_range (M : GoMath) (lng1 lat1 lng2 lat2 : ℚ)
    (h : |lat1| > 90 ∨ |lat2| > 90 ∨ |lng1| > 180 ∨ |lng2| > 180) :
    Distance M lng1 lat1 lng2 lat2 = -1 := by
  unfold Distance
  by_cases h1 : |lat1| > 90 ∨ |lat2| > 90
  · rw [if_pos h1]
  · have h2 : |lng1| > 180 ∨ |lng2| > 180 := by tauto
    rw [if_neg h1, if_pos h2]

theorem Distance_nonneg (M : GoMath) (hM : M.Sane) (lng1 lat1 lng2 lat2 : ℚ)
    (h : ¬ (|lat1| > 90 ∨ |lat2| > 90 ∨ |lng1| > 180 ∨ |lng2| > 180)) :
    0 ≤ Distance M lng1 lat1 lng2 lat2 := by
  rw [Distance_in_range M lng1 lat1 lng2 lat2 h]
  have := hM.2 _ (M.Sqrt (1 - (M.Sin (|lat1 * M.Pi / 180 - lat2 * M.Pi / 180| / 2)
              * M.Sin (|lat1 * M.Pi / 180 - lat2 * M.Pi / 180| / 2)
            + M.Cos (lat1 * M.Pi / 180) * M.Cos (lat2 * M.Pi / 180)
              * M.Sin ((lng1 * M.Pi / 180 - lng2 * M.Pi / 180) / 2)
              * M.Sin ((lng1 * M.Pi / 180 - lng2 * M.Pi / 180) / 2)))) (hM.1
      (M.Sin (|lat1 * M.Pi / 180 - lat2 * M.Pi / 180| / 2)
              * M.Sin (|lat1 * M.Pi / 180 - lat2 * M.Pi / 180| / 2)
            + M.Cos (lat1 * M.Pi / 180) * M.Cos (lat2 * M.Pi / 180)
              * M.Sin ((lng1 * M.Pi / 180 - lng2 * M.Pi / 180) / 2)
              * M.Sin ((lng1 * M.Pi / 180 - lng2 * M.Pi / 180) / 2)))
  positivity

theorem sampleMath_sane : sampleMath.Sane :=
  ⟨fun x => abs_nonneg x, fun y _ _ => abs_nonneg y⟩


/-- C18 fails as stated: in `Distance(91, 0, 0, 0)` the 91 is `lng1`, which is
in range, so no `math` package with a non-negative `Sqrt` and `Atan2` makes the
call return -1. -/
theorem C18_distance_91_not_sentinel :
    ¬ ∃ M : GoMath, M.Sane ∧ Distance M 91 0 0 0 = -1 := by
  rintro ⟨M, hM, h⟩
  have hr : ¬ (|(0 : ℚ)| > 90 ∨ |(0 : ℚ)| > 90 ∨ |(91 : ℚ)| > 180 ∨ |(0 : ℚ)| > 180) := by
    norm_num
  have := Distance_nonneg M hM 91 0 0 0 hr
  rw [h] at this
  norm_num at this

/-- C18 amended. The parameters of `Distance` are `(lng1, lat1, lng2, lat2)`:
with the arguments 91, 0, 0, 0 in that order the 91 is a longitude, in range,
and the call returns the non-negative haversine value, not -1; with 91 in a
latitude position, `Distance(0, 91, 0, 0)` and `Distance(0, 0, 0, 91)` return
-1. -/
theorem C18_distance_argument_order (M : GoMath) (hM : M.Sane) :
    0 ≤ Distance M 91 0 0 0 ∧ Distance M 91 0 0 0 ≠ -1 ∧
    Distance M 91 0 0 0
      = 2 * 6371393 * M.Atan2
          (M.Sqrt (M.Sin (|0 * M.Pi / 180 - 0 * M.Pi / 180| / 2)
              * M.Sin (|0 * M.Pi / 180 - 0 * M.Pi / 180| / 2)
            + M.Cos (0 * M.Pi / 180) * M.Cos (0 * M.Pi / 180)
              * M.Sin ((91 * M.Pi / 180 - 0 * M.Pi / 180) / 2)
              * M.Sin ((91 * M.Pi / 180 - 0 * M.Pi / 180) / 2)))
          (M.Sqrt (1 - (M.Sin (|0 * M.Pi / 180 - 0 * M.Pi / 180| / 2)
              * M.Sin (|0 * M.Pi / 180 - 0 * M.Pi / 180| / 2)
            + M.Cos (0 * M.Pi / 180) * M.Cos (0 * M.Pi / 180)
              * M.Sin ((91 * M.Pi / 180 - 0 * M.Pi / 180) / 2)
              * M.Sin ((91 * M.Pi / 180 - 0 * M.Pi / 180) / 2)))) ∧
    Distance M 0 91 0 0 = -1 ∧ Distance M 0 0 0 91 = -1 := by
  have hr : ¬ (|(0 : ℚ)| > 90 ∨ |(0 : ℚ)| > 90 ∨ |(91 : ℚ)| > 180 ∨ |(0 : ℚ)| > 180) := by
    norm_num
  have h0 := Distance_nonneg M hM 91 0 0 0 hr
  refine ⟨h0, ?_, Distance_in_range M 91 0 0 0 hr, ?_, ?_⟩
  · intro h
    rw [h] at h0
    norm_num at h0
  · exact Distance_out_of_range M 0 91 0 0 (Or.inl (by norm_num))
  · exact Distance_out_of_range M 0 0 0 91 (Or.inr (Or.inl (by norm_num)))

theorem C18_distance_argument_order_witness :
    sampleMath.Sane ∧
    (0 ≤ Distance sampleMath 91 0 0 0 ∧ Distance sampleMath 91 0 0 0 ≠ -1 ∧
      Distance sampleMath 0 91 0 0 = -1) :=
  ⟨sampleMath_sane,
    (C18_distance_argument_order sampleMath sampleMath_sane).1,
    (C18_distance_argument_order sampleMath sampleMath_sane).2.1,
    (C18_distance_argument_order sampleMath sampleMath_sane).2.2.2.1⟩

/-! ## C19: what the encoders write -/

/-- C19 fails on the code: both encoders call `fmt.Println()` before they
return a hash, so every call that does not fail writes a newline to standard
output (a failing call writes nothing); so for `EncodeBase32(0, 0, 0)`.  The
returned triple is the same for the same arguments. -/
theorem C19_encode_writes_newline :
    (∀ (lat lng : ℚ) (P : Int), (EncodeBase32 lat lng P).err = none →
      (EncodeBase32 lat lng P).out = "\n") ∧
    (∀ (lat lng : ℚ) (P : Int), (EncodeBase4 lat lng P).err = none →
      (EncodeBase4 lat lng P).out = "\n") ∧
    (∀ (lat lng : ℚ) (P : Int), (EncodeBase32 lat lng P).err ≠ none →
      (EncodeBase32 lat lng P).out = "") ∧
    (∀ (lat lng : ℚ) (P : Int), (EncodeBase4 lat lng P).err ≠ none →
      (EncodeBase4 lat lng P).out = "") ∧
    (EncodeBase32 0 0 0).out = "\n" ∧ (EncodeBase4 0 0 0).out = "\n" := by
  refine ⟨?_, ?_, ?_, ?_, by decide!, by decide!⟩
  · intro lat lng P
    unfold EncodeBase32
    split_ifs <;> simp [encFinish]
  · intro lat lng P
    unfold EncodeBase4
    split_ifs <;> simp [encFinish]
  · intro lat lng P
    unfold EncodeBase32
    split_ifs <;> simp [encFinish]
  · intro lat lng P
    unfold EncodeBase4
    split_ifs <;> simp [encFinish]

/-! ## Encoding what was decoded -/

theorem codec32_table : codec32.Table := by
  unfold Codec.Table; decide

theorem codec4_table : codec4.Table := by
  unfold Codec.Table; decide

theorem mapGet_mem (m : List (Char × List Nat)) (c : Char) (u : List Nat)
    (h : mapGet m c = some u) : (c, u) ∈ m := by
  unfold mapGet at h
  obtain ⟨l1, l2, e, -⟩ := List.lookup_eq_some_iff.mp h
  rw [e]; simp

theorem expand_cons (m : List (Char × List Nat)) (c : Char) (cs : List Char) :
    expand m (c :: cs) []
      = (mapGet m c).bind (fun u => (expand m cs []).map (fun r => u ++ r)) := by
  have e : expand m (c :: cs) []
      = (match mapGet m c with
          | none => none
          | some u => expand m cs ([] ++ u)) := rfl
  rw [e]
  cases hc : mapGet m c with
  | none => rfl
  | some u =>
    simp only [Option.some_bind]
    rw [expand_acc, List.nil_append]

theorem expand_cons_some (m : List (Char × List Nat)) (c : Char) (cs : List Char)
    (bs : List Nat) (h : expand m (c :: cs) [] = some bs) :
    ∃ u r, mapGet m c = some u ∧ expand m cs [] = some r ∧ bs = u ++ r := by
  rw [expand_cons] at h
  cases hc : mapGet m c with
  | none => rw [hc] at h; cases h
  | some u =>
    rw [hc] at h
    simp only [Option.some_bind] at h
    cases hr : expand m cs [] with
    | none => rw [hr] at h; cases h
    | some r =>
      rw [hr] at h
      simp only [Option.map_some'] at h
      exact ⟨u, r, rfl, rfl, (Option.some.inj h).symm⟩

/-- The bits of an expanded string: a whole number of groups, each bit 0 or 1. -/
theorem expand_bits (A : Codec) (hT : A.Table) (cs : List Char) (bs : List Nat)
    (h : expand A.un cs [] = some bs) :
    bs.length = (A.last + 1) * cs.length ∧ ∀ b ∈ bs, b ≤ 1 := by
  induction cs generalizing bs with
  | nil =>
    simp only [expand] at h
    cases h
    simp
  | cons c cs ih =>
    obtain ⟨u, r, hu, hr, rfl⟩ := expand_cons_some A.un c cs bs h
    obtain ⟨t1, t2, -⟩ := hT (c, u) (mapGet_mem A.un c u hu)
    obtain ⟨i1, i2⟩ := ih r hr
    constructor
    · rw [List.length_append, t1, i1, List.length_cons]; ring
    · intro b hb
      rcases List.mem_append.mp hb with hb | hb
      · exact t2 b hb
      · exact i2 b hb

/-- Two strings with the same expansion are equal. -/
theorem expand_inj (A : Codec) (hT : A.Table) (cs cs1 : List Char) (bs : List Nat)
    (h : expand A.un cs [] = some bs) (h1 : expand A.un cs1 [] = some bs) : cs = cs1 := by
  induction cs generalizing cs1 bs with
  | nil =>
    simp only [expand] at h
    cases h
    cases cs1 with
    | nil => rfl
    | cons c1 t1 =>
      obtain ⟨u, r, hu, -, e⟩ := expand_cons_some A.un c1 t1 [] h1
      obtain ⟨t1, -, -⟩ := hT (c1, u) (mapGet_mem A.un c1 u hu)
      have : u = [] := (List.append_eq_nil.mp e.symm).1
      rw [this] at t1
      simp at t1
  | cons c cs ih =>
    obtain ⟨u, r, hu, hr, e⟩ := expand_cons_some A.un c cs bs h
    obtain ⟨a1, -, a3⟩ := hT (c, u) (mapGet_mem A.un c u hu)
    cases cs1 with
    | nil =>
      simp only [expand] at h1
      cases h1
      have : u = [] := (List.append_eq_nil.mp e.symm).1
      rw [this] at a1
      simp at a1
    | cons c1 t1 =>
      obtain ⟨u1, r1, hu1, hr1, e1⟩ := expand_cons_some A.un c1 t1 bs h1
      obtain ⟨b1, -, b3⟩ := hT (c1, u1) (mapGet_mem A.un c1 u1 hu1)
      obtain ⟨eu, er⟩ := List.append_inj (e.symm.trans e1) (a1.trans b1.symm)
      subst eu er
      have hc : c = c1 := a3.symm.trans b3
      subst hc
      rw [ih t1 r hr hr1]

/-- A string of alphabet characters expands. -/
theorem expand_total (m : List (Char × List Nat)) (cs : List Char)
    (h : ∀ c ∈ cs, c ∈ m.map Prod.fst) : ∃ bs, expand m cs [] = some bs := by
  cases hx : expand m cs [] with
  | some bs => exact ⟨bs, rfl⟩
  | none =>
    obtain ⟨c, hc, hn⟩ := (expand_eq_none_iff m cs []).mp hx
    exact absurd (h c hc) ((mapGet_eq_none_iff m c).mp hn)

theorem decInit_inv : DecInv decInit :=
  { lat := rfl
    lng := rfl
    ltLat := by simp [decInit, MinLatitude, MaxLatitude]
    ltLng := by simp [decInit, MinLongitude, MaxLongitude] }

/-- One decoding step keeps the invariant and never widens a range. -/
theorem decodeStep_inv (d : DecState) (v : Nat) (h : DecInv d) :
    DecInv (decodeStep d v) ∧
    d.minLat ≤ (decodeStep d v).minLat ∧ (decodeStep d v).maxLat ≤ d.maxLat ∧
    d.minLng ≤ (decodeStep d v).minLng ∧ (decodeStep d v).maxLng ≤ d.maxLng := by
  obtain ⟨h1, h2, h3, h4⟩ := h
  simp only [decodeStep]
  split_ifs
  · refine ⟨⟨?_, ?_, ?_, ?_⟩, ?_, ?_, ?_, ?_⟩ <;> simp only [] <;> linarith
  · refine ⟨⟨?_, ?_, ?_, ?_⟩, ?_, ?_, ?_, ?_⟩ <;> simp only [] <;> linarith
  · refine ⟨⟨?_, ?_, ?_, ?_⟩, ?_, ?_, ?_, ?_⟩ <;> simp only [] <;> linarith
  · refine ⟨⟨?_, ?_, ?_, ?_⟩, ?_, ?_, ?_, ?_⟩ <;> simp only [] <;> linarith

theorem foldl_decodeStep_inv (l : List Nat) (d : DecState) (h : DecInv d) :
    DecInv (l.foldl decodeStep d) ∧
    d.minLat ≤ (l.foldl decodeStep d).minLat ∧ (l.foldl decodeStep d).maxLat ≤ d.maxLat ∧
    d.minLng ≤ (l.foldl decodeStep d).minLng ∧ (l.foldl decodeStep d).maxLng ≤ d.maxLng := by
  induction l generalizing d with
  | nil => exact ⟨h, le_rfl, le_rfl, le_rfl, le_rfl⟩
  | cons v l ih =>
    obtain ⟨a, a1, a2, a3, a4⟩ := decodeStep_inv d v h
    obtain ⟨b, b1, b2, b3, b4⟩ := ih (decodeStep d v) a
    exact ⟨b, a1.trans b1, b2.trans a2, a3.trans b3, b4.trans a4⟩

/-- The decoded point lies strictly inside the ranges reached after any
initial part of the bits. -/
theorem decode_strict (l1 l2 : List Nat) :
    (l1.foldl decodeStep decInit).minLat < ((l1 ++ l2).foldl decodeStep decInit).lat ∧
    ((l1 ++ l2).foldl decodeStep decInit).lat < (l1.foldl decodeStep decInit).maxLat ∧
    (l1.foldl decodeStep decInit).minLng < ((l1 ++ l2).foldl decodeStep decInit).lng ∧
    ((l1 ++ l2).foldl decodeStep decInit).lng < (l1.foldl decodeStep decInit).maxLng := by
  rw [List.foldl_append]
  obtain ⟨a, -⟩ := foldl_decodeStep_inv l1 decInit decInit_inv
  obtain ⟨⟨b1, b2, b3, b4⟩, c1, c2, c3, c4⟩ :=
    foldl_decodeStep_inv l2 (l1.foldl decodeStep decInit) a
  refine ⟨?_, ?_, ?_, ?_⟩ <;> linarith

/-- A point strictly inside the ranges the decoder reaches with bit `b` makes
the encoder decide bit `b`. -/
theorem bitOf_agree (lat lng : ℚ) (s : EncState) (b : Nat) (hb : b ≤ 1)
    (h1 : (decodeStep (decOf s) b).minLng < lng) (h2 : lng < (decodeStep (decOf s) b).maxLng)
    (h3 : (decodeStep (decOf s) b).minLat < lat) (h4 : lat < (decodeStep (decOf s) b).maxLat) :
    bitOf lat lng s = b := by
  unfold bitOf
  simp only [decodeStep, decOf] at h1 h2 h3 h4
  interval_cases b <;> cases hE : s.isEven <;> simp [hE] at h1 h2 h3 h4 ⊢ <;> linarith

/-- One iteration extends the bits decided so far by the bit it decides. -/
theorem EncInv_step_bits (A : Codec) (hA : A.Good) (lat lng : ℚ) (s : EncState)
    (done pend : List Nat) (h : EncInv A s done pend) (hb : s.bit ≤ A.last) :
    ∃ done1 pend1, EncInv A (stepG A lat lng s) done1 pend1 ∧
      done1 ++ pend1 = (done ++ pend) ++ [bitOf lat lng s] := by
  have hbits : ∀ x ∈ pend ++ [bitOf lat lng s], x ≤ 1 := by
    intro x hx
    rcases List.mem_append.mp hx with hx | hx
    · exact h.bits x hx
    · rw [List.mem_singleton.mp hx]; exact bitOf_le_one lat lng s
  have hch : (bisect A.bits lat lng s).ch = chOf A.bits (pend ++ [bitOf lat lng s]) := by
    rw [bisect_ch, chOf_snoc, h.ch, h.len]
  have hdec : (done ++ (pend ++ [bitOf lat lng s])).foldl decodeStep decInit
      = decOf (stepG A lat lng s) := by
    rw [← List.append_assoc, List.foldl_append, h.dec, decOf_stepG]
    exact decodeStep_decOf A.bits lat lng s
  by_cases hlt : s.bit < A.last
  · refine ⟨done, pend ++ [bitOf lat lng s], ?_, (List.append_assoc _ _ _).symm⟩
    have hs : stepG A lat lng s
        = { bisect A.bits lat lng s with bit := (bisect A.bits lat lng s).bit + 1 } := by
      simp only [stepG]; rw [if_pos (by simpa using hlt)]
    refine { len := ?_, bits := hbits, hash := ?_, ch := ?_, dec := hdec }
    · rw [hs]; simp [h.len]
    · rw [hs]; simpa using h.hash
    · rw [hs]; exact hch
  · refine ⟨done ++ (pend ++ [bitOf lat lng s]), [], ?_, ?_⟩
    · have hs : stepG A lat lng s
          = { bisect A.bits lat lng s with
              geoHash := (bisect A.bits lat lng s).geoHash
                ++ [A.alpha.getD (bisect A.bits lat lng s).ch '0'],
              length := (bisect A.bits lat lng s).length + 1, bit := 0, ch := 0 } := by
        simp only [stepG]; rw [if_neg (by simpa using hlt)]
      have hlen : (pend ++ [bitOf lat lng s]).length = A.last + 1 := by
        rw [List.length_append, h.len]; simp; omega
      refine { len := ?_, bits := by simp, hash := ?_, ch := ?_, dec := ?_ }
      · rw [hs]; rfl
      · rw [hs]
        simp only [bisect_geoHash]
        apply expand_snoc _ _ _ _ _ _ h.hash
        rw [hch]
        exact hA _ hlen hbits
      · rw [hs]; exact (chOf_nil _).symm
      · rw [List.append_nil]; exact hdec
    · rw [List.append_nil, List.append_assoc]

/-- Encoding the decoded point decides, iteration by iteration, the bits that
were decoded. -/
theorem encode_follows (A : Codec) (hA : A.Good) (bs : List Nat) (hbs : ∀ b ∈ bs, b ≤ 1)
    (l1 l2 : List Nat) (e : l1 ++ l2 = bs) :
    ∃ done pend,
      EncInv A (iterG A (bs.foldl decodeStep decInit).lat (bs.foldl decodeStep decInit).lng
        l1.length) done pend ∧ done ++ pend = l1 := by
  induction l1 using List.reverseRecOn generalizing l2 with
  | nil => exact ⟨[], [], EncInv_init A, rfl⟩
  | append_singleton l b ih =>
    obtain ⟨done, pend, hinv, hl⟩ := ih ([b] ++ l2) (by rw [← e, List.append_assoc])
    have hb1 : b ≤ 1 := hbs b (by rw [← e]; simp)
    obtain ⟨s1, s2, s3, s4⟩ := decode_strict (l ++ [b]) l2
    rw [e] at s1 s2 s3 s4
    have hd : (l ++ [b]).foldl decodeStep decInit
        = decodeStep (decOf (iterG A (bs.foldl decodeStep decInit).lat
            (bs.foldl decodeStep decInit).lng l.length)) b := by
      rw [List.foldl_append, ← hinv.dec, hl]; rfl
    rw [hd] at s1 s2 s3 s4
    have hbit := bitOf_agree _ _ _ b hb1 s3 s4 s1 s2
    have hle : (iterG A (bs.foldl decodeStep decInit).lat
        (bs.foldl decodeStep decInit).lng l.length).bit ≤ A.last := by
      rw [(iterG_counters A _ _ l.length).1]
      exact Nat.lt_succ_iff.mp (Nat.mod_lt _ (Nat.succ_pos _))
    obtain ⟨done1, pend1, hinv1, hl1⟩ := EncInv_step_bits A hA
      (bs.foldl decodeStep decInit).lat (bs.foldl decodeStep decInit).lng _ done pend hinv hle
    refine ⟨done1, pend1, ?_, ?_⟩
    · rw [List.length_append, List.length_singleton, iterG_succ]; exact hinv1
    · rw [hl1, hl, hbit]

/-- Decoding a string of alphabet characters gives a point strictly inside
the full range, and encoding that point with as many symbols as the string
has writes the string again. -/
theorem reencode (A : Codec) (hA : A.Good) (hT : A.Table) (cs : List Char) (bs : List Nat)
    (h : expand A.un cs [] = some bs) :
    |(bs.foldl decodeStep decInit).lat| < 90 ∧ |(bs.foldl decodeStep decInit).lng| < 180 ∧
    (iterG A (bs.foldl decodeStep decInit).lat (bs.foldl decodeStep decInit).lng
      ((A.last + 1) * cs.length)).geoHash = cs := by
  obtain ⟨hlen, hbits⟩ := expand_bits A hT cs bs h
  obtain ⟨s1, s2, s3, s4⟩ := decode_strict [] bs
  rw [List.nil_append] at s1 s2 s3 s4
  have i1 : (List.foldl decodeStep decInit []).minLat = -90 := rfl
  have i2 : (List.foldl decodeStep decInit []).maxLat = 90 := rfl
  have i3 : (List.foldl decodeStep decInit []).minLng = -180 := rfl
  have i4 : (List.foldl decodeStep decInit []).maxLng = 180 := rfl
  rw [i1] at s1; rw [i2] at s2; rw [i3] at s3; rw [i4] at s4
  refine ⟨abs_lt.mpr ⟨s1, s2⟩, abs_lt.mpr ⟨s3, s4⟩, ?_⟩
  obtain ⟨done, pend, hinv, hl⟩ := encode_follows A hA bs hbits bs [] (List.append_nil bs)
  rw [hlen] at hinv
  have hp : pend.length = 0 := by
    rw [hinv.len, (iterG_counters A _ _ _).1, Nat.mul_mod_right]
  have : pend = [] := List.length_eq_zero.mp hp
  subst this
  rw [List.append_nil] at hl
  subst hl
  exact expand_inj A hT _ _ _ hinv.hash h

theorem DecodeBase32_of_expand (str : String) (bs : List Nat)
    (h : expand unBase32 str.toList [] = some bs) :
    DecodeBase32 str = { lat := (bs.foldl decodeStep decInit).lat,
                         lng := (bs.foldl decodeStep decInit).lng, err := none } := by
  unfold DecodeBase32
  rw [h]

theorem DecodeBase4_of_expand (str : String) (bs : List Nat)
    (h : expand unBase4 str.toList [] = some bs) :
    DecodeBase4 str = { lat := (bs.foldl decodeStep decInit).lat,
                        lng := (bs.foldl decodeStep decInit).lng, err := none } := by
  unfold DecodeBase4
  rw [h]

theorem reencode32 (str : String) (h : ∀ c ∈ str.toList, c ∈ Base32.toList) :
    (DecodeBase32 str).err = none ∧
    |(DecodeBase32 str).lat| < 90 ∧ |(DecodeBase32 str).lng| < 180 ∧
    (EncodeBase32 (DecodeBase32 str).lat (DecodeBase32 str).lng str.length).hash = str ∧
    (EncodeBase32 (DecodeBase32 str).lat (DecodeBase32 str).lng str.length).err = none := by
  obtain ⟨bs, hbs⟩ := expand_total unBase32 str.toList (by rw [unBase32_keys]; exact h)
  obtain ⟨r1, r2, r3⟩ := reencode codec32 codec32_good codec32_table str.toList bs hbs
  rw [DecodeBase32_of_expand str bs hbs]
  refine ⟨rfl, r1, r2, ?_, ?_⟩
  · rw [EncodeBase32_nat _ _ _ r1.le r2.le, encFinish_hash]
    exact congrArg String.mk r3
  · rw [EncodeBase32_nat _ _ _ r1.le r2.le]; rfl

theorem reencode4 (str : String) (h : ∀ c ∈ str.toList, c ∈ Base4.toList) :
    (DecodeBase4 str).err = none ∧
    |(DecodeBase4 str).lat| < 90 ∧ |(DecodeBase4 str).lng| < 180 ∧
    (EncodeBase4 (DecodeBase4 str).lat (DecodeBase4 str).lng str.length).hash = str ∧
    (EncodeBase4 (DecodeBase4 str).lat (DecodeBase4 str).lng str.length).err = none := by
  obtain ⟨bs, hbs⟩ := expand_total unBase4 str.toList (by rw [unBase4_keys]; exact h)
  obtain ⟨r1, r2, r3⟩ := reencode codec4 codec4_good codec4_table str.toList bs hbs
  rw [DecodeBase4_of_expand str bs hbs]
  refine ⟨rfl, r1, r2, ?_, ?_⟩
  · rw [EncodeBase4_nat _ _ _ r1.le r2.le, encFinish_hash]
    exact congrArg String.mk r3
  · rw [EncodeBase4_nat _ _ _ r1.le r2.le]; rfl

/-! ## Re-encoding in exact arithmetic -/

/-- In exact arithmetic, re-encoding is the identity on hashes: for every string made only of
base-32 alphabet characters, `DecodeBase32` succeeds with a point in range
(`|lat| < 90`, `|lng| < 180`), and `EncodeBase32` of that point with the length
of the string as precision returns exactly the string; hence two distinct
hashes of the same length never decode to the same point.  The same holds for
`DecodeBase4` / `EncodeBase4` on strings over "0123". -/
theorem exact_reencode_identity (str : String) :
    ((∀ c ∈ str.toList, c ∈ Base32.toList) →
      ((DecodeBase32 str).err = none ∧
        |(DecodeBase32 str).lat| < 90 ∧ |(DecodeBase32 str).lng| < 180 ∧
        (EncodeBase32 (DecodeBase32 str).lat (DecodeBase32 str).lng str.length).hash = str ∧
        (EncodeBase32 (DecodeBase32 str).lat (DecodeBase32 str).lng str.length).err = none) ∧
      (∀ t : String, (∀ c ∈ t.toList, c ∈ Base32.toList) → t.length = str.length → t ≠ str →
        ¬ ((DecodeBase32 t).lat = (DecodeBase32 str).lat ∧
            (DecodeBase32 t).lng = (DecodeBase32 str).lng))) ∧
    ((∀ c ∈ str.toList, c ∈ Base4.toList) →
      ((DecodeBase4 str).err = none ∧
        |(DecodeBase4 str).lat| < 90 ∧ |(DecodeBase4 str).lng| < 180 ∧
        (EncodeBase4 (DecodeBase4 str).lat (DecodeBase4 str).lng str.length).hash = str ∧
        (EncodeBase4 (DecodeBase4 str).lat (DecodeBase4 str).lng str.length).err = none) ∧
      (∀ t : String, (∀ c ∈ t.toList, c ∈ Base4.toList) → t.length = str.length → t ≠ str →
        ¬ ((DecodeBase4 t).lat = (DecodeBase4 str).lat ∧
            (DecodeBase4 t).lng = (DecodeBase4 str).lng))) := by
  constructor
  · intro h
    refine ⟨reencode32 str h, ?_⟩
    intro t ht hlen hne ⟨e1, e2⟩
    apply hne
    have a := (reencode32 t ht).2.2.2.1
    have b := (reencode32 str h).2.2.2.1
    rw [e1, e2, hlen] at a
    exact a.symm.trans b
  · intro h
    refine ⟨reencode4 str h, ?_⟩
    intro t ht hlen hne ⟨e1, e2⟩
    apply hne
    have a := (reencode4 t ht).2.2.2.1
    have b := (reencode4 str h).2.2.2.1
    rw [e1, e2, hlen] at a
    exact a.symm.trans b


/-! ## Binary64: when rounding changes nothing -/

theorem pow2_eq (u : ℤ) : pow2 u = (2 : ℚ) ^ u := by
  unfold pow2
  split_ifs with h
  · obtain ⟨n, rfl⟩ := Int.eq_ofNat_of_zero_le h
    simp
  · obtain ⟨n, rfl⟩ : ∃ n : ℕ, u = -(n : ℤ) := ⟨(-u).toNat, by omega⟩
    simp

theorem pow2_pos (u : ℤ) : 0 < pow2 u := by
  rw [pow2_eq]; positivity

theorem pow2_add (u v : ℤ) : pow2 (u + v) = pow2 u * pow2 v := by
  simp only [pow2_eq]; exact zpow_add₀ (by norm_num) u v

theorem pow2_lt_iff (u v : ℤ) : pow2 u < pow2 v ↔ u < v := by
  simp only [pow2_eq]; exact zpow_lt_zpow_iff_right₀ (by norm_num)

theorem pow2_le_iff (u v : ℤ) : pow2 u ≤ pow2 v ↔ u ≤ v := by
  simp only [pow2_eq]; exact zpow_le_zpow_iff_right₀ (by norm_num)

theorem log2Fuel_eq : ∀ (fuel n : Nat), n ≤ fuel → log2Fuel fuel n = Nat.log2 n
  | 0, n, h => by
    have : n = 0 := by omega
    subst this
    simp [log2Fuel, Nat.log2]
  | fuel + 1, n, h => by
    rw [log2Fuel, Nat.log2]
    by_cases h2 : n < 2
    · rw [if_pos h2, if_neg (by omega)]
    · rw [if_neg h2, if_pos (by omega), log2Fuel_eq fuel (n / 2) (by omega)]

theorem ilog2_eq (n : Nat) : ilog2 n = Nat.log2 n := log2Fuel_eq n n le_rfl

/-- The exponent found is not too large: `2 ^ expOf a ≤ a`. -/
theorem pow2_expOf_le (a : ℚ) (ha : 0 < a) : pow2 (expOf a) ≤ a := by
  unfold expOf
  simp only [ilog2_eq]
  split_ifs with h
  · have hn : 0 < a.num := Rat.num_pos.mpr ha
    have hp : a.num.natAbs ≠ 0 := by omega
    have h1 : 2 ^ a.num.natAbs.log2 ≤ a.num.natAbs := Nat.log2_self_le hp
    have h2 : a.den < 2 ^ (a.den.log2 + 1) := Nat.lt_log2_self
    have hd : (0 : ℚ) < a.den := by exact_mod_cast a.den_pos
    have ea : a = (a.num.natAbs : ℚ) / (a.den : ℚ) := by
      have : ((a.num.natAbs : ℤ) : ℚ) = (a.num : ℚ) := by
        rw [Int.natAbs_of_nonneg hn.le]
      rw [← Int.cast_natCast, this]
      exact (Rat.num_div_den a).symm
    have e : pow2 ((a.num.natAbs.log2 : ℤ) - (a.den.log2 : ℤ) - 1)
        = (2 : ℚ) ^ a.num.natAbs.log2 / (2 : ℚ) ^ (a.den.log2 + 1) := by
      rw [pow2_eq, show ((a.num.natAbs.log2 : ℤ) - (a.den.log2 : ℤ) - 1)
        = (a.num.natAbs.log2 : ℤ) - ((a.den.log2 + 1 : ℕ) : ℤ) by push_cast; ring,
        zpow_sub₀ (by norm_num), zpow_natCast, zpow_natCast]
    rw [e]
    conv_rhs => rw [ea]
    apply div_le_div₀ (by positivity) (by exact_mod_cast h1) hd (by exact_mod_cast h2.le)
  · exact not_lt.mp h

theorem roundHalfEven_int (n : ℤ) : roundHalfEven (n : ℚ) = n := by
  unfold roundHalfEven
  simp

/-- A multiple of `2 ^ u` of fewer than 53 bits above `u` is a binary64
number: rounding leaves it unchanged. -/
theorem round64_grid (q : ℚ) (m u : ℤ) (hq : q = m * pow2 u) (hu : -1074 ≤ u)
    (hlt : |q| < pow2 (u + 53)) : round64 q = q := by
  by_cases h0 : q = 0
  · rw [h0]; rfl
  · have ha : 0 < |q| := abs_pos.mpr h0
    have he : expOf |q| - 52 ≤ u := by
      have := (pow2_expOf_le |q| ha).trans_lt hlt
      rw [pow2_lt_iff] at this
      omega
    have hu2 : max (expOf |q| - 52) (-1074) ≤ u := max_le he hu
    obtain ⟨d, hd⟩ : ∃ d : ℕ, u = max (expOf |q| - 52) (-1074) + d :=
      ⟨(u - max (expOf |q| - 52) (-1074)).toNat, by omega⟩
    unfold round64
    rw [if_neg h0]
    simp only []
    generalize max (expOf |q| - 52) (-1074) = v at hd hu2 ⊢
    have hv := pow2_pos v
    have e1 : |q| / pow2 v = ((|m| * 2 ^ d : ℤ) : ℚ) := by
      rw [hq, abs_mul, abs_of_pos (pow2_pos u), hd, pow2_add, pow2_eq (d : ℤ), zpow_natCast]
      push_cast
      field_simp
      ring
    rw [e1, roundHalfEven_int]
    have e2 : ((|m| * 2 ^ d : ℤ) : ℚ) * pow2 v = |q| := by
      rw [← e1]; field_simp
    rw [mul_assoc, e2]
    by_cases hneg : q < 0
    · rw [if_pos hneg, abs_of_neg hneg]; ring
    · rw [if_neg hneg, abs_of_nonneg (not_lt.mp hneg)]; ring

theorem roundHalfEven_nonneg (s : ℚ) (hs : 0 ≤ s) : 0 ≤ roundHalfEven s := by
  unfold roundHalfEven
  have hf : 0 ≤ ⌊s⌋ := Int.floor_nonneg.mpr hs
  simp only []
  split_ifs <;> omega

theorem round64_nonneg (q : ℚ) (hq : 0 ≤ q) : 0 ≤ round64 q := by
  by_cases h0 : q = 0
  · rw [h0]; exact le_of_eq rfl
  · unfold round64
    rw [if_neg h0, if_neg (not_lt.mpr hq)]
    simp only [one_mul]
    have h1 : (0 : ℚ) ≤ (roundHalfEven (|q| / pow2 (max (expOf |q| - 52) (-1074))) : ℚ) := by
      exact_mod_cast roundHalfEven_nonneg _ (div_nonneg (abs_nonneg q) (pow2_pos _).le)
    exact mul_nonneg h1 (pow2_pos _).le

theorem pow2_sub_nat (t : ℤ) (a : ℕ) : pow2 (t - a) = pow2 t / 2 ^ a := by
  rw [pow2_eq, pow2_eq, zpow_sub₀ (by norm_num), zpow_natCast]

theorem pow2_pred (u : ℤ) : pow2 (u - 1) = pow2 u / 2 := by
  have := pow2_sub_nat u 1
  simpa using this

theorem pow2_nat (n : ℕ) : pow2 (n : ℤ) = 2 ^ n := by
  rw [pow2_eq, zpow_natCast]

/-- The midpoint of two neighbouring grid values `x`, `y = x + step`, where the
range `45 * 2 ^ t` (360 for `t = 3`, 180 for `t = 2`) is cut into `2 ^ a`
steps, is computed without rounding when the sum has fewer than 53 bits. -/
theorem grid_mid_exact (t : ℤ) (a : ℕ) (j : ℤ) (x y : ℚ)
    (hx : x = -(45 * pow2 t) / 2 + j * (45 * pow2 t / 2 ^ a))
    (hy : y = x + 45 * pow2 t / 2 ^ a)
    (hb : |x + y| < pow2 (t - a + 53)) (hu : -1073 ≤ t - a) :
    F64.mid x y = (x + y) / 2 := by
  have h2 : (2 : ℚ) ^ a ≠ 0 := by positivity
  have hs : x + y = ((45 * (2 * j + 1) - 45 * 2 ^ a : ℤ) : ℚ) * pow2 (t - a) := by
    rw [hy, hx, pow2_sub_nat]; push_cast; field_simp; ring
  have r1 : round64 (x + y) = x + y := round64_grid _ _ _ hs (by omega) hb
  have hs2 : (x + y) / 2 = ((45 * (2 * j + 1) - 45 * 2 ^ a : ℤ) : ℚ) * pow2 (t - a - 1) := by
    rw [hs, pow2_pred]; ring
  have hb2 : |(x + y) / 2| < pow2 (t - a - 1 + 53) := by
    rw [abs_div, abs_of_pos (show (0 : ℚ) < 2 by norm_num),
      show t - a - 1 + 53 = (t - a + 53) - 1 by ring, pow2_pred]
    linarith
  have r2 : round64 ((x + y) / 2) = (x + y) / 2 := round64_grid _ _ _ hs2 (by omega) hb2
  unfold F64.mid F64.div F64.add
  rw [r1, r2]

theorem pow2_three : pow2 3 = 8 := by rw [pow2_eq]; norm_num

theorem pow2_two : pow2 2 = 4 := by rw [pow2_eq]; norm_num

/-- Longitude: the midpoint of a range of the grid with at most 47 bits is
exact. -/
theorem lng_mid_exact (a : ℕ) (ha : a ≤ 47) (j : ℤ) (x y : ℚ)
    (hx : x = -180 + j * (360 / 2 ^ a)) (hy : y = x + 360 / 2 ^ a)
    (h1 : -180 ≤ x) (h2 : y ≤ 180) : F64.mid x y = (x + y) / 2 := by
  have hpos : (0 : ℚ) < 360 / 2 ^ a := by positivity
  apply grid_mid_exact 3 a j x y
  · rw [hx, pow2_three]; ring
  · rw [hy, pow2_three]; norm_num
  · have : |x + y| ≤ 360 := by rw [abs_le]; constructor <;> linarith
    have h9 : pow2 9 ≤ pow2 (3 - a + 53) := (pow2_le_iff _ _).mpr (by omega)
    have : pow2 9 = 512 := by rw [pow2_eq]; norm_num
    linarith
  · omega

/-- Latitude: the midpoint of a range of the grid with at most 47 bits is
exact. -/
theorem lat_mid_exact (a : ℕ) (ha : a ≤ 47) (j : ℤ) (x y : ℚ)
    (hx : x = -90 + j * (180 / 2 ^ a)) (hy : y = x + 180 / 2 ^ a)
    (h1 : -90 ≤ x) (h2 : y ≤ 90) : F64.mid x y = (x + y) / 2 := by
  have hpos : (0 : ℚ) < 180 / 2 ^ a := by positivity
  apply grid_mid_exact 2 a j x y
  · rw [hx, pow2_two]; ring
  · rw [hy, pow2_two]; norm_num
  · have : |x + y| ≤ 180 := by rw [abs_le]; constructor <;> linarith
    have h9 : pow2 8 ≤ pow2 (2 - a + 53) := (pow2_le_iff _ _).mpr (by omega)
    have : pow2 8 = 256 := by rw [pow2_eq]; norm_num
    linarith
  · omega

theorem F64_bisect_eq (w : List Nat) (lat lng : ℚ) (s : EncState)
    (h1 : s.isEven = true → F64.mid s.minLng s.maxLng = (s.minLng + s.maxLng) / 2)
    (h2 : s.isEven = false → F64.mid s.minLat s.maxLat = (s.minLat + s.maxLat) / 2) :
    F64.bisect w lat lng s = bisect w lat lng s := by
  unfold F64.bisect bisect
  cases h : s.isEven
  · simp only [Bool.false_eq_true, if_false, h2 h]
  · simp only [if_true, h1 h]

/-- The box of any iteration lies in the full range. -/
theorem iterG_bounds (A : Codec) (lat lng : ℚ) (k : Nat) :
    -180 ≤ (iterG A lat lng k).minLng ∧ (iterG A lat lng k).maxLng ≤ 180 ∧
    -90 ≤ (iterG A lat lng k).minLat ∧ (iterG A lat lng k).maxLat ≤ 90 := by
  obtain ⟨a1, a2, a3, a4⟩ := iterG_nested A lat lng 0 k
  rw [Nat.zero_add] at a1 a2 a3 a4
  have i1 : (iterG A lat lng 0).minLng = -180 := rfl
  have i2 : (iterG A lat lng 0).maxLng = 180 := rfl
  have i3 : (iterG A lat lng 0).minLat = -90 := rfl
  have i4 : (iterG A lat lng 0).maxLat = 90 := rfl
  rw [i1] at a1; rw [i2] at a2; rw [i3] at a3; rw [i4] at a4
  exact ⟨a1, a2, a3, a4⟩

/-- Up to the 96th iteration the `float64` step computes what the exact step
computes: no axis has more than 47 bits when it is bisected. -/
theorem F64_encodeStep_iterG (A : Codec) (lat lng : ℚ) (k : Nat) (hk : k ≤ 95) :
    F64.encodeStep A lat lng (iterG A lat lng k) = iterG A lat lng (k + 1) := by
  rw [iterG_succ]
  obtain ⟨⟨j, hj⟩, ⟨m, hm⟩⟩ := iterG_aligned A lat lng k
  obtain ⟨hw, hh⟩ := iterG_size A lat lng k
  obtain ⟨b1, b2, b3, b4⟩ := iterG_bounds A lat lng k
  have he := (iterG_counters A lat lng k).2.2.2
  have hb : F64.bisect A.bits lat lng (iterG A lat lng k)
      = bisect A.bits lat lng (iterG A lat lng k) := by
    apply F64_bisect_eq
    · intro hE
      rw [he] at hE
      have hk2 : k % 2 = 0 := by simpa using hE
      exact lng_mid_exact ((k + 1) / 2) (by omega) j _ _ hj (by linarith) b1 b2
    · intro hE
      rw [he] at hE
      have hk2 : ¬ k % 2 = 0 := by simpa using hE
      exact lat_mid_exact (k / 2) (by omega) m _ _ hm (by linarith) b3 b4
  unfold F64.encodeStep stepG
  rw [hb]

theorem F64_encodeLoop_eq (A : Codec) (lat lng : ℚ) (P : Int) (n k : Nat) (h : k + n ≤ 96) :
    F64.encodeLoop A lat lng P n (iterG A lat lng k) = loopG A lat lng P n (iterG A lat lng k) := by
  induction n generalizing k with
  | zero => rfl
  | succ n ih =>
    unfold F64.encodeLoop loopG
    split_ifs
    · rw [F64_encodeStep_iterG A lat lng k (by omega), ← iterG_succ]
      exact ih (k + 1) (by omega)
    · rfl

/-- With at most 19 symbols `EncodeBase32` computes in `float64` exactly what
it computes in exact arithmetic. -/
theorem F64_EncodeBase32_eq (lat lng : ℚ) (P : Int) (hP : P ≤ 19) :
    F64.EncodeBase32 lat lng P = EncodeBase32 lat lng P := by
  unfold F64.EncodeBase32 F64.encode EncodeBase32
  rw [encodeLoop32_eq]
  have := F64_encodeLoop_eq codec32 lat lng P (5 * P.toNat) 0 (by omega)
  exact (by rw [show iterG codec32 lat lng 0 = encInit from rfl] at this; rw [← this]; rfl)

/-- With at most 48 symbols `EncodeBase4` computes in `float64` exactly what
it computes in exact arithmetic. -/
theorem F64_EncodeBase4_eq (lat lng : ℚ) (P : Int) (hP : P ≤ 48) :
    F64.EncodeBase4 lat lng P = EncodeBase4 lat lng P := by
  unfold F64.EncodeBase4 F64.encode EncodeBase4
  rw [encodeLoop4_eq]
  have := F64_encodeLoop_eq codec4 lat lng P (2 * P.toNat) 0 (by omega)
  exact (by rw [show iterG codec4 lat lng 0 = encInit from rfl] at this; rw [← this]; rfl)

theorem decInit_grid : DecGrid decInit 0 :=
  { lng := ⟨0, by simp [decInit, MinLongitude]⟩
    lat := ⟨0, by simp [decInit, MinLatitude]⟩
    maxLng := by simp [decInit, MinLongitude, MaxLongitude]; norm_num
    maxLat := by simp [decInit, MinLatitude, MaxLatitude]; norm_num
    cLng := by simp [decInit, MinLongitude, MaxLongitude]; norm_num
    cLat := by simp [decInit, MinLatitude, MaxLatitude]; norm_num
    even := rfl
    loLng := by simp [decInit, MinLongitude]
    hiLng := by simp [decInit, MaxLongitude]
    loLat := by simp [decInit, MinLatitude]
    hiLat := by simp [decInit, MaxLatitude] }

/-- One exact decoding step moves to the next finer grid. -/
theorem decodeStep_grid (d : DecState) (n v : Nat) (h : DecGrid d n) :
    DecGrid (decodeStep d v) (n + 1) := by
  obtain ⟨⟨j, hj⟩, ⟨m, hm⟩, hx, hy, cx, cy, he, l1, l2, l3, l4⟩ := h
  have hw : (0 : ℚ) < 360 / 2 ^ ((n + 1) / 2) := by positivity
  have hh : (0 : ℚ) < 180 / 2 ^ (n / 2) := by positivity
  rcases Nat.mod_two_eq_zero_or_one n with hn | hn
  · have e1 : (n + 1 + 1) / 2 = (n + 1) / 2 + 1 := by omega
    have e2 : (n + 1) / 2 = n / 2 := by omega
    have e3 : (n + 1) % 2 ≠ 0 := by omega
    have hE : d.isEven = true := by rw [he]; simp [hn]
    simp only [decodeStep, hE, if_true]
    by_cases hv : v = 0
    · simp only [hv, if_true]
      refine { lng := ⟨2 * j, ?_⟩, lat := ⟨m, ?_⟩, maxLng := ?_, maxLat := ?_, cLng := ?_,
               cLat := ?_, even := ?_, loLng := ?_, hiLng := ?_, loLat := ?_, hiLat := ?_ }
      · simp only [e1, pow_succ]; rw [hj]; push_cast; field_simp; ring
      · simp only [e2]; exact hm
      · simp only [e1, pow_succ]; rw [cx]; field_simp
      · simp only [e2]; exact hy
      · simp only [e1, pow_succ]; rw [cx]; field_simp; ring
      · simp only [e2]; exact cy
      · simp [e3]
      · exact l1
      · simp only []; linarith
      · exact l3
      · exact l4
    · simp only [hv, if_false]
      refine { lng := ⟨2 * j + 1, ?_⟩, lat := ⟨m, ?_⟩, maxLng := ?_, maxLat := ?_, cLng := ?_,
               cLat := ?_, even := ?_, loLng := ?_, hiLng := ?_, loLat := ?_, hiLat := ?_ }
      · simp only [e1, pow_succ]; rw [cx, hj]; push_cast; field_simp; ring
      · simp only [e2]; exact hm
      · simp only [e1, pow_succ]; rw [hx, cx]; field_simp; ring
      · simp only [e2]; exact hy
      · simp only [e1, pow_succ]; rw [hx, cx]; field_simp; ring
      · simp only [e2]; exact cy
      · simp [e3]
      · simp only []; linarith
      · exact l2
      · exact l3
      · exact l4
  · have e1 : (n + 1 + 1) / 2 = (n + 1) / 2 := by omega
    have e2 : (n + 1) / 2 = n / 2 + 1 := by omega
    have e3 : (n + 1) % 2 = 0 := by omega
    have hE : d.isEven = false := by rw [he]; simp [hn]
    simp only [decodeStep, hE, Bool.false_eq_true, if_false]
    by_cases hv : v = 0
    · simp only [hv, if_true]
      refine { lng := ⟨j, ?_⟩, lat := ⟨2 * m, ?_⟩, maxLng := ?_, maxLat := ?_, cLng := ?_,
               cLat := ?_, even := ?_, loLng := ?_, hiLng := ?_, loLat := ?_, hiLat := ?_ }
      · simp only [e1]; exact hj
      · simp only [e2, pow_succ]; rw [hm]; push_cast; field_simp; ring
      · simp only [e1]; exact hx
      · simp only [e2, pow_succ]; rw [cy]; field_simp
      · simp only [e1]; exact cx
      · simp only [e2, pow_succ]; rw [cy]; field_simp; ring
      · simp [e3]
      · exact l1
      · exact l2
      · exact l3
      · simp only []; linarith
    · simp only [hv, if_false]
      refine { lng := ⟨j, ?_⟩, lat := ⟨2 * m + 1, ?_⟩, maxLng := ?_, maxLat := ?_, cLng := ?_,
               cLat := ?_, even := ?_, loLng := ?_, hiLng := ?_, loLat := ?_, hiLat := ?_ }
      · simp only [e1]; exact hj
      · simp only [e2, pow_succ]; rw [cy, hm]; push_cast; field_simp; ring
      · simp only [e1]; exact hx
      · simp only [e2, pow_succ]; rw [hy, cy]; field_simp; ring
      · simp only [e1]; exact cx
      · simp only [e2, pow_succ]; rw [hy, cy]; field_simp; ring
      · simp [e3]
      · exact l1
      · exact l2
      · simp only []; linarith
      · exact l4

theorem F64_decodeStep_eq (d : DecState) (v : Nat)
    (h1 : d.isEven = true → F64.mid d.minLng d.lng = (d.minLng + d.lng) / 2 ∧
      F64.mid d.lng d.maxLng = (d.lng + d.maxLng) / 2)
    (h2 : d.isEven = false → F64.mid d.minLat d.lat = (d.minLat + d.lat) / 2 ∧
      F64.mid d.lat d.maxLat = (d.lat + d.maxLat) / 2) :
    F64.decodeStep d v = decodeStep d v := by
  unfold F64.decodeStep decodeStep
  cases h : d.isEven
  · simp only [Bool.false_eq_true, if_false, (h2 h).1, (h2 h).2]
  · simp only [if_true, (h1 h).1, (h1 h).2]

/-- Up to the 94th bit the `float64` decoding step computes what the exact
step computes. -/
theorem F64_decodeStep_grid (d : DecState) (n v : Nat) (h : DecGrid d n) (hn : n ≤ 93) :
    F64.decodeStep d v = decodeStep d v := by
  obtain ⟨⟨j, hj⟩, ⟨m, hm⟩, hx, hy, cx, cy, he, l1, l2, l3, l4⟩ := h
  have hw : (0 : ℚ) < 360 / 2 ^ ((n + 1) / 2) := by positivity
  have hh : (0 : ℚ) < 180 / 2 ^ (n / 2) := by positivity
  apply F64_decodeStep_eq
  · intro hE
    rw [he] at hE
    have hk2 : n % 2 = 0 := by simpa using hE
    constructor
    · apply lng_mid_exact ((n + 1) / 2 + 1) (by omega) (2 * j)
      · rw [hj, pow_succ]; push_cast; field_simp; ring
      · rw [cx, pow_succ]; field_simp
      · exact l1
      · linarith
    · apply lng_mid_exact ((n + 1) / 2 + 1) (by omega) (2 * j + 1)
      · rw [cx, hj, pow_succ]; push_cast; field_simp; ring
      · rw [hx, cx, pow_succ]; field_simp; ring
      · linarith
      · exact l2
  · intro hE
    rw [he] at hE
    have hk2 : ¬ n % 2 = 0 := by simpa using hE
    constructor
    · apply lat_mid_exact (n / 2 + 1) (by omega) (2 * m)
      · rw [hm, pow_succ]; push_cast; field_simp; ring
      · rw [cy, pow_succ]; field_simp
      · exact l3
      · linarith
    · apply lat_mid_exact (n / 2 + 1) (by omega) (2 * m + 1)
      · rw [cy, hm, pow_succ]; push_cast; field_simp; ring
      · rw [hy, cy, pow_succ]; field_simp; ring
      · linarith
      · exact l4

theorem F64_foldl_decodeStep (l : List Nat) (d : DecState) (n : Nat) (h : DecGrid d n)
    (hn : n + l.length ≤ 94) :
    l.foldl F64.decodeStep d = l.foldl decodeStep d := by
  induction l generalizing d n with
  | nil => rfl
  | cons v l ih =>
    simp only [List.length_cons] at hn
    simp only [List.foldl_cons]
    rw [F64_decodeStep_grid d n v h (by omega)]
    exact ih (decodeStep d v) (n + 1) (decodeStep_grid d n v h) (by omega)

/-- Strings of at most 18 characters: `DecodeBase32` computes in `float64`
exactly what it computes in exact arithmetic. -/
theorem F64_DecodeBase32_eq (str : String) (h : str.length ≤ 18) :
    F64.DecodeBase32 str = DecodeBase32 str := by
  unfold F64.DecodeBase32 F64.decode DecodeBase32
  cases hx : expand unBase32 str.toList [] with
  | none => rfl
  | some bs =>
    have hl := (expand_bits codec32 codec32_table str.toList bs hx).1
    have hl2 : bs.length = 5 * str.length := hl
    simp only []
    rw [F64_foldl_decodeStep bs decInit 0 decInit_grid (by omega)]

/-- Strings of at most 47 characters: `DecodeBase4` computes in `float64`
exactly what it computes in exact arithmetic. -/
theorem F64_DecodeBase4_eq (str : String) (h : str.length ≤ 47) :
    F64.DecodeBase4 str = DecodeBase4 str := by
  unfold F64.DecodeBase4 F64.decode DecodeBase4
  cases hx : expand unBase4 str.toList [] with
  | none => rfl
  | some bs =>
    have hl := (expand_bits codec4 codec4_table str.toList bs hx).1
    have hl2 : bs.length = 2 * str.length := hl
    simp only []
    rw [F64_foldl_decodeStep bs decInit 0 decInit_grid (by omega)]

/-- The `float64` operations that the neighbour functions apply to a box of
at most 90 iterations (at most 45 bits an axis) are all exact. -/
theorem box_float_exact (A : Codec) (lat lng : ℚ) (k : Nat) (hk : k ≤ 90) :
    F64.mid (boxOf (iterG A lat lng k)).MinLat (boxOf (iterG A lat lng k)).MaxLat
      = ((boxOf (iterG A lat lng k)).MinLat + (boxOf (iterG A lat lng k)).MaxLat) / 2 ∧
    F64.mid (boxOf (iterG A lat lng k)).MinLng (boxOf (iterG A lat lng k)).MaxLng
      = ((boxOf (iterG A lat lng k)).MinLng + (boxOf (iterG A lat lng k)).MaxLng) / 2 ∧
    F64.Height (boxOf (iterG A lat lng k)) = (boxOf (iterG A lat lng k)).Height ∧
    F64.Width (boxOf (iterG A lat lng k)) = (boxOf (iterG A lat lng k)).Width ∧
    F64.add (((boxOf (iterG A lat lng k)).MinLat + (boxOf (iterG A lat lng k)).MaxLat) / 2)
        (boxOf (iterG A lat lng k)).Height
      = ((boxOf (iterG A lat lng k)).MinLat + (boxOf (iterG A lat lng k)).MaxLat) / 2
        + (boxOf (iterG A lat lng k)).Height ∧
    F64.sub (((boxOf (iterG A lat lng k)).MinLat + (boxOf (iterG A lat lng k)).MaxLat) / 2)
        (boxOf (iterG A lat lng k)).Height
      = ((boxOf (iterG A lat lng k)).MinLat + (boxOf (iterG A lat lng k)).MaxLat) / 2
        - (boxOf (iterG A lat lng k)).Height ∧
    F64.add (((boxOf (iterG A lat lng k)).MinLng + (boxOf (iterG A lat lng k)).MaxLng) / 2)
        (boxOf (iterG A lat lng k)).Width
      = ((boxOf (iterG A lat lng k)).MinLng + (boxOf (iterG A lat lng k)).MaxLng) / 2
        + (boxOf (iterG A lat lng k)).Width ∧
    F64.sub (((boxOf (iterG A lat lng k)).MinLng + (boxOf (iterG A lat lng k)).MaxLng) / 2)
        (boxOf (iterG A lat lng k)).Width
      = ((boxOf (iterG A lat lng k)).MinLng + (boxOf (iterG A lat lng k)).MaxLng) / 2
        - (boxOf (iterG A lat lng k)).Width := by
  obtain ⟨⟨j, hj⟩, ⟨m, hm⟩⟩ := iterG_aligned A lat lng k
  obtain ⟨hw, hh⟩ := iterG_size A lat lng k
  obtain ⟨b1, b2, b3, b4⟩ := iterG_bounds A lat lng k
  simp only [boxOf, Box.Height, Box.Width, F64.Height, F64.Width, F64.add, F64.sub]
  have hwpos : (0 : ℚ) < 360 / 2 ^ ((k + 1) / 2) := by positivity
  have hhpos : (0 : ℚ) < 180 / 2 ^ (k / 2) := by positivity
  have hw' : (360 : ℚ) / 2 ^ ((k + 1) / 2) ≤ 360 :=
    div_le_self (by norm_num) (one_le_pow₀ (by norm_num))
  have hh' : (180 : ℚ) / 2 ^ (k / 2) ≤ 180 :=
    div_le_self (by norm_num) (one_le_pow₀ (by norm_num))
  have p3 : pow2 (3 - ((k + 1) / 2 : ℕ)) = 8 / 2 ^ ((k + 1) / 2) := by
    rw [pow2_sub_nat, pow2_three]
  have p2 : pow2 (2 - ((k + 1) / 2 : ℕ)) = 4 / 2 ^ ((k + 1) / 2) := by
    rw [pow2_sub_nat, pow2_two]
  have q2 : pow2 (2 - (k / 2 : ℕ)) = 4 / 2 ^ (k / 2) := by
    rw [pow2_sub_nat, pow2_two]
  have q1 : pow2 (1 - (k / 2 : ℕ)) = 2 / 2 ^ (k / 2) := by
    rw [pow2_sub_nat, pow2_eq]; norm_num
  have n53 : pow2 53 = 9007199254740992 := by rw [pow2_eq]; norm_num
  have n9 : pow2 9 = 512 := by rw [pow2_eq]; norm_num
  have n10 : pow2 10 = 1024 := by rw [pow2_eq]; norm_num
  have t1 : (2 : ℚ) ^ ((k + 1) / 2) ≠ 0 := by positivity
  have t2 : (2 : ℚ) ^ (k / 2) ≠ 0 := by positivity
  have eH : round64 ((iterG A lat lng k).maxLat - (iterG A lat lng k).minLat)
      = (iterG A lat lng k).maxLat - (iterG A lat lng k).minLat := by
    apply round64_grid _ 45 (2 - (k / 2 : ℕ))
    · rw [hh, q2]; push_cast; field_simp; ring
    · omega
    · rw [hh, abs_of_pos hhpos, pow2_add, q2, n53]
      rw [div_mul_eq_mul_div, div_lt_div_iff_of_pos_right (by positivity)]
      norm_num
  have eW : round64 ((iterG A lat lng k).maxLng - (iterG A lat lng k).minLng)
      = (iterG A lat lng k).maxLng - (iterG A lat lng k).minLng := by
    apply round64_grid _ 45 (3 - ((k + 1) / 2 : ℕ))
    · rw [hw, p3]; push_cast; field_simp; ring
    · omega
    · rw [hw, abs_of_pos hwpos, pow2_add, p3, n53]
      rw [div_mul_eq_mul_div, div_lt_div_iff_of_pos_right (by positivity)]
      norm_num
  have shiftLat : ∀ d : ℤ, |(d : ℚ)| ≤ 1 →
      round64 (((iterG A lat lng k).minLat + (iterG A lat lng k).maxLat) / 2
        + d * ((iterG A lat lng k).maxLat - (iterG A lat lng k).minLat))
      = ((iterG A lat lng k).minLat + (iterG A lat lng k).maxLat) / 2
        + d * ((iterG A lat lng k).maxLat - (iterG A lat lng k).minLat) := by
    intro d hd
    rw [abs_le] at hd
    apply round64_grid _ (45 * (2 * m + 1) + 90 * d - 45 * 2 ^ (k / 2)) (1 - (k / 2 : ℕ))
    · rw [hh, show (iterG A lat lng k).maxLat
        = (iterG A lat lng k).minLat + 180 / 2 ^ (k / 2) by linarith, hm, q1]
      push_cast; field_simp; ring
    · omega
    · have h9 : pow2 9 ≤ pow2 (1 - (k / 2 : ℕ) + 53) := (pow2_le_iff _ _).mpr (by omega)
      have dw1 : (d : ℚ) * (180 / 2 ^ (k / 2)) ≤ 180 / 2 ^ (k / 2) :=
        mul_le_of_le_one_left hhpos.le hd.2
      have dw2 : -(180 / 2 ^ (k / 2)) ≤ (d : ℚ) * (180 / 2 ^ (k / 2)) := by
        have := mul_le_mul_of_nonneg_right hd.1 hhpos.le
        linarith
      have : |((iterG A lat lng k).minLat + (iterG A lat lng k).maxLat) / 2
          + d * ((iterG A lat lng k).maxLat - (iterG A lat lng k).minLat)| ≤ 270 := by
        rw [hh, abs_le]
        constructor <;> linarith
      rw [n9] at h9
      exact lt_of_le_of_lt this (lt_of_lt_of_le (by norm_num) h9)
  have shiftLng : ∀ d : ℤ, |(d : ℚ)| ≤ 1 →
      round64 (((iterG A lat lng k).minLng + (iterG A lat lng k).maxLng) / 2
        + d * ((iterG A lat lng k).maxLng - (iterG A lat lng k).minLng))
      = ((iterG A lat lng k).minLng + (iterG A lat lng k).maxLng) / 2
        + d * ((iterG A lat lng k).maxLng - (iterG A lat lng k).minLng) := by
    intro d hd
    rw [abs_le] at hd
    apply round64_grid _ (45 * (2 * j + 1) + 90 * d - 45 * 2 ^ ((k + 1) / 2))
      (2 - ((k + 1) / 2 : ℕ))
    · rw [hw, show (iterG A lat lng k).maxLng
        = (iterG A lat lng k).minLng + 360 / 2 ^ ((k + 1) / 2) by linarith, hj, p2]
      push_cast; field_simp; ring
    · omega
    · have h10 : pow2 10 ≤ pow2 (2 - ((k + 1) / 2 : ℕ) + 53) := (pow2_le_iff _ _).mpr (by omega)
      have dw1 : (d : ℚ) * (360 / 2 ^ ((k + 1) / 2)) ≤ 360 / 2 ^ ((k + 1) / 2) :=
        mul_le_of_le_one_left hwpos.le hd.2
      have dw2 : -(360 / 2 ^ ((k + 1) / 2)) ≤ (d : ℚ) * (360 / 2 ^ ((k + 1) / 2)) := by
        have := mul_le_mul_of_nonneg_right hd.1 hwpos.le
        linarith
      have : |((iterG A lat lng k).minLng + (iterG A lat lng k).maxLng) / 2
          + d * ((iterG A lat lng k).maxLng - (iterG A lat lng k).minLng)| ≤ 540 := by
        rw [hw, abs_le]
        constructor <;> linarith
      rw [n10] at h10
      exact lt_of_le_of_lt this (lt_of_lt_of_le (by norm_num) h10)
  refine ⟨?_, ?_, eH, eW, ?_, ?_, ?_, ?_⟩
  · exact lat_mid_exact (k / 2) (by omega) m _ _ hm (by linarith) b3 b4
  · exact lng_mid_exact ((k + 1) / 2) (by omega) j _ _ hj (by linarith) b1 b2
  · have := shiftLat 1 (by norm_num)
    simpa using this
  · have := shiftLat (-1) (by norm_num)
    simpa [sub_eq_add_neg] using this
  · have := shiftLng 1 (by norm_num)
    simpa using this
  · have := shiftLng (-1) (by norm_num)
    simpa [sub_eq_add_neg] using this

theorem F64_neighborsWith_eq (A : Codec) (encF enc : ℚ → ℚ → Int → EncodeResult)
    (lat lng : ℚ) (P : Int) (k : Nat) (hk : k ≤ 90)
    (heq : ∀ la ln : ℚ, encF la ln P = enc la ln P)
    (hbox : (enc lat lng P).box = none ∨
      (enc lat lng P).box = some (boxOf (iterG A lat lng k))) :
    F64.neighborsWith encF lat lng P = neighborsWith enc lat lng P := by
  unfold F64.neighborsWith neighborsWith
  simp only [heq]
  rcases hbox with h | h
  · simp only [h]
  · obtain ⟨e1, e2, e3, e4, e5, e6, e7, e8⟩ := box_float_exact A lat lng k hk
    simp only [h, e1, e2, e3, e4, e5, e6, e7, e8]

theorem EncodeBase32_box_cases (lat lng : ℚ) (P : Nat) :
    (EncodeBase32 lat lng P).box = none ∨
    (EncodeBase32 lat lng P).box = some (boxOf (iterG codec32 lat lng (5 * P))) := by
  by_cases h : |lat| ≤ 90 ∧ |lng| ≤ 180
  · exact Or.inr (EncodeBase32_box lat lng P h.1 h.2)
  · left
    obtain ⟨-, h1, h2⟩ := EncodeBase32_err lat lng P
    by_cases c : |lat| > 90
    · rw [h1 c]
    · rw [h2 c (by by_contra c2; exact h ⟨not_lt.mp c, not_lt.mp c2⟩)]

theorem EncodeBase4_box_cases (lat lng : ℚ) (P : Nat) :
    (EncodeBase4 lat lng P).box = none ∨
    (EncodeBase4 lat lng P).box = some (boxOf (iterG codec4 lat lng (2 * P))) := by
  by_cases h : |lat| ≤ 90 ∧ |lng| ≤ 180
  · exact Or.inr (EncodeBase4_box lat lng P h.1 h.2)
  · left
    obtain ⟨-, h1, h2⟩ := EncodeBase4_err lat lng P
    by_cases c : |lat| > 90
    · rw [h1 c]
    · rw [h2 c (by by_contra c2; exact h ⟨not_lt.mp c, not_lt.mp c2⟩)]

/-- With at most 18 symbols `GetNeighborsBase32` computes in `float64` exactly
what it computes in exact arithmetic. -/
theorem F64_GetNeighborsBase32_eq (lat lng : ℚ) (P : Nat) (hP : P ≤ 18) :
    F64.GetNeighborsBase32 lat lng P = GetNeighborsBase32 lat lng P :=
  F64_neighborsWith_eq codec32 F64.EncodeBase32 EncodeBase32 lat lng P (5 * P) (by omega)
    (fun la ln => F64_EncodeBase32_eq la ln P (by omega)) (EncodeBase32_box_cases lat lng P)

/-- With at most 45 symbols `GetNeighborsBase4` computes in `float64` exactly
what it computes in exact arithmetic. -/
theorem F64_GetNeighborsBase4_eq (lat lng : ℚ) (P : Nat) (hP : P ≤ 45) :
    F64.GetNeighborsBase4 lat lng P = GetNeighborsBase4 lat lng P :=
  F64_neighborsWith_eq codec4 F64.EncodeBase4 EncodeBase4 lat lng P (2 * P) (by omega)
    (fun la ln => F64_EncodeBase4_eq la ln P (by omega)) (EncodeBase4_box_cases lat lng P)

/-- Width and height of a box of at most 96 iterations are exact in `float64`. -/
theorem F64_size_exact (A : Codec) (lat lng : ℚ) (k : Nat) (hk : k ≤ 96) :
    F64.Width (boxOf (iterG A lat lng k)) = (boxOf (iterG A lat lng k)).Width ∧
    F64.Height (boxOf (iterG A lat lng k)) = (boxOf (iterG A lat lng k)).Height := by
  obtain ⟨hw, hh⟩ := iterG_size A lat lng k
  simp only [boxOf, Box.Height, Box.Width, F64.Height, F64.Width, F64.sub]
  have hwpos : (0 : ℚ) < 360 / 2 ^ ((k + 1) / 2) := by positivity
  have hhpos : (0 : ℚ) < 180 / 2 ^ (k / 2) := by positivity
  have p3 : pow2 (3 - ((k + 1) / 2 : ℕ)) = 8 / 2 ^ ((k + 1) / 2) := by
    rw [pow2_sub_nat, pow2_three]
  have q2 : pow2 (2 - (k / 2 : ℕ)) = 4 / 2 ^ (k / 2) := by
    rw [pow2_sub_nat, pow2_two]
  have n53 : pow2 53 = 9007199254740992 := by rw [pow2_eq]; norm_num
  have t1 : (2 : ℚ) ^ ((k + 1) / 2) ≠ 0 := by positivity
  have t2 : (2 : ℚ) ^ (k / 2) ≠ 0 := by positivity
  constructor
  · apply round64_grid _ 45 (3 - ((k + 1) / 2 : ℕ))
    · rw [hw, p3]; push_cast; field_simp; ring
    · omega
    · rw [hw, abs_of_pos hwpos, pow2_add, p3, n53]
      rw [div_mul_eq_mul_div, div_lt_div_iff_of_pos_right (by positivity)]
      norm_num
  · apply round64_grid _ 45 (2 - (k / 2 : ℕ))
    · rw [hh, q2]; push_cast; field_simp; ring
    · omega
    · rw [hh, abs_of_pos hhpos, pow2_add, q2, n53]
      rw [div_mul_eq_mul_div, div_lt_div_iff_of_pos_right (by positivity)]
      norm_num

theorem F64_EncodeBase32_nat (lat lng : ℚ) (P : Nat) (hP : P ≤ 19) :
    F64.EncodeBase32 lat lng P = EncodeBase32 lat lng P :=
  F64_EncodeBase32_eq lat lng P (by exact_mod_cast hP)

theorem F64_EncodeBase4_nat (lat lng : ℚ) (P : Nat) (hP : P ≤ 48) :
    F64.EncodeBase4 lat lng P = EncodeBase4 lat lng P :=
  F64_EncodeBase4_eq lat lng P (by exact_mod_cast hP)

theorem F64_size_of_box32 (la ln : ℚ) (P : Nat) (b : Box) (hP : P ≤ 19)
    (h : (EncodeBase32 la ln P).box = some b) :
    F64.Width b = b.Width ∧ F64.Height b = b.Height := by
  rcases EncodeBase32_box_cases la ln P with c | c
  · rw [c] at h; cases h
  · rw [c] at h
    cases h
    exact F64_size_exact codec32 la ln (5 * P) (by omega)

theorem F64_size_of_box4 (la ln : ℚ) (P : Nat) (b : Box) (hP : P ≤ 48)
    (h : (EncodeBase4 la ln P).box = some b) :
    F64.Width b = b.Width ∧ F64.Height b = b.Height := by
  rcases EncodeBase4_box_cases la ln P with c | c
  · rw [c] at h; cases h
  · rw [c] at h
    cases h
    exact F64_size_exact codec4 la ln (2 * P) (by omega)

/-! ## C10: bit allocation and cell size -/

/-- C10 fails as stated: in `float64` the box that `EncodeBase32` returns for
the `float64` point nearest to (40.088046, 116.604412) with precision 20 is
`11 / 2^45` wide, not `360 / 2^50`, and so is the box of `EncodeBase4` with
precision 50. -/
theorem C10_cell_size_fails_at_20 :
    (|round64 40.088046| ≤ 90 ∧ |round64 116.604412| ≤ 180) ∧
    (F64.EncodeBase32 (round64 40.088046) (round64 116.604412) 20).box.map F64.Width
      = some (11 / 2 ^ 45) ∧
    (F64.EncodeBase4 (round64 40.088046) (round64 116.604412) 50).box.map F64.Width
      = some (11 / 2 ^ 45) ∧
    (F64.EncodeBase4 (round64 40.088046) (round64 116.604412) 50).box.map F64.Height
      = some (23 / 2 ^ 47) ∧
    (11 / 2 ^ 45 : ℚ) ≠ 360 / 2 ^ 50 ∧ (23 / 2 ^ 47 : ℚ) ≠ 180 / 2 ^ 50 := by
  decide!

/-- C10 amended. Bit allocation and cell size, in `float64`: for valid
`(lat, lng)` the box returned by `EncodeBase4` with precision `P ≤ 48` has
width exactly `360 / 2^P` and height exactly `180 / 2^P`, and the box returned
by `EncodeBase32` with precision `P ≤ 19` has width exactly `360 / 2^⌈5P/2⌉`
and height exactly `180 / 2^⌊5P/2⌋`. -/
theorem C10_cell_size_binary64 (lat lng : ℚ) (P : Nat) (hlat : |lat| ≤ 90)
    (hlng : |lng| ≤ 180) :
    (P ≤ 48 → ∃ b, (F64.EncodeBase4 lat lng P).box = some b ∧
      F64.Width b = 360 / 2 ^ P ∧ F64.Height b = 180 / 2 ^ P) ∧
    (P ≤ 19 → ∃ b, (F64.EncodeBase32 lat lng P).box = some b ∧
      F64.Width b = 360 / 2 ^ ⌈(5 * P : ℚ) / 2⌉₊ ∧
      F64.Height b = 180 / 2 ^ ⌊(5 * P : ℚ) / 2⌋₊) := by
  obtain ⟨⟨b4, e4, w4, h4⟩, ⟨b32, e32, w32, h32⟩⟩ := exact_cell_size lat lng P hlat hlng
  constructor
  · intro hP
    obtain ⟨s1, s2⟩ := F64_size_of_box4 lat lng P b4 hP e4
    exact ⟨b4, by rw [F64_EncodeBase4_nat lat lng P hP]; exact e4, by rw [s1, w4],
      by rw [s2, h4]⟩
  · intro hP
    obtain ⟨s1, s2⟩ := F64_size_of_box32 lat lng P b32 hP e32
    exact ⟨b32, by rw [F64_EncodeBase32_nat lat lng P hP]; exact e32, by rw [s1, w32],
      by rw [s2, h32]⟩

theorem C10_cell_size_binary64_witness :
    (|(40.5 : ℚ)| ≤ 90 ∧ |(116.625 : ℚ)| ≤ 180 ∧ 19 ≤ 19) ∧
    ∃ b, (F64.EncodeBase32 40.5 116.625 (19 : Nat)).box = some b ∧
      F64.Width b = 360 / 2 ^ ⌈(5 * (19 : Nat) : ℚ) / 2⌉₊ ∧
      F64.Height b = 180 / 2 ^ ⌊(5 * (19 : Nat) : ℚ) / 2⌋₊ :=
  have h1 : |(40.5 : ℚ)| ≤ 90 := by norm_num [abs_le]
  have h2 : |(116.625 : ℚ)| ≤ 180 := by norm_num [abs_le]
  ⟨⟨h1, h2, le_rfl⟩, (C10_cell_size_binary64 40.5 116.625 19 h1 h2).2 le_rfl⟩

/-! ## C6: monotonic nesting -/

/-- C6 fails as stated: in `float64` the box that `EncodeBase4` returns for the
`float64` point nearest to (40.088046, 116.604412) with precision 64 is the box
it returns with precision 55, so it is not smaller; and the box that
`EncodeBase32` returns for (-90, -180) with precision 22 is the single point
(-90, -180), with `MinLat = MaxLat` and `MinLng = MaxLng`. -/
theorem C6_nesting_fails_at_64 :
    (|round64 40.088046| ≤ 90 ∧ |round64 116.604412| ≤ 180) ∧
    (F64.EncodeBase4 (round64 40.088046) (round64 116.604412) 64).box
      = (F64.EncodeBase4 (round64 40.088046) (round64 116.604412) 55).box ∧
    (F64.EncodeBase4 (round64 40.088046) (round64 116.604412) 55).box ≠ none ∧
    (F64.EncodeBase32 (-90) (-180) 22).box
      = some { MinLat := -90, MaxLat := -90, MinLng := -180, MaxLng := -180 } := by
  decide!

/-- C6 amended. Monotonic nesting, in `float64`: for valid `(lat, lng)` and
precisions `0 ≤ P1 < P2` with `P2 ≤ 19`, the box returned by
`EncodeBase32(lat, lng, P2)` lies inside the box returned by
`EncodeBase32(lat, lng, P1)` and is strictly smaller in both width and height,
and both boxes have `MinLat < MaxLat` and `MinLng < MaxLng`.  The same holds for
`EncodeBase4` with `P2 ≤ 48`. -/
theorem C6_monotonic_nesting_binary64 (lat lng : ℚ) (P1 P2 : Nat)
    (hlat : |lat| ≤ 90) (hlng : |lng| ≤ 180) (hP : P1 < P2) :
    (P2 ≤ 19 → ∃ b1 b2, (F64.EncodeBase32 lat lng P1).box = some b1 ∧
      (F64.EncodeBase32 lat lng P2).box = some b2 ∧
      (b1.MinLat ≤ b2.MinLat ∧ b2.MaxLat ≤ b1.MaxLat ∧
        b1.MinLng ≤ b2.MinLng ∧ b2.MaxLng ≤ b1.MaxLng ∧
        F64.Width b2 < F64.Width b1 ∧ F64.Height b2 < F64.Height b1) ∧
      (b1.MinLat < b1.MaxLat ∧ b1.MinLng < b1.MaxLng) ∧
      (b2.MinLat < b2.MaxLat ∧ b2.MinLng < b2.MaxLng)) ∧
    (P2 ≤ 48 → ∃ b1 b2, (F64.EncodeBase4 lat lng P1).box = some b1 ∧
      (F64.EncodeBase4 lat lng P2).box = some b2 ∧
      (b1.MinLat ≤ b2.MinLat ∧ b2.MaxLat ≤ b1.MaxLat ∧
        b1.MinLng ≤ b2.MinLng ∧ b2.MaxLng ≤ b1.MaxLng ∧
        F64.Width b2 < F64.Width b1 ∧ F64.Height b2 < F64.Height b1) ∧
      (b1.MinLat < b1.MaxLat ∧ b1.MinLng < b1.MaxLng) ∧
      (b2.MinLat < b2.MaxLat ∧ b2.MinLng < b2.MaxLng)) := by
  obtain ⟨⟨a1, a2, ea1, ea2, ⟨n1, n2, n3, n4, n5, n6⟩, la1, la2⟩,
    ⟨c1, c2, ec1, ec2, ⟨m1, m2, m3, m4, m5, m6⟩, lc1, lc2⟩⟩ :=
    exact_monotonic_nesting lat lng P1 P2 hlat hlng hP
  constructor
  · intro h2
    obtain ⟨s1, s2⟩ := F64_size_of_box32 lat lng P1 a1 (by omega) ea1
    obtain ⟨t1, t2⟩ := F64_size_of_box32 lat lng P2 a2 h2 ea2
    refine ⟨a1, a2, by rw [F64_EncodeBase32_nat lat lng P1 (by omega)]; exact ea1,
      by rw [F64_EncodeBase32_nat lat lng P2 h2]; exact ea2,
      ⟨n1, n2, n3, n4, by rw [s1, t1]; exact n5, by rw [s2, t2]; exact n6⟩, la1, la2⟩
  · intro h2
    obtain ⟨s1, s2⟩ := F64_size_of_box4 lat lng P1 c1 (by omega) ec1
    obtain ⟨t1, t2⟩ := F64_size_of_box4 lat lng P2 c2 h2 ec2
    refine ⟨c1, c2, by rw [F64_EncodeBase4_nat lat lng P1 (by omega)]; exact ec1,
      by rw [F64_EncodeBase4_nat lat lng P2 h2]; exact ec2,
      ⟨m1, m2, m3, m4, by rw [s1, t1]; exact m5, by rw [s2, t2]; exact m6⟩, lc1, lc2⟩

theorem C6_monotonic_nesting_binary64_witness :
    (|(40.5 : ℚ)| ≤ 90 ∧ |(116.625 : ℚ)| ≤ 180 ∧ 47 < 48 ∧ 48 ≤ 48) ∧
    ∃ b1 b2, (F64.EncodeBase4 40.5 116.625 (47 : Nat)).box = some b1 ∧
      (F64.EncodeBase4 40.5 116.625 (48 : Nat)).box = some b2 ∧
      (b1.MinLat ≤ b2.MinLat ∧ b2.MaxLat ≤ b1.MaxLat ∧
        b1.MinLng ≤ b2.MinLng ∧ b2.MaxLng ≤ b1.MaxLng ∧
        F64.Width b2 < F64.Width b1 ∧ F64.Height b2 < F64.Height b1) :=
  have h1 : |(40.5 : ℚ)| ≤ 90 := by norm_num [abs_le]
  have h2 : |(116.625 : ℚ)| ≤ 180 := by norm_num [abs_le]
  ⟨⟨h1, h2, by decide, le_rfl⟩,
    let ⟨b1, b2, e1, e2, hn, _⟩ :=
      (C6_monotonic_nesting_binary64 40.5 116.625 47 48 h1 h2 (by decide)).2 le_rfl
    ⟨b1, b2, e1, e2, hn⟩⟩

theorem EncodeBase32_hash_length (lat lng : ℚ) (P : Nat) (hlat : |lat| ≤ 90)
    (hlng : |lng| ≤ 180) : (EncodeBase32 lat lng P).hash.length = P := by
  rw [EncodeBase32_nat lat lng P hlat hlng, encFinish_hash]
  exact (iterG_hash_take codec32 lat lng P P le_rfl).1

theorem EncodeBase4_hash_length (lat lng : ℚ) (P : Nat) (hlat : |lat| ≤ 90)
    (hlng : |lng| ≤ 180) : (EncodeBase4 lat lng P).hash.length = P := by
  rw [EncodeBase4_nat lat lng P hlat hlng, encFinish_hash]
  exact (iterG_hash_take codec4 lat lng P P le_rfl).1

/-- One iteration of the `float64` loop keeps the input inside the ranges,
whatever the rounding of the midpoint. -/
theorem F64_encodeStep_contains (A : Codec) (lat lng : ℚ) (s : EncState)
    (h : s.minLat ≤ lat ∧ lat ≤ s.maxLat ∧ s.minLng ≤ lng ∧ lng ≤ s.maxLng) :
    (F64.encodeStep A lat lng s).minLat ≤ lat ∧ lat ≤ (F64.encodeStep A lat lng s).maxLat ∧
    (F64.encodeStep A lat lng s).minLng ≤ lng ∧ lng ≤ (F64.encodeStep A lat lng s).maxLng := by
  obtain ⟨h1, h2, h3, h4⟩ := h
  simp only [F64.encodeStep, F64.bisect]
  split_ifs with c1 c2 c3 c4 c5 c6 c7 <;>
    first
    | exact ⟨h1, h2, le_of_lt ‹_›, h4⟩
    | exact ⟨h1, h2, h3, not_lt.mp ‹_›⟩
    | exact ⟨le_of_lt ‹_›, h2, h3, h4⟩
    | exact ⟨h1, not_lt.mp ‹_›, h3, h4⟩

theorem F64_encodeLoop_contains (A : Codec) (lat lng : ℚ) (P : Int) (n : Nat) (s : EncState)
    (h : s.minLat ≤ lat ∧ lat ≤ s.maxLat ∧ s.minLng ≤ lng ∧ lng ≤ s.maxLng) :
    (F64.encodeLoop A lat lng P n s).minLat ≤ lat ∧
    lat ≤ (F64.encodeLoop A lat lng P n s).maxLat ∧
    (F64.encodeLoop A lat lng P n s).minLng ≤ lng ∧
    lng ≤ (F64.encodeLoop A lat lng P n s).maxLng := by
  induction n generalizing s with
  | zero => exact h
  | succ n ih =>
    simp only [F64.encodeLoop]
    split_ifs
    · exact ih _ (F64_encodeStep_contains A lat lng s h)
    · exact h

/-- In `float64` and for every precision, the box returned for a valid input
contains the input. -/
theorem F64_encode_contains (A : Codec) (lat lng : ℚ) (P : Int) (hlat : |lat| ≤ 90)
    (hlng : |lng| ≤ 180) :
    ∃ b, (F64.encode A lat lng P).box = some b ∧
      b.MinLat ≤ lat ∧ lat ≤ b.MaxLat ∧ b.MinLng ≤ lng ∧ lng ≤ b.MaxLng := by
  have h0 : encInit.minLat ≤ lat ∧ lat ≤ encInit.maxLat ∧ encInit.minLng ≤ lng ∧
      lng ≤ encInit.maxLng := by
    obtain ⟨a1, a2⟩ := abs_le.mp hlat
    obtain ⟨a3, a4⟩ := abs_le.mp hlng
    exact ⟨a1, a2, a3, a4⟩
  have h := F64_encodeLoop_contains A lat lng P ((A.last + 1) * P.toNat) encInit h0
  unfold F64.encode
  rw [if_neg (show ¬ |lat| > MaxLatitude from not_lt.mpr hlat),
    if_neg (show ¬ |lng| > MaxLongitude from not_lt.mpr hlng)]
  exact ⟨_, rfl, h⟩

/-! ## C3: the round-trip bound -/

/-- C3 fails as stated: in `float64`, for the `float64` point nearest to
(40.088046, 116.604412) and precision 53, the longitude that `DecodeBase4`
returns for the string of `EncodeBase4` is `32 / 2^50` away from the input,
more than half the box width, which is `24 / 2^50`. -/
theorem C3_round_trip_fails_at_53 :
    (|round64 40.088046| ≤ 90 ∧ |round64 116.604412| ≤ 180) ∧
    (F64.DecodeBase4 (F64.EncodeBase4 (round64 40.088046) (round64 116.604412) 53).hash).err
      = none ∧
    (F64.EncodeBase4 (round64 40.088046) (round64 116.604412) 53).box.map
      (fun b => F64.Width b / 2) = some (24 / 2 ^ 50) ∧
    |(F64.DecodeBase4 (F64.EncodeBase4 (round64 40.088046) (round64 116.604412) 53).hash).lng
      - round64 116.604412| = 32 / 2 ^ 50 := by
  decide!

/-- C3 amended. The round-trip bound, in `float64`: for latitude in [-90, 90],
longitude in [-180, 180] and precision `P ≤ 47`, decoding the string returned
by `EncodeBase4` succeeds and gives a point within half the box height and half
the box width of the input, and the (squared) distance between the two points
is at most the (squared) diagonal of the box.  The same holds for
`EncodeBase32` / `DecodeBase32` with `P ≤ 18`.  For every precision the input
lies inside the returned box.  The 32-symbol base-4 hash of the test decodes to
a point that agrees with (40.088046, 116.604412) to six decimals. -/
theorem C3_round_trip_bound_binary64 (lat lng : ℚ) (P : Nat) (hlat : |lat| ≤ 90)
    (hlng : |lng| ≤ 180) :
    (P ≤ 47 → ∃ b, (F64.EncodeBase4 lat lng P).box = some b ∧
      (F64.DecodeBase4 (F64.EncodeBase4 lat lng P).hash).err = none ∧
      |(F64.DecodeBase4 (F64.EncodeBase4 lat lng P).hash).lat - lat| ≤ F64.Height b / 2 ∧
      |(F64.DecodeBase4 (F64.EncodeBase4 lat lng P).hash).lng - lng| ≤ F64.Width b / 2 ∧
      ((F64.DecodeBase4 (F64.EncodeBase4 lat lng P).hash).lat - lat) ^ 2
        + ((F64.DecodeBase4 (F64.EncodeBase4 lat lng P).hash).lng - lng) ^ 2
        ≤ F64.Height b ^ 2 + F64.Width b ^ 2) ∧
    (P ≤ 18 → ∃ b, (F64.EncodeBase32 lat lng P).box = some b ∧
      (F64.DecodeBase32 (F64.EncodeBase32 lat lng P).hash).err = none ∧
      |(F64.DecodeBase32 (F64.EncodeBase32 lat lng P).hash).lat - lat| ≤ F64.Height b / 2 ∧
      |(F64.DecodeBase32 (F64.EncodeBase32 lat lng P).hash).lng - lng| ≤ F64.Width b / 2 ∧
      ((F64.DecodeBase32 (F64.EncodeBase32 lat lng P).hash).lat - lat) ^ 2
        + ((F64.DecodeBase32 (F64.EncodeBase32 lat lng P).hash).lng - lng) ^ 2
        ≤ F64.Height b ^ 2 + F64.Width b ^ 2) ∧
    (∀ Q : Int, ∃ b, (F64.EncodeBase4 lat lng Q).box = some b ∧
      b.MinLat ≤ lat ∧ lat ≤ b.MaxLat ∧ b.MinLng ≤ lng ∧ lng ≤ b.MaxLng) ∧
    (∀ Q : Int, ∃ b, (F64.EncodeBase32 lat lng Q).box = some b ∧
      b.MinLat ≤ lat ∧ lat ≤ b.MaxLat ∧ b.MinLng ≤ lng ∧ lng ≤ b.MaxLng) ∧
    ((F64.DecodeBase4 "32131021222020331021332212330320").err = none ∧
      |(F64.DecodeBase4 "32131021222020331021332212330320").lat - 40.088046| < 1 / 2000000 ∧
      |(F64.DecodeBase4 "32131021222020331021332212330320").lng - 116.604412|
        < 1 / 2000000) := by
  obtain ⟨⟨b4, e4, r4, l4, g4, -, q4⟩, ⟨b32, e32, r32, l32, g32, -, q32⟩, -⟩ :=
    exact_round_trip_bound lat lng P hlat hlng
  refine ⟨?_, ?_, fun Q => F64_encode_contains codec4 lat lng Q hlat hlng,
    fun Q => F64_encode_contains codec32 lat lng Q hlat hlng, by decide!⟩
  · intro hP
    obtain ⟨s1, s2⟩ := F64_size_of_box4 lat lng P b4 (by omega) e4
    have d := F64_DecodeBase4_eq (EncodeBase4 lat lng P).hash
      (by rw [EncodeBase4_hash_length lat lng P hlat hlng]; exact hP)
    refine ⟨b4, by rw [F64_EncodeBase4_nat lat lng P (by omega)]; exact e4, ?_⟩
    rw [F64_EncodeBase4_nat lat lng P (by omega), d, s1, s2]
    exact ⟨r4, l4, g4, q4⟩
  · intro hP
    obtain ⟨s1, s2⟩ := F64_size_of_box32 lat lng P b32 (by omega) e32
    have d := F64_DecodeBase32_eq (EncodeBase32 lat lng P).hash
      (by rw [EncodeBase32_hash_length lat lng P hlat hlng]; exact hP)
    refine ⟨b32, by rw [F64_EncodeBase32_nat lat lng P (by omega)]; exact e32, ?_⟩
    rw [F64_EncodeBase32_nat lat lng P (by omega), d, s1, s2]
    exact ⟨r32, l32, g32, q32⟩

theorem C3_round_trip_bound_binary64_witness :
    (|(40.5 : ℚ)| ≤ 90 ∧ |(116.625 : ℚ)| ≤ 180 ∧ 47 ≤ 47) ∧
    ∃ b, (F64.EncodeBase4 40.5 116.625 (47 : Nat)).box = some b ∧
      (F64.DecodeBase4 (F64.EncodeBase4 40.5 116.625 (47 : Nat)).hash).err = none ∧
      |(F64.DecodeBase4 (F64.EncodeBase4 40.5 116.625 (47 : Nat)).hash).lat - 40.5|
        ≤ F64.Height b / 2 ∧
      |(F64.DecodeBase4 (F64.EncodeBase4 40.5 116.625 (47 : Nat)).hash).lng - 116.625|
        ≤ F64.Width b / 2 :=
  have h1 : |(40.5 : ℚ)| ≤ 90 := by norm_num [abs_le]
  have h2 : |(116.625 : ℚ)| ≤ 180 := by norm_num [abs_le]
  ⟨⟨h1, h2, le_rfl⟩,
    let ⟨b, e, r, l, g, _⟩ := (C3_round_trip_bound_binary64 40.5 116.625 47 h1 h2).1 le_rfl
    ⟨b, e, r, l, g⟩⟩

theorem F64_box_centre32 (la ln : ℚ) (P : Nat) (b : Box) (hP : P ≤ 18)
    (h : (EncodeBase32 la ln P).box = some b) :
    F64.mid b.MinLat b.MaxLat = (b.MinLat + b.MaxLat) / 2 ∧
    F64.mid b.MinLng b.MaxLng = (b.MinLng + b.MaxLng) / 2 := by
  rcases EncodeBase32_box_cases la ln P with c | c
  · rw [c] at h; cases h
  · rw [c] at h
    cases h
    obtain ⟨e1, e2, -⟩ := box_float_exact codec32 la ln (5 * P) (by omega)
    exact ⟨e1, e2⟩

theorem F64_box_centre4 (la ln : ℚ) (P : Nat) (b : Box) (hP : P ≤ 45)
    (h : (EncodeBase4 la ln P).box = some b) :
    F64.mid b.MinLat b.MaxLat = (b.MinLat + b.MaxLat) / 2 ∧
    F64.mid b.MinLng b.MaxLng = (b.MinLng + b.MaxLng) / 2 := by
  rcases EncodeBase4_box_cases la ln P with c | c
  · rw [c] at h; cases h
  · rw [c] at h
    cases h
    obtain ⟨e1, e2, -⟩ := box_float_exact codec4 la ln (2 * P) (by omega)
    exact ⟨e1, e2⟩

/-! ## C11: neighbour order and adjacency -/

/-- C11 fails as stated: in `float64`, for the `float64` point nearest to
(40.088046, 116.604412) and precision 22, the self box is `1 / 2^47` high (one
`float64` step), the centre shifted one cell north is within range, and entry 1
(north) of `GetNeighborsBase32` is the self hash again; `DecodeBase32` sends it
to the lower edge of the self box, which is neither the shifted centre nor the
`float64` sum `cLat + h` that the code computes. -/
theorem C11_adjacency_fails_at_22 :
    (|round64 40.088046| ≤ 90 ∧ |round64 116.604412| ≤ 180) ∧
    ∃ b, (F64.EncodeBase32 (round64 40.088046) (round64 116.604412) 22).box = some b ∧
      F64.Height b = 1 / 2 ^ 47 ∧
      (|shiftedLat b 1| ≤ 90 ∧ |shiftedLng b 1| ≤ 180) ∧
      (F64.GetNeighborsBase32 (round64 40.088046) (round64 116.604412) 22).map
          (fun hs => hs.take 2)
        = some ["wx4uj3u9z9rmj41xuuqc3y", "wx4uj3u9z9rmj41xuuqc3y"] ∧
      (F64.DecodeBase32 "wx4uj3u9z9rmj41xuuqc3y").err = none ∧
      (F64.DecodeBase32 "wx4uj3u9z9rmj41xuuqc3y").lat = b.MinLat ∧
      b.MinLat ≠ shiftedLat b 1 ∧
      b.MinLat ≠ F64.add (F64.mid b.MinLat b.MaxLat) (F64.Height b) :=
  ⟨by decide!,
    Box.mk (1410472726778213 / 2 ^ 45) (5641890907112853 / 2 ^ 47)
      (8205306038014933 / 2 ^ 46) (4102653019007467 / 2 ^ 45),
    by decide!⟩

/-- C11 amended. Neighbour order and adjacency, in `float64`: with the slots in
the order self, north, south, west, east, northwest, southwest, northeast,
southeast, for valid `(lat, lng)`, precision `P ≤ 18` and every slot `k` whose
shifted centre (the centre of the self box moved by the slot's offset in cell
heights and cell widths) is within [-90, 90] x [-180, 180], entry `k` of
`GetNeighborsBase32` is a `P`-character hash that `DecodeBase32` decodes to
exactly the shifted centre; it was produced with a box of the size of the self
box, centred at the shifted centre.  The same holds for `GetNeighborsBase4` /
`DecodeBase4` with `P ≤ 45`. -/
theorem C11_neighbor_adjacency_binary64 (lat lng : ℚ) (P : Nat) (hlat : |lat| ≤ 90)
    (hlng : |lng| ≤ 180) (k : Nat) (hk : k < 9) :
    (P ≤ 18 → ∃ b hs, (F64.EncodeBase32 lat lng P).box = some b ∧
      F64.GetNeighborsBase32 lat lng P = some hs ∧
      (|shiftedLat b k| ≤ 90 → |shiftedLng b k| ≤ 180 →
        ∃ h, hs[k]? = some h ∧ h.length = P ∧
          F64.DecodeBase32 h = { lat := shiftedLat b k, lng := shiftedLng b k, err := none } ∧
          ∃ la ln b1, h = (F64.EncodeBase32 la ln P).hash ∧
            (F64.EncodeBase32 la ln P).box = some b1 ∧
            F64.Width b1 = F64.Width b ∧ F64.Height b1 = F64.Height b ∧
            F64.mid b1.MinLat b1.MaxLat = shiftedLat b k ∧
            F64.mid b1.MinLng b1.MaxLng = shiftedLng b k)) ∧
    (P ≤ 45 → ∃ b hs, (F64.EncodeBase4 lat lng P).box = some b ∧
      F64.GetNeighborsBase4 lat lng P = some hs ∧
      (|shiftedLat b k| ≤ 90 → |shiftedLng b k| ≤ 180 →
        ∃ h, hs[k]? = some h ∧ h.length = P ∧
          F64.DecodeBase4 h = { lat := shiftedLat b k, lng := shiftedLng b k, err := none } ∧
          ∃ la ln b1, h = (F64.EncodeBase4 la ln P).hash ∧
            (F64.EncodeBase4 la ln P).box = some b1 ∧
            F64.Width b1 = F64.Width b ∧ F64.Height b1 = F64.Height b ∧
            F64.mid b1.MinLat b1.MaxLat = shiftedLat b k ∧
            F64.mid b1.MinLng b1.MaxLng = shiftedLng b k)) := by
  obtain ⟨⟨b32, hs32, e32, g32, n32⟩, ⟨b4, hs4, e4, g4, n4⟩⟩ :=
    exact_neighbor_adjacency lat lng P hlat hlng k hk
  constructor
  · intro hP
    obtain ⟨s1, s2⟩ := F64_size_of_box32 lat lng P b32 (by omega) e32
    refine ⟨b32, hs32, by rw [F64_EncodeBase32_nat lat lng P (by omega)]; exact e32,
      by rw [F64_GetNeighborsBase32_eq lat lng P hP]; exact g32, ?_⟩
    intro c1 c2
    obtain ⟨h, x1, x2, x3, la, ln, b1, y1, y2, y3, y4, y5, y6⟩ := n32 c1 c2
    obtain ⟨t1, t2⟩ := F64_size_of_box32 la ln P b1 (by omega) y2
    have hc := F64_box_centre32 la ln P b1 (by omega) y2
    refine ⟨h, x1, x2, by rw [F64_DecodeBase32_eq h (by omega)]; exact x3, la, ln, b1,
      by rw [F64_EncodeBase32_nat la ln P (by omega)]; exact y1,
      by rw [F64_EncodeBase32_nat la ln P (by omega)]; exact y2,
      by rw [t1, s1]; exact y3, by rw [t2, s2]; exact y4,
      by rw [hc.1]; exact y5, by rw [hc.2]; exact y6⟩
  · intro hP
    obtain ⟨s1, s2⟩ := F64_size_of_box4 lat lng P b4 (by omega) e4
    refine ⟨b4, hs4, by rw [F64_EncodeBase4_nat lat lng P (by omega)]; exact e4,
      by rw [F64_GetNeighborsBase4_eq lat lng P hP]; exact g4, ?_⟩
    intro c1 c2
    obtain ⟨h, x1, x2, x3, la, ln, b1, y1, y2, y3, y4, y5, y6⟩ := n4 c1 c2
    obtain ⟨t1, t2⟩ := F64_size_of_box4 la ln P b1 (by omega) y2
    have hc := F64_box_centre4 la ln P b1 (by omega) y2
    refine ⟨h, x1, x2, by rw [F64_DecodeBase4_eq h (by omega)]; exact x3, la, ln, b1,
      by rw [F64_EncodeBase4_nat la ln P (by omega)]; exact y1,
      by rw [F64_EncodeBase4_nat la ln P (by omega)]; exact y2,
      by rw [t1, s1]; exact y3, by rw [t2, s2]; exact y4,
      by rw [hc.1]; exact y5, by rw [hc.2]; exact y6⟩

theorem C11_neighbor_adjacency_binary64_witness :
    (|(40.5 : ℚ)| ≤ 90 ∧ |(116.625 : ℚ)| ≤ 180 ∧ 4 < 9 ∧ 18 ≤ 18) ∧
    ∃ b hs, (F64.EncodeBase32 40.5 116.625 (18 : Nat)).box = some b ∧
      F64.GetNeighborsBase32 40.5 116.625 (18 : Nat) = some hs ∧
      (|shiftedLat b 4| ≤ 90 → |shiftedLng b 4| ≤ 180 →
        ∃ h, hs[4]? = some h ∧ h.length = 18 ∧
          F64.DecodeBase32 h
            = { lat := shiftedLat b 4, lng := shiftedLng b 4, err := none }) :=
  have h1 : |(40.5 : ℚ)| ≤ 90 := by norm_num [abs_le]
  have h2 : |(116.625 : ℚ)| ≤ 180 := by norm_num [abs_le]
  ⟨⟨h1, h2, by decide, le_rfl⟩,
    let ⟨b, hs, e, g, n⟩ :=
      (C11_neighbor_adjacency_binary64 40.5 116.625 18 h1 h2 4 (by decide)).1 le_rfl
    ⟨b, hs, e, g, fun c1 c2 =>
      let ⟨h, x1, x2, x3, _⟩ := n c1 c2
      ⟨h, x1, x2, x3⟩⟩⟩

/-! ## C20: re-encoding -/

/-- C20 fails as stated: in `float64`, `DecodeBase32` sends the string of 24
characters `z` to the point (90, 180), which is not in the open range, and
`EncodeBase32` of that point with precision 24 returns
"zzzzzzzzzzzzzzzzzzzzzw00", not the string; the distinct string that ends in
`y` decodes to the same point. -/
theorem C20_reencode_fails_at_24 :
    (∀ c ∈ "zzzzzzzzzzzzzzzzzzzzzzzz".toList, c ∈ Base32.toList) ∧
    (∀ c ∈ "zzzzzzzzzzzzzzzzzzzzzzzy".toList, c ∈ Base32.toList) ∧
    F64.DecodeBase32 "zzzzzzzzzzzzzzzzzzzzzzzz" = { lat := 90, lng := 180, err := none } ∧
    (F64.EncodeBase32 90 180 ("zzzzzzzzzzzzzzzzzzzzzzzz".length : Nat)).hash
      = "zzzzzzzzzzzzzzzzzzzzzw00" ∧
    F64.DecodeBase32 "zzzzzzzzzzzzzzzzzzzzzzzy" = { lat := 90, lng := 180, err := none } ∧
    "zzzzzzzzzzzzzzzzzzzzzzzy" ≠ "zzzzzzzzzzzzzzzzzzzzzzzz" := by
  decide!

/-- C20 amended. Re-encoding is the identity on hashes, in `float64`: for every
string of at most 18 base-32 alphabet characters, `DecodeBase32` succeeds with
a point in range (`|lat| < 90`, `|lng| < 180`), and `EncodeBase32` of that
point with the length of the string as precision returns exactly the string;
hence two distinct such hashes of the same length never decode to the same
point.  The same holds for `DecodeBase4` / `EncodeBase4` on strings of at most
47 characters over "0123". -/
theorem C20_reencode_identity_binary64 (str : String) :
    ((∀ c ∈ str.toList, c ∈ Base32.toList) → str.length ≤ 18 →
      ((F64.DecodeBase32 str).err = none ∧
        |(F64.DecodeBase32 str).lat| < 90 ∧ |(F64.DecodeBase32 str).lng| < 180 ∧
        (F64.EncodeBase32 (F64.DecodeBase32 str).lat (F64.DecodeBase32 str).lng
          str.length).hash = str ∧
        (F64.EncodeBase32 (F64.DecodeBase32 str).lat (F64.DecodeBase32 str).lng
          str.length).err = none) ∧
      (∀ t : String, (∀ c ∈ t.toList, c ∈ Base32.toList) → t.length = str.length → t ≠ str →
        ¬ ((F64.DecodeBase32 t).lat = (F64.DecodeBase32 str).lat ∧
            (F64.DecodeBase32 t).lng = (F64.DecodeBase32 str).lng))) ∧
    ((∀ c ∈ str.toList, c ∈ Base4.toList) → str.length ≤ 47 →
      ((F64.DecodeBase4 str).err = none ∧
        |(F64.DecodeBase4 str).lat| < 90 ∧ |(F64.DecodeBase4 str).lng| < 180 ∧
        (F64.EncodeBase4 (F64.DecodeBase4 str).lat (F64.DecodeBase4 str).lng
          str.length).hash = str ∧
        (F64.EncodeBase4 (F64.DecodeBase4 str).lat (F64.DecodeBase4 str).lng
          str.length).err = none) ∧
      (∀ t : String, (∀ c ∈ t.toList, c ∈ Base4.toList) → t.length = str.length → t ≠ str →
        ¬ ((F64.DecodeBase4 t).lat = (F64.DecodeBase4 str).lat ∧
            (F64.DecodeBase4 t).lng = (F64.DecodeBase4 str).lng))) := by
  obtain ⟨a32, a4⟩ := exact_reencode_identity str
  constructor
  · intro h hl
    obtain ⟨r, u⟩ := a32 h
    rw [F64_DecodeBase32_eq str hl, F64_EncodeBase32_nat _ _ _ (by omega)]
    refine ⟨r, ?_⟩
    intro t ht hlen hne
    rw [F64_DecodeBase32_eq t (by omega)]
    exact u t ht hlen hne
  · intro h hl
    obtain ⟨r, u⟩ := a4 h
    rw [F64_DecodeBase4_eq str hl, F64_EncodeBase4_nat _ _ _ (by omega)]
    refine ⟨r, ?_⟩
    intro t ht hlen hne
    rw [F64_DecodeBase4_eq t (by omega)]
    exact u t ht hlen hne

/-! ## C17: the sentinel of `Distance` and the result NaN -/

theorem tableMath_nonneg : tableMath.NonNeg :=
  ⟨fun x _ => abs_nonneg x, fun y _ _ => abs_nonneg y⟩

/-- C17. The sentinel, in `float64`: `Distance(lng1, lat1, lng2, lat2)` returns
-1 exactly when `|lat1| > 90` or `|lat2| > 90` or `|lng1| > 180` or
`|lng2| > 180`.  For an in-range input the result is NaN exactly when the
computed `a` is negative or `1 - a` is negative; otherwise it is the
non-negative number `2 * 6371393 * atan2(sqrt(a), sqrt(1 - a))`.  So the claim
that every in-range input gives a non-negative number fails where rounding
takes `a` above 1. -/
theorem C17_distance_sentinel_or_nan (M : GoMath) (hM : M.NonNeg) (lng1 lat1 lng2 lat2 : ℚ) :
    (F64.Distance M lng1 lat1 lng2 lat2 = some (-1) ↔
      (|lat1| > 90 ∨ |lat2| > 90 ∨ |lng1| > 180 ∨ |lng2| > 180)) ∧
    (¬ (|lat1| > 90 ∨ |lat2| > 90 ∨ |lng1| > 180 ∨ |lng2| > 180) →
      (F64.Distance M lng1 lat1 lng2 lat2 = none ↔
        (F64.haversine M lng1 lat1 lng2 lat2 < 0 ∨
          F64.sub 1 (F64.haversine M lng1 lat1 lng2 lat2) < 0)) ∧
      (∀ d, F64.Distance M lng1 lat1 lng2 lat2 = some d →
        0 ≤ d ∧
        d = F64.mul (2 * 6371393)
          (M.Atan2 (M.Sqrt (F64.haversine M lng1 lat1 lng2 lat2))
            (M.Sqrt (F64.sub 1 (F64.haversine M lng1 lat1 lng2 lat2)))))) := by
  have key : ¬ (|lat1| > 90 ∨ |lat2| > 90 ∨ |lng1| > 180 ∨ |lng2| > 180) →
      (F64.Distance M lng1 lat1 lng2 lat2 = none ↔
        (F64.haversine M lng1 lat1 lng2 lat2 < 0 ∨
          F64.sub 1 (F64.haversine M lng1 lat1 lng2 lat2) < 0)) ∧
      (∀ d, F64.Distance M lng1 lat1 lng2 lat2 = some d →
        0 ≤ d ∧
        d = F64.mul (2 * 6371393)
          (M.Atan2 (M.Sqrt (F64.haversine M lng1 lat1 lng2 lat2))
            (M.Sqrt (F64.sub 1 (F64.haversine M lng1 lat1 lng2 lat2))))) := by
    intro h
    have g1 : ¬ (|lat1| > 90 ∨ |lat2| > 90) := fun c => h (c.elim Or.inl (fun c => Or.inr (Or.inl c)))
    have g2 : ¬ (|lng1| > 180 ∨ |lng2| > 180) := fun c => h (Or.inr (Or.inr c))
    unfold F64.Distance
    rw [if_neg g1, if_neg g2]
    simp only [F64.Sqrt, EarthRadius]
    by_cases ha : F64.haversine M lng1 lat1 lng2 lat2 < 0
    · rw [if_pos ha]
      exact ⟨⟨fun _ => Or.inl ha, fun _ => rfl⟩, fun d hd => by cases hd⟩
    · rw [if_neg ha]
      by_cases hb : F64.sub 1 (F64.haversine M lng1 lat1 lng2 lat2) < 0
      · rw [if_pos hb]
        exact ⟨⟨fun _ => Or.inr hb, fun _ => rfl⟩, fun d hd => by cases hd⟩
      · rw [if_neg hb]
        refine ⟨⟨fun c => (by cases c), fun c => (c.elim ha hb).elim⟩, ?_⟩
        intro d hd
        cases hd
        refine ⟨?_, rfl⟩
        exact round64_nonneg _ (mul_nonneg (by norm_num)
          (hM.2 _ _ (hM.1 _ (not_lt.mp ha))))
  refine ⟨⟨?_, ?_⟩, key⟩
  · intro h
    by_contra c
    obtain ⟨k1, k2⟩ := key c
    have := (k2 (-1) h).1
    norm_num at this
  · intro h
    unfold F64.Distance
    by_cases h1 : |lat1| > 90 ∨ |lat2| > 90
    · rw [if_pos h1]
    · rw [if_neg h1, if_pos (by tauto)]

theorem C17_distance_sentinel_or_nan_witness :
    tableMath.NonNeg ∧
    F64.haversine tableMath 180 7 0 (-7) = 1 + 1 / 2 ^ 52 ∧
    F64.Distance tableMath 180 7 0 (-7) = none :=
  ⟨tableMath_nonneg, by decide!,
    ((C17_distance_sentinel_or_nan tableMath tableMath_nonneg 180 7 0 (-7)).2
      (by decide!)).1.mpr (Or.inr (by decide!))⟩

end Geohash
